import Mathlib

/-!
Formal model of the ICCAD 2025 multi-bit flip-flop banking and legalization
engine (sources under `src/src/`).  C++ doubles are modelled as exact
rationals (`ℚ`); `std::floor`/`std::ceil` become `Int.floor`/`Int.ceil`.
Euclidean displacements are compared through their squares: `Real.sqrt` is
strictly monotone on nonnegative arguments, so every `<`/`>` branch taken by
the C++ code on `sqrt`-values coincides with the branch taken on the squared
values (the maximum-displacement bound is carried as its square).
`std::numeric_limits<double>::max()` sentinels become `Option ℚ` with `none`
playing the role of the sentinel (`DBL_MAX < DBL_MAX` is false, matching
`none < none`).  C++ hash maps are modelled as association lists; theorems
quantify over the list order wherever the C++ iteration order is
unspecified.
-/

/-! ## Rational helpers -/

/-- Site-aligned rounding down relative to a left edge `xmin` with site width
`w`: the C++ idiom `xmin + floor((x - xmin) / w) * w`. -/
def alignDown (xmin w x : ℚ) : ℚ := xmin + (⌊(x - xmin) / w⌋ : ℚ) * w

/-- Site-rounded placement width: the C++ idiom `ceil(width / w) * w`
(`placeCellwidth` in `Legalizer::placeRow`). -/
def roundW (w x : ℚ) : ℚ := (⌈x / w⌉ : ℚ) * w

/-- Squared Euclidean distance between two points. -/
def sqDist (ax ay bx bY : ℚ) : ℚ := (ax - bx) * (ax - bx) + (ay - bY) * (ay - bY)

/-- Strict comparison on `Option ℚ` where `none` stands for the C++
`DBL_MAX` sentinel: `DBL_MAX < DBL_MAX` is false and every finite value is
below `DBL_MAX`. -/
def dmLT : Option ℚ → Option ℚ → Bool
  | some a, some b => decide (a < b)
  | some _, none => true
  | none, _ => false

/-- Insertion sort by a rational key (used to model `std::sort` with a
`position.x` comparator; stable, hence one of the permitted `std::sort`
outcomes). -/
def insertByKey (key : α → ℚ) (a : α) : List α → List α
  | [] => [a]
  | b :: bs => if key a ≤ key b then a :: b :: bs else b :: insertByKey key a bs

/-- Sort a list ascending by a rational key. -/
def sortByKey (key : α → ℚ) (l : List α) : List α :=
  l.foldr (insertByKey key) []

/-! ## Legalizer data model (`Legalization.hpp` / `data_structures.hpp`) -/

/-- Placement status of an instance (`Instance::PlacementStatus`). -/
inductive PStatus where
  | unplaced
  | placed
  | fixedStatus
deriving DecidableEq, Repr

/-- The slice of `Instance` that the legalizer reads and writes:
name, cell width (`cell_template->width`), original position, the scratch
`x_new`/`y_new` fields, the Abacus weight and the placement status. -/
structure LInst where
  name : String
  width : ℚ
  posX : ℚ
  posY : ℚ
  xNew : ℚ := 0
  yNew : ℚ := 0
  weight : ℚ := 1
  status : PStatus := PStatus.unplaced
deriving DecidableEq, Repr

/-- An Abacus cluster (`struct Cluster`).  The C++ code chains clusters
right-to-left through `leftCluster`; here a sub-row holds the whole chain as
a list whose head is the rightmost cluster (`lastCluster`), and each later
list entry is the `leftCluster` of the one before it. -/
structure ClusterM where
  x : ℚ
  width : ℚ
  weight : ℚ
  q : ℚ
  cells : List LInst
deriving DecidableEq, Repr

/-- A sub-row (`struct SubRow`): interval `[xmin, xmax)`, remaining usable
width (`Usewidth`) and the cluster chain reachable from `lastCluster`. -/
structure SubRowM where
  xmin : ℚ
  xmax : ℚ
  usew : ℚ
  clusters : List ClusterM := []
deriving DecidableEq, Repr

/-- A placement row (`struct PlacementRow`) with its origin, site width and
carved sub-rows. -/
structure PRow where
  originX : ℚ
  originY : ℚ
  siteW : ℚ
  subrows : List SubRowM
deriving DecidableEq, Repr

/-! ## Legalizer operations (`Legalization.cpp`) -/

/-- `Legalizer::AddCell`: append an instance to a cluster, updating weight,
weighted position sum `q` and total width. -/
def AddCell (c : ClusterM) (inst : LInst) (tempX placeW : ℚ) : ClusterM :=
  { c with
    cells := c.cells ++ [inst]
    weight := c.weight + inst.weight
    q := c.q + inst.weight * (tempX - c.width)
    width := c.width + placeW }

/-- `Legalizer::AddCluster`: merge the right cluster `curr` into its left
neighbour `pred`. -/
def AddCluster (pred curr : ClusterM) : ClusterM :=
  { x := pred.x
    cells := pred.cells ++ curr.cells
    weight := pred.weight + curr.weight
    q := pred.q + curr.q - curr.weight * pred.width
    width := pred.width + curr.width }

/-- The repositioning step inside `Legalizer::Collapse`: the optimal x
`q / weight`, site-aligned downward and clamped into
`[xmin, xmax - width]` (minimum clamp first, as in the C++ code). -/
def collapseX (xmin xmax sitew : ℚ) (c : ClusterM) : ℚ :=
  let x1 := alignDown xmin sitew (c.q / c.weight)
  let x2 := if x1 < xmin then xmin else x1
  if x2 + c.width > xmax then xmax - c.width else x2

/-- `Legalizer::Collapse`: reposition the rightmost cluster `c` at its
optimal site-aligned, clamped x and merge it into its left neighbour as long
as they overlap.  The second argument is the chain to the left of `c`; the
result is the new chain (head = new rightmost cluster). -/
def Collapse (xmin xmax sitew : ℚ) : ClusterM → List ClusterM → List ClusterM
  | c, [] => [{ c with x := collapseX xmin xmax sitew c }]
  | c, p :: ps =>
    let x3 := collapseX xmin xmax sitew c
    if p.x + p.width > x3 then
      Collapse xmin xmax sitew (AddCluster p { c with x := x3 }) ps
    else
      { c with x := x3 } :: p :: ps

/-- The nominal target x of `Legalizer::placeRow`: the original x snapped
into the sub-row and onto its site grid (three-way branch on the raw cell
width). -/
def tempXof (xmin xmax sitew rawW posX : ℚ) : ℚ :=
  if posX ≤ xmin then xmin
  else if posX + rawW ≥ xmax then alignDown xmin sitew (xmax - rawW)
  else alignDown xmin sitew posX

/-- The committing branch (`final = true`) of `Legalizer::placeRow`:
decrement `Usewidth`, either start a fresh cluster at `tempX` (writing the
instance's `x_new`/`y_new`) or add the cell to the last cluster and run
`Collapse`.  Returns the updated sub-row and instance. -/
def placeRowFinal (row : PRow) (sr : SubRowM) (inst : LInst) : SubRowM × LInst :=
  let placeW := roundW row.siteW inst.width
  let usew := sr.usew - placeW
  let tempX := tempXof sr.xmin sr.xmax row.siteW inst.width inst.posX
  let fresh : ClusterM := { x := tempX, width := 0, weight := 0, q := 0, cells := [] }
  match sr.clusters with
  | [] =>
    ({ sr with usew := usew, clusters := [AddCell fresh inst tempX placeW] },
     { inst with xNew := tempX, yNew := row.originY })
  | last :: preds =>
    if last.x + last.width ≤ tempX then
      ({ sr with usew := usew, clusters := AddCell fresh inst tempX placeW :: last :: preds },
       { inst with xNew := tempX, yNew := row.originY })
    else
      let last' := AddCell last inst tempX placeW
      ({ sr with usew := usew, clusters := Collapse sr.xmin sr.xmax row.siteW last' preds },
       inst)

/-- The simulated position inside the trial merge chain: same alignment and
clamping as `collapseX`, on the accumulated `TempQ`, `TempWeight`,
`TempWidth`. -/
def trialX (xmin xmax sitew q wgt tw : ℚ) : ℚ :=
  let x1 := alignDown xmin sitew (q / wgt)
  let x2 := if x1 < xmin then xmin else x1
  if x2 + tw > xmax then xmax - tw else x2

/-- The simulated merge chain of the trial branch (`final = false`) of
`Legalizer::placeRow`: returns the final trial x, the accumulated width and
the list of clusters that were touched (`checkmaxdis`). -/
def trialMerge (xmin xmax sitew : ℚ) : ℚ → ℚ → ℚ → ClusterM →
    List ClusterM → List ClusterM → ℚ × ℚ × List ClusterM
  | q, wgt, tw, curr, [], acc => (trialX xmin xmax sitew q wgt tw, tw, acc ++ [curr])
  | q, wgt, tw, curr, p :: ps, acc =>
    let x3 := trialX xmin xmax sitew q wgt tw
    if p.x + p.width > x3 then
      trialMerge xmin xmax sitew (q + (p.q - wgt * p.width)) (wgt + p.weight)
        (tw + p.width) p ps (acc ++ [curr])
    else (x3, tw, acc ++ [curr])

/-- The max-displacement audit of the trial branch: walk every touched
cluster's members from the merged x, advancing by site-rounded widths, and
report whether some member would exceed the (squared) bound. -/
def checkWalkCells (sitew originY maxDispSq : ℚ) : ℚ → List LInst → Bool × ℚ
  | x, [] => (false, x)
  | x, cp :: cps =>
    if sqDist cp.posX cp.posY x originY > maxDispSq then (true, x)
    else checkWalkCells sitew originY maxDispSq (x + roundW sitew cp.width) cps

/-- Iterate `checkWalkCells` over the touched clusters. -/
def checkWalk (sitew originY maxDispSq : ℚ) : ℚ → List ClusterM → Bool
  | _, [] => false
  | x, c :: cs =>
    let r := checkWalkCells sitew originY maxDispSq x c.cells
    if r.1 then true else checkWalk sitew originY maxDispSq r.2 cs

/-- The trial branch (`final = false`, `check = true`) of
`Legalizer::placeRow`: compute the would-be position and return the squared
displacement cost, or `none` when the max-displacement bound is exceeded
(the C++ `DBL_MAX` return). -/
def placeRowTrial (row : PRow) (sr : SubRowM) (inst : LInst) (maxDispSq : ℚ) :
    Option ℚ :=
  let placeW := roundW row.siteW inst.width
  let tempX := tempXof sr.xmin sr.xmax row.siteW inst.width inst.posX
  let finish := fun (xNew : ℚ) =>
    let d := sqDist inst.posX inst.posY xNew row.originY
    if d > maxDispSq then none else some d
  match sr.clusters with
  | [] => finish tempX
  | last :: preds =>
    if last.x + last.width ≤ tempX then finish tempX
    else
      let m := trialMerge sr.xmin sr.xmax row.siteW
        (last.q + inst.weight * (tempX - last.width))
        (last.weight + inst.weight)
        (last.width + placeW) last preds []
      if checkWalk row.siteW row.originY maxDispSq m.1 m.2.2 then none
      else finish (m.1 + m.2.1 - placeW)

/-- `Legalizer::findBestRow`: index of the row whose origin y is closest to
the instance (strict improvement, so the first minimum wins); `none` when
there are no rows. -/
def findBestRow (rows : List PRow) (inst : LInst) : Option ℕ :=
  (rows.foldl
    (fun (st : ℕ × Option (ℚ × ℕ)) row =>
      let dy := |inst.posY - row.originY|
      match st.2 with
      | none => (st.1 + 1, some (dy, st.1))
      | some best =>
        if dy < best.1 then (st.1 + 1, some (dy, st.1)) else (st.1 + 1, some best))
    (0, none)).2.map Prod.snd

/-- `Legalizer::findSubrowpos` inner state: `none` plays the role of the
initial `DBL_MAX` displacement. -/
def findSubrowposAux (inst : LInst) : List SubRowM → ℕ → Option ℚ → Option ℕ → Option ℕ
  | [], _, _, best => best
  | sr :: rest, idx, minD, best =>
    if inst.width > sr.usew then findSubrowposAux inst rest (idx + 1) minD best
    else
      let move :=
        if inst.posX < sr.xmin then sr.xmin - inst.posX
        else if inst.posX + inst.width > sr.xmax then inst.posX + inst.width - sr.xmax
        else 0
      if dmLT (some move) minD then
        findSubrowposAux inst rest (idx + 1) (some move) (some idx)
      else best

/-- `Legalizer::findSubrowpos`: among sub-rows with enough usable width,
pick the one needing the least horizontal move, scanning left to right and
breaking as soon as the move grows. -/
def findSubrowpos (inst : LInst) (row : PRow) : Option ℕ :=
  findSubrowposAux inst row.subrows 0 none none

/-- One candidate probe of the Abacus sweep: look up the sub-row of row
`ri`, run the trial insertion, and keep the result if it beats the best cost
so far (`cost < Cbest`, strict). -/
def sweepTry (rows : List PRow) (maxDispSq : ℚ) (inst : LInst) (ri : ℕ)
    (best : Option (ℚ × ℕ × ℕ)) : Option (ℚ × ℕ × ℕ) :=
  match rows[ri]? with
  | none => best
  | some row =>
    match findSubrowpos inst row with
    | none => best
    | some si =>
      match row.subrows[si]? with
      | none => best
      | some sr =>
        match placeRowTrial row sr inst maxDispSq with
        | none => best
        | some c =>
          if dmLT (some c) (best.map Prod.fst) then some (c, ri, si) else best

/-- The pruning test of the sweep: a direction stays alive while
`|position.y - row.origin.y| < Cbest`; the C++ compares against the
square-rooted best cost, which is order-equivalent to comparing squares. -/
def sweepAlive (rows : List PRow) (inst : LInst) (ri : ℕ)
    (best : Option (ℚ × ℕ × ℕ)) : Bool :=
  match rows[ri]? with
  | none => false
  | some row =>
    match best with
    | none => true
    | some b => decide (sqDist 0 inst.posY 0 row.originY < b.1)

/-- The bidirectional sweep of `Legalizer::Abacus` (step 4): at offset `i`
from the closest row, examine rows `o + i` and `o - i` while either side is
alive; stop when both are pruned or out of bounds.  `fuel` counts the
remaining loop iterations (`rows.length` in total, as in the C++ loop
bound). -/
def sweepLoop (rows : List PRow) (maxDispSq : ℚ) (inst : LInst) (o : ℕ) :
    ℕ → ℕ → Option (ℚ × ℕ × ℕ) → Option (ℚ × ℕ × ℕ)
  | 0, _, best => best
  | fuel + 1, i, best =>
    let upIdx := o + i
    let up := sweepAlive rows inst upIdx best
    let down :=
      if i ≤ o then sweepAlive rows inst (o - i) best else false
    if ¬ up ∧ ¬ down then best
    else
      let best1 := if up then sweepTry rows maxDispSq inst upIdx best else best
      let best2 := if down then sweepTry rows maxDispSq inst (o - i) best1 else best1
      sweepLoop rows maxDispSq inst o fuel (i + 1) best2

/-- Replace sub-row `si` of row `ri` after a committing insertion. -/
def commitAt (rows : List PRow) (ri si : ℕ) (inst : LInst) : List PRow × LInst :=
  match rows[ri]? with
  | none => (rows, inst)
  | some row =>
    match row.subrows[si]? with
    | none => (rows, inst)
    | some sr =>
      let r := placeRowFinal row sr inst
      (rows.set ri { row with subrows := row.subrows.set si r.1 }, r.2)

/-- One iteration of the Abacus outer loop for a single instance: find the
closest row, sweep outward for the cheapest (row, sub-row), then either
commit (status becomes `PLACED`) or fall back to the original position with
the status untouched (the warning branch of `Legalizer::Abacus`). -/
def abacusStep (maxDispSq : ℚ) (rows : List PRow) (inst : LInst) :
    List PRow × LInst :=
  match findBestRow rows inst with
  | none => (rows, inst)
  | some o =>
    match sweepLoop rows maxDispSq inst o rows.length 0 none with
    | some brs =>
      let r := commitAt rows brs.2.1 brs.2.2 inst
      (r.1, { r.2 with status := PStatus.placed })
    | none =>
      (rows, { inst with xNew := inst.posX, yNew := inst.posY })

/-- `Legalizer::Abacus` processes the flip-flop instances in ascending
`position.x` order; the fold threads the row state and collects the
processed instances. -/
def abacusRun (maxDispSq : ℚ) (rows : List PRow) (ffs : List LInst) :
    List PRow × List LInst :=
  (sortByKey (fun i => i.posX) ffs).foldl
    (fun st inst =>
      let r := abacusStep maxDispSq st.1 inst
      (r.1, st.2 ++ [r.2]))
    (rows, [])

/-! ## Final layout (`Legalizer::place`) -/

/-- A cell as laid out by `Legalizer::place`: its name, assigned `x_new`,
its site-rounded placement width and assigned `y_new`. -/
structure PlacedCell where
  name : String
  x : ℚ
  w : ℚ
  y : ℚ
deriving DecidableEq, Repr

/-- Lay the members of one cluster at consecutive site-aligned positions
starting from `x` (the inner loop of `Legalizer::place`). -/
def layoutCells (sitew originY : ℚ) : ℚ → List LInst → List PlacedCell
  | _, [] => []
  | x, i :: is =>
    { name := i.name, x := x, w := roundW sitew i.width, y := originY } ::
      layoutCells sitew originY (x + roundW sitew i.width) is

/-- Lay out a whole cluster chain (rightmost cluster first, as the C++ walk
from `lastCluster` through `leftCluster`). -/
def layoutChain (xmin sitew originY : ℚ) (chain : List ClusterM) : List PlacedCell :=
  chain.flatMap (fun c => layoutCells sitew originY (alignDown xmin sitew c.x) c.cells)

/-- All cells laid out in one row by `Legalizer::place`. -/
def layoutRow (row : PRow) : List PlacedCell :=
  row.subrows.flatMap (fun sr => layoutChain sr.xmin row.siteW row.originY sr.clusters)

/-- Interval disjointness of two placed cells: their footprints
`[x, x + w)` do not intersect. -/
def cellsDisjoint (a b : PlacedCell) : Prop := a.x + a.w ≤ b.x ∨ b.x + b.w ≤ a.x

instance : DecidablePred (fun p : PlacedCell × PlacedCell => cellsDisjoint p.1 p.2) :=
  fun p => by unfold cellsDisjoint; infer_instance

instance (a b : PlacedCell) : Decidable (cellsDisjoint a b) := by
  unfold cellsDisjoint; infer_instance

/-- Containment of a placed cell's footprint in a sub-row. -/
def cellInSubrow (sr : SubRowM) (a : PlacedCell) : Prop :=
  sr.xmin ≤ a.x ∧ a.x + a.w ≤ sr.xmax

instance (sr : SubRowM) (a : PlacedCell) : Decidable (cellInSubrow sr a) := by
  unfold cellInSubrow; infer_instance

/-- The post-legalization contract claimed for a row: the laid-out
footprints are pairwise disjoint and each lies inside one of the row's
sub-rows. -/
def rowLayoutOk (row : PRow) : Prop :=
  (layoutRow row).Pairwise cellsDisjoint ∧
    ∀ a ∈ layoutRow row, ∃ sr ∈ row.subrows, cellInSubrow sr a

instance (row : PRow) : Decidable (rowLayoutOk row) := by
  unfold rowLayoutOk; infer_instance

/-! ## Pipeline data model (`data_structures.hpp`)

Cells, instances, the transformation trail and the grouping tables, as the
transformation pipeline (debanker, substituter, banker, recorder) uses
them.  Instances refer to their cell template by name; the C++ code keeps a
`shared_ptr` that is always obtained by a by-name lookup in
`db.cell_library`, so by-name indirection is faithful as long as cell names
are unique keys (they are: `cell_library` is a map keyed by name). -/

/-- Substring test (`std::string::find(pat) != npos`). -/
def hasSub (s pat : String) : Bool := decide (pat.data <:+: s.data)

/-- `Pin::FlipFlopPinType`. -/
inductive FFPinType where
  | dataIn | dataOut | dataOutN | clockPin | scanIn | scanOut | scanEnable
  | resetPin | setPin | rdPin | sdPin | srPin | rsPin | vddr | otherFF | notFF
deriving DecidableEq, Repr

/-- A cell-template pin with its derived flip-flop functional type. -/
structure CPin where
  name : String
  ffType : FFPinType
deriving DecidableEq, Repr

/-- The slice of `CellTemplate` the pipeline reads. -/
structure Cell where
  name : String
  width : ℚ := 0
  leakage : ℚ := 0
  area : ℚ := 0
  bitWidth : ℤ := 1
  isFF : Bool := false
  degenerate : String := "null"
  pins : List CPin := []
deriving DecidableEq, Repr

/-- `BankingType`. -/
inductive BankTy where
  | fsdn | risingLsrdpq | noTy
deriving DecidableEq, Repr

/-- The slice of `Instance` the pipeline reads and writes. -/
structure Inst where
  name : String
  cellName : String
  posX : ℚ := 0
  posY : ℚ := 0
  moduleName : String := ""
  bankingType : BankTy := BankTy.noTy
  clusterId : String := ""
  bestFF : String := ""
  bestScore : Option ℚ := none
  connections : List (String × String) := []
deriving DecidableEq, Repr

/-- `TransformationRecord::Operation`. -/
inductive TOp where
  | keepOp | debankOp | bankOp | substituteOp | postSubstituteOp
deriving DecidableEq, Repr

/-- `TransformationRecord`. -/
structure TRec where
  origName : String
  resName : String
  op : TOp
  origCell : String
  resCell : String
  pinMapping : List (String × String) := []
  related : List String := []
  resultX : ℚ := 0
  resultY : ℚ := 0
  clusterIdR : String := ""
  stage : String := ""
deriving DecidableEq, Repr

/-- One entry of the nested `hierarchical_ff_groups` map
(clock edge → pin interface → bit width → cell names), flattened in the
nested-map iteration order. -/
structure HierEntry where
  edge : String
  pins : String
  bit : ℤ
  cells : List String
deriving DecidableEq, Repr

/-- The slice of `DesignDatabase` the transformation pipeline uses.
`groups` is `ff_instance_groups` with members kept by name. -/
structure Db where
  cells : List Cell
  instances : List Inst
  alpha : ℚ := 0
  beta : ℚ := 0
  gamma : ℚ := 0
  timing : List (String × ℚ) := []
  hierGroups : List HierEntry := []
  optimalFF : List (String × String) := []
  groups : List (String × List String) := []
  history : List TRec := []
deriving DecidableEq, Repr

/-- Cell-library lookup (`db.cell_library.find`). -/
def findCell (db : Db) (n : String) : Option Cell := db.cells.find? (fun c => c.name == n)

/-- Instance-table lookup (`db.instances.find`). -/
def findInst (l : List Inst) (n : String) : Option Inst := l.find? (fun i => i.name == n)

/-- Replace the named instance in the table. -/
def replInst (l : List Inst) (v : Inst) : List Inst :=
  l.map (fun i => if i.name == v.name then v else i)

/-- `db.instances[name] = v` on `std::unordered_map`: overwrite the existing
entry or append a new one. -/
def upsertInst (l : List Inst) (v : Inst) : List Inst :=
  if l.any (fun i => i.name == v.name) then replInst l v else l ++ [v]

/-- `db.instances.erase(name)`. -/
def eraseInst (l : List Inst) (n : String) : List Inst :=
  l.filter (fun i => ¬ (i.name == n))

/-- Whether an instance is a flip-flop (`Instance::is_flip_flop`, via its
resolved cell template). -/
def isFFInst (db : Db) (i : Inst) : Bool :=
  match findCell db i.cellName with
  | some c => c.isFF
  | none => false

/-! ## Scoring (`substitution.cpp` / `ff_instance_grouping.cpp`) -/

/-- Modelled from the spec: the precomputed timing surrogate table
(`TimingReprMap::get_timing_repr`, from `timing_repr_hardcoded.hpp`, which
is not part of the sources) — a constant map `cellName → double`; unknown
cells map to 0.  The table contents are carried as data in `Db.timing`. -/
def timingRepr (t : List (String × ℚ)) (n : String) : ℚ :=
  (((t.find? (fun p => p.1 == n)).map Prod.snd).getD 0)

/-- `calculate_ff_score` (substitution.cpp): the three-stage substituter's
scoring function `(β·P·10⁻³ + γ·A)/max(1,b) + α·T(c)`; `none` models the
`DBL_MAX` returned for unknown or non-flip-flop cells. -/
def calculate_ff_score (db : Db) (n : String) : Option ℚ :=
  match findCell db n with
  | none => none
  | some c =>
    if c.isFF then
      some ((db.beta * c.leakage * (1 / 1000) + db.gamma * c.area) /
          ((max 1 c.bitWidth : ℤ) : ℚ) + db.alpha * timingRepr db.timing n)
    else none

/-- The per-candidate score of `calculate_optimal_ff_for_instance_groups`
(ff_instance_grouping.cpp): same power/area term over the group's bit
width (`bit_width > 0 ? bit_width : 1`), but the timing term is
`α·T(c)·1000`; `none` models the `continue` on unknown or non-flip-flop
cells. -/
def cacheCellScore (db : Db) (groupBit : ℤ) (n : String) : Option ℚ :=
  match findCell db n with
  | none => none
  | some c =>
    if c.isFF then
      some ((db.beta * c.leakage * (1 / 1000) + db.gamma * c.area) /
          (((if 0 < groupBit then groupBit else 1) : ℤ) : ℚ) +
        db.alpha * timingRepr db.timing n * 1000)
    else none

/-- The group key string `edge|pins|<bit>bit`. -/
def hierKeyOf (e : HierEntry) : String :=
  e.edge ++ "|" ++ e.pins ++ "|" ++ toString e.bit ++ "bit"

/-- The inner loop of `calculate_optimal_ff_for_instance_groups`: the first
strictly-best-scoring member cell of a hierarchical group. -/
def bestCellOfEntry (db : Db) (e : HierEntry) : Option String :=
  (e.cells.foldl
    (fun (st : Option (String × ℚ)) n =>
      match cacheCellScore db e.bit n with
      | none => st
      | some s =>
        match st with
        | none => some (n, s)
        | some b => if s < b.2 then some (n, s) else some b)
    none).map Prod.fst

/-- `calculate_optimal_ff_for_instance_groups`: rebuild
`optimal_ff_for_groups` from the hierarchical cell groups. -/
def calculate_optimal_ff_for_instance_groups (db : Db) : Db :=
  { db with
    optimalFF := db.hierGroups.foldl
      (fun acc e =>
        match bestCellOfEntry db e with
        | none => acc
        | some b => acc ++ [(hierKeyOf e, b)])
      [] }

/-- `optimal_ff_for_groups` lookup. -/
def findOptimal (db : Db) (key : String) : Option String :=
  (db.optimalFF.find? (fun p => p.1 == key)).map Prod.snd

/-! ## Three-stage substitution (`substitution.cpp`) -/

/-- `get_hierarchical_key_from_instance`: the key of the first hierarchical
group containing the instance's current cell, or `""`. -/
def get_hierarchical_key_from_instance (db : Db) (i : Inst) : String :=
  match db.hierGroups.find? (fun e => e.cells.contains i.cellName) with
  | some e => hierKeyOf e
  | none => ""

/-- `update_best_ff_record`: remember the lowest-scoring cell the instance
was ever replaced by. -/
def update_best_ff_record (db : Db) (i : Inst) (ffName : String) : Inst :=
  let s := calculate_ff_score db ffName
  if dmLT s i.bestScore then { i with bestFF := ffName, bestScore := s } else i

/-- Stage 1 body for one instance: unconditionally replace the cell by the
cached optimum of its nominal hierarchical group. -/
def stage1Inst (db : Db) (n : String) : Db :=
  match findInst db.instances n with
  | none => db
  | some i =>
    let key := get_hierarchical_key_from_instance db i
    if key = "" then db
    else
      match findOptimal db key with
      | none => db
      | some opt =>
        match findCell db opt with
        | none => db
        | some _ =>
          if i.cellName ≠ opt then
            let i2 := update_best_ff_record db { i with cellName := opt } opt
            { db with instances := replInst db.instances i2 }
          else db

/-- `execute_stage1_substitution`: stage 1 over every group member. -/
def execute_stage1_substitution (db : Db) : Db :=
  db.groups.foldl (fun d g => g.2.foldl stage1Inst d) db

/-- The token contributed by a pin type in `get_effective_pin_pattern`. -/
def pinToken : FFPinType → Option String
  | .dataIn => some "D"
  | .dataOut => some "Q"
  | .dataOutN => some "QN"
  | .clockPin => some "CK"
  | .scanIn => some "SI"
  | .scanEnable => some "SE"
  | .resetPin => some "R"
  | .rdPin => some "RD"
  | .setPin => some "S"
  | .sdPin => some "SD"
  | .rsPin => some "RS"
  | .srPin => some "SR"
  | _ => none

/-- `get_effective_pin_pattern`: the active pin tokens (connections not tied
to `UNCONNECTED`/`VSS`), put into the canonical order and joined with
underscores. -/
def get_effective_pin_pattern (db : Db) (i : Inst) : String :=
  match findCell db i.cellName with
  | none => ""
  | some c =>
    let active := i.connections.foldl
      (fun acc conn =>
        if conn.2 = "UNCONNECTED" ∨ conn.2 = "VSS" then acc
        else
          match c.pins.find? (fun p => p.name == conn.1) with
          | none => acc
          | some p =>
            match pinToken p.ffType with
            | some t => acc ++ [t]
            | none => acc)
      []
    let ordered := ["D", "Q", "QN", "CK", "SI", "SE", "R", "RD", "S", "SD", "RS", "SR"].filter
      (fun t => active.contains t)
    String.intercalate "_" ordered

/-- `get_instance_clock_edge` (ff_instance_grouping.cpp): clock edge by
cell-name substring. -/
def get_instance_clock_edge (db : Db) (i : Inst) : String :=
  match findCell db i.cellName with
  | none => "UNKNOWN"
  | some c =>
    if hasSub c.name "FDN" || hasSub c.name "FSDN" then "FALLING"
    else if hasSub c.name "FDP" || hasSub c.name "FSDP" then "RISING"
    else "UNKNOWN"

/-- `convert_effective_pattern_to_hierarchical_key`. -/
def convert_effective_pattern_to_hierarchical_key (pat edge : String) : String :=
  if pat = "" ∨ edge = "" then "" else edge ++ "|" ++ pat ++ "|1bit"

/-- Stage 2 body for one instance: substitute to the optimum of the
effective-pin group only when its score is strictly lower. -/
def stage2Inst (db : Db) (n : String) : Db :=
  match findInst db.instances n with
  | none => db
  | some i =>
    let cur := calculate_ff_score db i.cellName
    let pat := get_effective_pin_pattern db i
    let edge := get_instance_clock_edge db i
    let key := convert_effective_pattern_to_hierarchical_key pat edge
    if key = "" then db
    else
      match findOptimal db key with
      | none => db
      | some opt =>
        if dmLT (calculate_ff_score db opt) cur then
          match findCell db opt with
          | none => db
          | some _ =>
            let i2 := update_best_ff_record db { i with cellName := opt } opt
            { db with instances := replInst db.instances i2 }
        else db

/-- `execute_stage2_substitution`. -/
def execute_stage2_substitution (db : Db) : Db :=
  db.groups.foldl (fun d g => g.2.foldl stage2Inst d) db

/-- `has_rd_sd_pins`: an active RD or SD pin. -/
def has_rd_sd_pins (db : Db) (i : Inst) : Bool :=
  match findCell db i.cellName with
  | none => false
  | some c =>
    i.connections.any (fun conn =>
      !(conn.2 == "UNCONNECTED" || conn.2 == "VSS") &&
        match c.pins.find? (fun p => p.name == conn.1) with
        | some p => p.ffType == FFPinType.rdPin || p.ffType == FFPinType.sdPin
        | none => false)

/-- `is_eligible_for_lsrdpq4_banking`: rising-edge instances currently in
the `D_Q_CK` or `D_QN_CK` one-bit effective groups. -/
def is_eligible_for_lsrdpq4_banking (db : Db) (i : Inst) : Bool :=
  match findCell db i.cellName with
  | none => false
  | some _ =>
    let pat := get_effective_pin_pattern db i
    let edge := get_instance_clock_edge db i
    if edge ≠ "RISING" then false
    else
      let key := convert_effective_pattern_to_hierarchical_key pat edge
      key == "RISING|D_Q_CK|1bit" || key == "RISING|D_QN_CK|1bit"

/-- The stage 3 context: the FSDN4 / LSRDPQ4 targets and the optimal
single-bit cells of their banking groups. -/
structure Stage3Ctx where
  fsdnAvail : Bool
  fsdn4Score : Option ℚ
  singleFsdn : String
  lsrdpqAvail : Bool
  lsrdpq4Score : Option ℚ
  singleLsrdpq : String

/-- Steps 1 and 2 of `execute_stage3_substitution`: locate the MBFF targets
and optimal single-bit preparation cells. -/
def stage3Context (db : Db) : Stage3Ctx :=
  let bf := (findOptimal db "FALLING|D_Q_QN_CK_SI_SE|4bit").getD ""
  let sf := if bf ≠ "" then findOptimal db "FALLING|D_Q_QN_CK_SI_SE|1bit" else none
  let bl := (findOptimal db "RISING|D_Q_QN_CK|4bit").getD ""
  let sl := if bl ≠ "" then findOptimal db "RISING|D_Q_QN_CK|1bit" else none
  { fsdnAvail := bf ≠ "" ∧ sf.isSome
    fsdn4Score := if bf ≠ "" then calculate_ff_score db bf else none
    singleFsdn := sf.getD ""
    lsrdpqAvail := bl ≠ "" ∧ sl.isSome
    lsrdpq4Score := if bl ≠ "" then calculate_ff_score db bl else none
    singleLsrdpq := sl.getD "" }

/-- Stage 3 body for one instance: rewrite banking-eligible instances to
the optimal single-bit preparation cell when the 4-bit target's score beats
the current cell. -/
def stage3Inst (ctx : Stage3Ctx) (db : Db) (n : String) : Db :=
  match findInst db.instances n with
  | none => db
  | some i =>
    let edge := get_instance_clock_edge db i
    let cur := calculate_ff_score db i.cellName
    if edge = "FALLING" ∧ ctx.fsdnAvail then
      if has_rd_sd_pins db i then db
      else if dmLT ctx.fsdn4Score cur then
        match findCell db ctx.singleFsdn with
        | none => db
        | some _ =>
          let i2 := update_best_ff_record db { i with cellName := ctx.singleFsdn } ctx.singleFsdn
          { db with instances := replInst db.instances i2 }
      else db
    else if edge = "RISING" ∧ ctx.lsrdpqAvail then
      if ¬ is_eligible_for_lsrdpq4_banking db i then db
      else if dmLT ctx.lsrdpq4Score cur then
        match findCell db ctx.singleLsrdpq with
        | none => db
        | some _ =>
          let i2 := update_best_ff_record db { i with cellName := ctx.singleLsrdpq } ctx.singleLsrdpq
          { db with instances := replInst db.instances i2 }
      else db
    else db

/-- `execute_stage3_substitution`: early exit when no MBFF target is
available, otherwise stage 3 over every group member. -/
def execute_stage3_substitution (db : Db) : Db :=
  let ctx := stage3Context db
  if ¬ ctx.fsdnAvail ∧ ¬ ctx.lsrdpqAvail then db
  else db.groups.foldl (fun d g => g.2.foldl (stage3Inst ctx) d) db

/-- The pre-pass snapshot of `execute_three_stage_substitution`: original
cell type of every flip-flop instance (`original_cell_types`). -/
def snapshotOriginalCells (db : Db) : List (String × String) :=
  db.instances.foldl
    (fun acc i => if isFFInst db i then acc ++ [(i.name, i.cellName)] else acc) []

/-- `record_substitute_transformation`: one SUBSTITUTE record with identity
pin mapping on connected common pins and inherited cluster id. -/
def record_substitute_transformation (db : Db) (n origC finalC : String) : Db :=
  match findInst db.instances n with
  | none => db
  | some i =>
    let commonPins := ["D", "Q", "QN", "CK", "SI", "SE", "SO", "R", "S"].filter
      (fun p => i.connections.any (fun c => c.1 == p))
    let inherited := (((db.history.find?
        (fun r => (r.origName == n || r.resName == n) && r.clusterIdR ≠ "")).map
      (fun r => r.clusterIdR)).getD "")
    let r0 : TRec :=
      { origName := n, resName := n, op := TOp.substituteOp, origCell := origC,
        resCell := finalC, pinMapping := commonPins.map (fun p => (p, p)),
        resultX := i.posX, resultY := i.posY,
        clusterIdR := if inherited = "" then n else inherited,
        stage := "SUBSTITUTE" }
    { db with history := db.history ++ [r0] }

/-- `record_final_substitution_operations`: emit one SUBSTITUTE record per
flip-flop whose current cell differs from the pre-pass snapshot. -/
def record_final_substitution_operations (db : Db) (orig : List (String × String)) : Db :=
  db.instances.foldl
    (fun d i =>
      if isFFInst d i then
        match orig.find? (fun p => p.1 == i.name) with
        | none => d
        | some p =>
          if p.2 ≠ i.cellName then record_substitute_transformation d i.name p.2 i.cellName
          else d
      else d)
    db

/-- `execute_three_stage_substitution`: snapshot, the three stages, then
the final SUBSTITUTE recording. -/
def execute_three_stage_substitution (db : Db) : Db :=
  let orig := snapshotOriginalCells db
  let d1 := execute_stage1_substitution db
  let d2 := execute_stage2_substitution d1
  let d3 := execute_stage3_substitution d2
  record_final_substitution_operations d3 orig

/-! ## Post-banking substitution (`substitution.cpp`) -/

/-- `is_single_bit_ff`. -/
def is_single_bit_ff (db : Db) (i : Inst) : Bool :=
  match findCell db i.cellName with
  | some c => c.isFF && c.bitWidth == 1
  | none => false

/-- `record_post_substitution_transformation`: one POST_SUBSTITUTE record
with identity pin mapping on connected common pins. -/
def record_post_substitution_transformation (db : Db) (i : Inst) (oldFF newFF : String) : Db :=
  let commonPins := ["D", "Q", "QN", "CK", "SI", "SE", "SO", "R", "S"].filter
    (fun p => i.connections.any (fun c => c.1 == p))
  let r0 : TRec :=
    { origName := i.name, resName := i.name, op := TOp.postSubstituteOp,
      origCell := oldFF, resCell := newFF,
      pinMapping := commonPins.map (fun p => (p, p)),
      resultX := i.posX, resultY := i.posY, stage := "POST_BANKING" }
  { db with history := db.history ++ [r0] }

/-- The body of `execute_post_banking_substitution` for one instance:
revert a surviving single-bit flip-flop to its recorded best alternative
when that alternative's recorded score is strictly below the current
cell's score. -/
def postBankInst (db : Db) (n : String) : Db :=
  match findInst db.instances n with
  | none => db
  | some i =>
    if ¬ is_single_bit_ff db i then db
    else
      let cur := calculate_ff_score db i.cellName
      if i.bestFF ≠ "" ∧ dmLT i.bestScore cur then
        match findCell db i.bestFF with
        | none => db
        | some _ =>
          let oldFF := i.cellName
          let i2 := { i with cellName := i.bestFF }
          let db2 := { db with instances := replInst db.instances i2 }
          record_post_substitution_transformation db2 i2 oldFF i.bestFF
      else db

/-- `execute_post_banking_substitution`: the post-banking pass over the
instance table. -/
def execute_post_banking_substitution (db : Db) : Db :=
  (db.instances.map (fun i => i.name)).foldl postBankInst db

/-! ## Spatial clustering (`banking.cpp`) -/

/-- The three distance thresholds (`#define` constants in banking.cpp). -/
def FSDN_2BIT_BANKING_distance : ℚ := 10000

/-- Threshold of the 2-bit to 4-bit FSDN phase. -/
def FSDN_4BIT_BANKING_distance : ℚ := 10000

/-- Threshold of the LSRDPQ pass. -/
def LSRDPQ_4BIT_BANKING_distance : ℚ := 10000

/-- `manhattan_distance`. -/
def manhattan_distance (a b : Inst) : ℚ := |a.posX - b.posX| + |a.posY - b.posY|

/-- The inner scan of `simple_distance_clustering`: starting from `first`,
walk the remaining instances while fewer than `need` members have been
added; instances within the threshold are taken, the others are skipped and
stay available (in order) for later clusters. -/
def takeNear (first : Inst) (thr : ℚ) : ℕ → List Inst → List Inst × List Inst
  | _, [] => ([], [])
  | 0, rest => ([], rest)
  | need + 1, j :: js =>
    if manhattan_distance first j ≤ thr then
      let r := takeNear first thr need js
      (j :: r.1, r.2)
    else
      let r := takeNear first thr (need + 1) js
      (r.1, j :: r.2)

/-- The outer loop of `simple_distance_clustering`; `fuel` bounds the number
of outer iterations (each consumes at least the head, so the list length is
always enough fuel). -/
def sdcAux (target : ℕ) (thr : ℚ) : ℕ → List Inst → List (List Inst)
  | 0, _ => []
  | _, [] => []
  | fuel + 1, i :: is =>
    let r := takeNear i thr (target - 1) is
    let cluster := i :: r.1
    let rest := sdcAux target thr fuel r.2
    if target ≤ cluster.length then cluster :: rest else rest

/-- `simple_distance_clustering`: greedy clustering by Manhattan distance
to the cluster's first instance; only clusters reaching the target size are
kept. -/
def simple_distance_clustering (insts : List Inst) (target : ℕ) (thr : ℚ) :
    List (List Inst) :=
  sdcAux target thr insts.length insts

/-- Modelled from the spec: the clustering rule stated in §4.4 of the spec
("Spatial clustering is a left-to-right greedy sweep — no optimization;
iterate instances sorted by `position.x`, grow the current cluster until
size = target or the next instance is farther than the threshold from the
first"), with clusters emitted when they reach exactly the target size.
This is the spec's description, kept for comparison against
`simple_distance_clustering`, which is translated from the source. -/
def specSweepAux (target : ℕ) (thr : ℚ) : List Inst → List Inst → List (List Inst)
  | cur, [] => if target ≤ cur.length ∧ cur ≠ [] then [cur] else []
  | cur, j :: js =>
    match cur with
    | [] => specSweepAux target thr [j] js
    | f :: _ =>
      if cur.length = target then cur :: specSweepAux target thr [j] js
      else if manhattan_distance f j > thr then
        (if target ≤ cur.length then [cur] else []) ++ specSweepAux target thr [j] js
      else specSweepAux target thr (cur ++ [j]) js

/-- Modelled from the spec: the full sweep — sort by `position.x`, then run
the greedy left-to-right pass. -/
def spec_sweep_clustering (insts : List Inst) (target : ℕ) (thr : ℚ) :
    List (List Inst) :=
  specSweepAux target thr [] (sortByKey (fun i => i.posX) insts)

/-! ## Strategic debanking (`strategic_debanking.cpp`) -/

/-- `map_singlebit_pin_to_multibit`: `D`/`Q`/`QN` get the bit index
appended, every other pin is shared. -/
def map_singlebit_pin_to_multibit (p : String) (bit : ℕ) : String :=
  if p = "D" then "D" ++ toString bit
  else if p = "Q" then "Q" ++ toString bit
  else if p = "QN" then "QN" ++ toString bit
  else p

/-- `find_shared_pin_connection`: the shared control pin name when the
multi-bit instance carries that connection. -/
def find_shared_pin_connection (mConns : List (String × String)) (p : String) : String :=
  if ["CK", "CLK", "CP", "R", "RB", "S", "SB", "SE", "RD", "SD"].contains p ∧
      mConns.any (fun c => c.1 == p) then p
  else ""

/-- `map_multibit_to_singlebit_connections`: wire each pin of the
single-bit template from the bit-indexed pin of the multi-bit instance, or
from the equally-named shared pin, or leave it unconnected. -/
def map_multibit_to_singlebit_connections (parentPins : List CPin)
    (mConns : List (String × String)) (bit : ℕ) : List (String × String) :=
  parentPins.foldl
    (fun acc pin =>
      let multibitPin := map_singlebit_pin_to_multibit pin.name bit
      let connectedNet :=
        (((mConns.find? (fun c => c.1 == multibitPin)).map Prod.snd).getD "")
      if connectedNet ≠ "" then acc ++ [(pin.name, connectedNet)]
      else
        let sp := find_shared_pin_connection mConns pin.name
        if sp ≠ "" then
          match mConns.find? (fun c => c.1 == sp) with
          | some c => acc ++ [(pin.name, c.2)]
          | none => acc
        else acc)
    []

/-- The per-fragment pin mapping of `record_debank_transformation`:
`D<i> → D` for bit-indexed pins present on the multi-bit instance, `CK → CK`
for shared ones. -/
def debankPinMapping (mConns : List (String × String)) (bitIndex : ℕ) :
    List (String × String) :=
  ["D", "Q", "QN", "CK", "SI", "SE", "SO", "R", "S"].foldl
    (fun acc pin =>
      let mp := pin ++ toString bitIndex
      if mConns.any (fun c => c.1 == mp) then acc ++ [(mp, pin)]
      else if mConns.any (fun c => c.1 == pin) then acc ++ [(pin, pin)]
      else acc)
    []

/-- `record_debank_transformation`: one DEBANK record per fragment, with the
remaining fragments as related instances. -/
def record_debank_transformation (db : Db) (orig : Inst) (frags : List Inst)
    (parentCell : String) : Db :=
  { db with
    history := db.history ++ frags.map (fun f =>
      let bitIndex := (frags.findIdx? (fun g => g.name == f.name)).getD 0
      { origName := orig.name, resName := f.name, op := TOp.debankOp,
        origCell := orig.cellName, resCell := parentCell,
        pinMapping := debankPinMapping orig.connections bitIndex,
        related := (frags.filter (fun g => ¬(g.name == f.name))).map (fun g => g.name),
        resultX := f.posX, resultY := f.posY,
        clusterIdR := orig.name, stage := "DEBANK" }) }

/-- `remove_keep_transformation_record`. -/
def remove_keep_transformation_record (db : Db) (n : String) : Db :=
  { db with
    history := db.history.filter (fun r => ¬(r.op == TOp.keepOp && r.origName == n)) }

/-- The fragments emitted for one debanked instance: `<name>_BIT<i>` copies
at the original position, carrying the original name as `cluster_id`. -/
def debankFragments (orig : Inst) (bw : ℕ) (parent : Cell) : List Inst :=
  (List.range bw).map (fun b =>
    { name := orig.name ++ "_BIT" ++ toString b
      cellName := parent.name
      posX := orig.posX, posY := orig.posY
      moduleName := orig.moduleName
      clusterId := orig.name
      connections := map_multibit_to_singlebit_connections parent.pins orig.connections b })

/-- Condition under which `perform_strategic_debanking` processes an
instance: its template resolves, is a flip-flop, names a non-null
degenerate, and the degenerate resolves in the cell library.  Note there is
no bit-width test in the source. -/
def debankCond (db : Db) (i : Inst) : Bool :=
  match findCell db i.cellName with
  | none => false
  | some c =>
    c.isFF && c.degenerate != "null" && (findCell db c.degenerate).isSome

/-- The loop body of `perform_strategic_debanking` for one instance: skip
unless the template resolves, is a flip-flop with a non-null degenerate and
the degenerate resolves (note: no bit-width test); otherwise emit the
fragments, record the DEBANK operations, drop the original's KEEP record
and mark the original for removal. -/
def debankStep (st : Db × List Inst × List String) (i : Inst) :
    Db × List Inst × List String :=
  match findCell st.1 i.cellName with
  | none => st
  | some c =>
    if c.isFF ∧ c.degenerate ≠ "null" then
      match findCell st.1 c.degenerate with
      | none => st
      | some parent =>
        let frags := debankFragments i c.bitWidth.toNat parent
        let d1 := record_debank_transformation st.1 i frags parent.name
        let d2 := remove_keep_transformation_record d1 i.name
        (d2, st.2.1 ++ frags, st.2.2 ++ [i.name])
    else st

/-- `perform_strategic_debanking`: walk the instance table once, collecting
fragments and marking processed originals for removal while recording
DEBANK operations and dropping the originals' KEEP records; then apply the
removals and insert the fragments. -/
def perform_strategic_debanking (db : Db) : Db :=
  let r := db.instances.foldl debankStep (db, [], [])
  let table1 := r.2.2.foldl eraseInst r.1.instances
  let table2 := r.2.1.foldl upsertInst table1
  { r.1 with instances := table2 }

/-! ## Banking (`banking.cpp`) -/

/-- `BankingOperation`. -/
structure BankOp where
  sources : List Inst
  resultName : String
  targetCell : String
  pinMapping : List (String × String)
  opType : String
deriving DecidableEq, Repr

/-- The state threaded through the banking passes: the database, the
collected `banking_operations`, the `original_sources_map` side table and
the three static name counters. -/
structure BankSt where
  db : Db
  ops : List BankOp := []
  origMap : List (String × List Inst) := []
  ctr2 : ℕ := 1
  ctr4 : ℕ := 1
  ctrL : ℕ := 1
deriving DecidableEq, Repr

/-- `generate_complete_banking_pin_mapping`: original pins of the i-th
source map to bit-indexed data pins (or shared pins) of the result. -/
def generate_complete_banking_pin_mapping (sources : List Inst) (finalName : String) :
    List (String × String) :=
  sources.enum.flatMap (fun p =>
    p.2.connections.map (fun conn =>
      let fp :=
        if conn.1 = "D" ∨ conn.1 = "Q" ∨ conn.1 = "QN" then
          finalName ++ "/" ++ conn.1 ++ "[" ++ toString p.1 ++ "]"
        else finalName ++ "/" ++ conn.1
      (p.2.name ++ "/" ++ conn.1, fp)))

/-- `extract_hierarchy_prefix` (renamed): everything before the last `/`
(`find_last_of('/')` + `substr`), or `""` for a flat name. -/
def extract_hierarchy_head (n : String) : String :=
  match n.data.reverse.dropWhile (fun c => c != '/') with
  | [] => ""
  | _ :: rest => ⟨rest.reverse⟩

/-- The `rfind('|')` surgery used to build a target group key: everything
before the last `|`, or `none` when there is no `|`. -/
def dropLastBar (s : String) : Option String :=
  let parts := s.splitOn "|"
  if parts.length ≤ 1 then none else some (String.intercalate "|" parts.dropLast)

/-- `get_hierarchical_key_from_group`: key of the hierarchical group of the
first instance's cell. -/
def get_hierarchical_key_from_group (db : Db) (insts : List Inst) : String :=
  match insts with
  | [] => ""
  | f :: _ =>
    match db.hierGroups.find? (fun e => e.cells.contains f.cellName) with
    | some e => hierKeyOf e
    | none => ""

/-- `collect_fsdn_instances_for_group`: the live one-bit FSDN members of an
instance group (cell name contains `FSDN` but neither `FSDN2` nor
`FSDN4`). -/
def collect_fsdn_instances_for_group (db : Db) (key : String) : List Inst :=
  match db.groups.find? (fun g => g.1 == key) with
  | none => []
  | some g =>
    g.2.foldl
      (fun acc n =>
        match findInst db.instances n with
        | none => acc
        | some i =>
          if isFFInst db i &&
              (hasSub i.cellName "FSDN" && !hasSub i.cellName "FSDN2" &&
                !hasSub i.cellName "FSDN4") then
            acc ++ [i]
          else acc)
      []

/-- `collect_lsrdpq_instances_for_group`: live LSRDPQ (non-4-bit) or FDP
members of an instance group. -/
def collect_lsrdpq_instances_for_group (db : Db) (key : String) : List Inst :=
  match db.groups.find? (fun g => g.1 == key) with
  | none => []
  | some g =>
    g.2.foldl
      (fun acc n =>
        match findInst db.instances n with
        | none => acc
        | some i =>
          if isFFInst db i &&
              ((hasSub i.cellName "LSRDPQ" && !hasSub i.cellName "LSRDPQ4") ||
                hasSub i.cellName "FDP") then
            acc ++ [i]
          else acc)
      []

/-- The live two-bit FSDN members of a group (the collection loop of
`execute_2bit_to_4bit_banking`). -/
def collect2bitFsdn (db : Db) (key : String) : List Inst :=
  match db.groups.find? (fun g => g.1 == key) with
  | none => []
  | some g =>
    g.2.foldl
      (fun acc n =>
        match findInst db.instances n with
        | none => acc
        | some i =>
          if isFFInst db i && hasSub i.cellName "FSDN2" then acc ++ [i] else acc)
      []

/-- `map_singlebit_to_multibit_connections`: bit-indexed data pins (with
the 1-based offset for LSRDPQ cells), shared pins taken from source 0. -/
def map_singlebit_to_multibit_connections (db : Db) (targetCellName : String)
    (sources : List Inst) (targetBits : ℕ) : List (String × String) :=
  let isL := (findCell db targetCellName).isSome && hasSub targetCellName "LSRDPQ"
  let off := if isL then 1 else 0
  (sources.take targetBits).enum.foldl
    (fun acc p =>
      p.2.connections.foldl
        (fun acc conn =>
          if conn.1 = "D" then acc ++ [("D" ++ toString (p.1 + off), conn.2)]
          else if conn.1 = "Q" then acc ++ [("Q" ++ toString (p.1 + off), conn.2)]
          else if conn.1 = "QN" then acc ++ [("QN" ++ toString (p.1 + off), conn.2)]
          else if p.1 = 0 then acc ++ [conn]
          else acc)
        acc)
    []

/-- `map_2bit_to_4bit_connections`: source 0's `D0,D1` become `D0,D1`,
source 1's become `D2,D3` (same for `Q`/`QN`), shared pins from source 0. -/
def map_2bit_to_4bit_connections (sources : List Inst) : List (String × String) :=
  (sources.take 2).enum.foldl
    (fun acc p =>
      p.2.connections.foldl
        (fun acc conn =>
          if conn.1 = "D0" then acc ++ [("D" ++ toString (p.1 * 2), conn.2)]
          else if conn.1 = "D1" then acc ++ [("D" ++ toString (p.1 * 2 + 1), conn.2)]
          else if conn.1 = "Q0" then acc ++ [("Q" ++ toString (p.1 * 2), conn.2)]
          else if conn.1 = "Q1" then acc ++ [("Q" ++ toString (p.1 * 2 + 1), conn.2)]
          else if conn.1 = "QN0" then acc ++ [("QN" ++ toString (p.1 * 2), conn.2)]
          else if conn.1 = "QN1" then acc ++ [("QN" ++ toString (p.1 * 2 + 1), conn.2)]
          else if p.1 = 0 then acc ++ [conn]
          else acc)
        acc)
    []

/-- Remove a banked cluster's members from a group's member list and append
the fresh result (the group-rebuild step of the banking phases). -/
def rebuildGroup (groups : List (String × List String)) (key : String)
    (removed : List Inst) (newName : String) : List (String × List String) :=
  groups.map (fun g =>
    if g.1 == key then
      (g.1, g.2.filter (fun n => ¬ removed.any (fun i => i.name == n)) ++ [newName])
    else g)

/-- Erase a banked cluster's members from the instance table. -/
def eraseSources (table : List Inst) (cl : List Inst) : List Inst :=
  cl.foldl (fun t i => eraseInst t i.name) table

/-- Insert a string into an ascending list (lexicographic order, matching
the `std::map<std::string, ...>` key order). -/
def insertString (k : String) : List String → List String
  | [] => [k]
  | x :: xs => if decide (k < x) then k :: x :: xs else x :: insertString k xs

/-- Sorted cluster-id grouping of `execute_debank_cluster_rebanking`
(a `std::map` keyed by cluster id): flip-flop instances with a non-empty
cluster id and a banking type other than NONE, grouped by cluster id with
keys in ascending order. -/
def passAClusters (db : Db) : List (String × List Inst) :=
  let elig := db.instances.filter
    (fun i => isFFInst db i && i.clusterId != "" && i.bankingType != BankTy.noTy)
  let sortedKeys := ((elig.map (fun i => i.clusterId)).eraseDups).foldr insertString []
  sortedKeys.map (fun k => (k, elig.filter (fun i => i.clusterId == k)))

/-- One cluster of `execute_debank_cluster_rebanking`: synthesize the 4-bit
(or 2-bit FSDN) optimum from the whole debank cluster, record the operation
with all members as sources, insert the result and erase the members. -/
def passACluster (st : BankSt) (cl : String × List Inst) : BankSt :=
  match cl.2 with
  | [] => st
  | f :: _ =>
    if cl.2.length < 2 then st
    else
      let bty := f.bankingType
      let targetKey :=
        if bty = BankTy.fsdn then
          if 4 ≤ cl.2.length then "FALLING|D_Q_QN_CK_SI_SE|4bit"
          else "FALLING|D_Q_QN_CK_SI_SE|2bit"
        else if bty = BankTy.risingLsrdpq then
          if 4 ≤ cl.2.length then "RISING|D_Q_QN_CK|4bit" else ""
        else ""
      if targetKey = "" then st
      else
        match findOptimal st.db targetKey with
        | none => st
        | some opt =>
          let tbw : ℕ := if 4 ≤ cl.2.length then 4 else 2
          let n : ℚ := cl.2.length
          let cx := (cl.2.map (fun i => i.posX)).sum / n
          let cy := (cl.2.map (fun i => i.posY)).sum / n
          let newI : Inst :=
            { name := cl.1 ++ "_REBANKED", cellName := opt, posX := cx, posY := cy
              bankingType := bty, clusterId := cl.1, moduleName := f.moduleName
              connections := map_singlebit_to_multibit_connections st.db opt cl.2 tbw }
          let op : BankOp :=
            { sources := cl.2, resultName := newI.name, targetCell := opt
              pinMapping := generate_complete_banking_pin_mapping cl.2 newI.name
              opType := "DEBANK_CLUSTER_REBANK" }
          let table := eraseSources (upsertInst st.db.instances newI) cl.2
          { st with db := { st.db with instances := table }, ops := st.ops ++ [op] }

/-- `execute_debank_cluster_rebanking`. -/
def execute_debank_cluster_rebanking (st : BankSt) : BankSt :=
  (passAClusters st.db).foldl passACluster st

/-- One pair of FSDN phase 1 (`execute_1bit_to_2bit_banking` loop body):
synthesize the optimal 2-bit FSDN at the midpoint, remap pins, update the
table and the group, and remember the pair in the side map. -/
def fsdnPhase1Cluster (key : String) (st : BankSt) (cl : List Inst) : BankSt :=
  if cl.length ≠ 2 then st
  else
    let hk := get_hierarchical_key_from_group st.db cl
    if hk = "" then st
    else
      match dropLastBar hk with
      | none => st
      | some base =>
        match findOptimal st.db (base ++ "|2bit") with
        | none => st
        | some opt =>
          match cl with
          | a :: b :: _ =>
            let cx := (a.posX + b.posX) / 2
            let cy := (a.posY + b.posY) / 2
            let pre := extract_hierarchy_head a.name
            let nm := (if pre = "" then "ff_fsdn2_" else pre ++ "/ff_fsdn2_") ++ toString st.ctr2
            let newI : Inst :=
              { name := nm, cellName := opt, posX := cx, posY := cy
                bankingType := BankTy.fsdn, moduleName := a.moduleName
                connections := map_singlebit_to_multibit_connections st.db opt cl 2 }
            let table := eraseSources (upsertInst st.db.instances newI) cl
            let groups2 := rebuildGroup st.db.groups key cl nm
            { st with
              db := { st.db with instances := table, groups := groups2 }
              ctr2 := st.ctr2 + 1
              origMap := st.origMap ++ [(nm, cl)] }
          | _ => st

/-- `execute_1bit_to_2bit_banking` (returns the new state and the number of
2-bit cells created, used by the two-phase driver). -/
def execute_1bit_to_2bit_banking (st : BankSt) (key : String) : BankSt × ℕ :=
  let fsdn := collect_fsdn_instances_for_group st.db key
  if fsdn.length < 2 then (st, 0)
  else
    let clusters := simple_distance_clustering fsdn 2 FSDN_2BIT_BANKING_distance
    let st2 := clusters.foldl (fsdnPhase1Cluster key) st
    (st2, st2.ctr2 - st.ctr2)

/-- One pair of FSDN phase 2 (`execute_2bit_to_4bit_banking` loop body):
synthesize the optimal 4-bit FSDN from two 2-bit cells and record the
operation against the original one-bit sources from the side map. -/
def fsdnPhase2Cluster (key : String) (st : BankSt) (cl : List Inst) : BankSt :=
  if cl.length ≠ 2 then st
  else
    let hk := get_hierarchical_key_from_group st.db cl
    if hk = "" then st
    else
      match dropLastBar hk with
      | none => st
      | some base =>
        match findOptimal st.db (base ++ "|4bit") with
        | none => st
        | some opt =>
          match cl with
          | a :: b :: _ =>
            let cx := (a.posX + b.posX) / 2
            let cy := (a.posY + b.posY) / 2
            let pre := extract_hierarchy_head a.name
            let nm := (if pre = "" then "ff_fsdn4_" else pre ++ "/ff_fsdn4_") ++ toString st.ctr4
            let newI : Inst :=
              { name := nm, cellName := opt, posX := cx, posY := cy
                bankingType := BankTy.fsdn, moduleName := a.moduleName
                connections := map_2bit_to_4bit_connections cl }
            let table := eraseSources (upsertInst st.db.instances newI) cl
            let groups2 := rebuildGroup st.db.groups key cl nm
            let allOrig := cl.foldl
              (fun acc tb =>
                acc ++ ((((st.origMap.find? (fun m => m.1 == tb.name)).map Prod.snd).getD [])))
              []
            let op : BankOp :=
              { sources := allOrig, resultName := nm, targetCell := opt
                pinMapping := generate_complete_banking_pin_mapping allOrig nm
                opType := "FSDN_4BIT_BANKING" }
            { st with
              db := { st.db with instances := table, groups := groups2 }
              ctr4 := st.ctr4 + 1
              ops := st.ops ++ [op] }
          | _ => st

/-- `execute_2bit_to_4bit_banking`. -/
def execute_2bit_to_4bit_banking (st : BankSt) (key : String) : BankSt :=
  let twobit := collect2bitFsdn st.db key
  if twobit.length < 2 then st
  else
    (simple_distance_clustering twobit 2 FSDN_4BIT_BANKING_distance).foldl
      (fsdnPhase2Cluster key) st

/-- One side-map pair of `finalize_2bit_banking_records`: a pair becomes a
final 2-bit banking operation unless one of its sources already feeds a
recorded 4-bit operation. -/
def finalizeStep (s : BankSt) (m : String × List Inst) : BankSt :=
  let used := s.ops.any (fun op =>
    (op.opType == "FSDN_4BIT_BANKING" || op.opType == "LSRDPQ_4BIT_BANKING") &&
      m.2.any (fun src => op.sources.any (fun os => os.name == src.name)))
  if used then s
  else
    { s with
      ops := s.ops ++ [{ sources := m.2, resultName := m.1, targetCell := ""
                         pinMapping := [], opType := "FSDN_2BIT_BANKING" }] }

/-- `finalize_2bit_banking_records`: every side-map pair not absorbed into
a 4-bit operation becomes a final 2-bit banking operation. -/
def finalize_2bit_banking_records (st : BankSt) : BankSt :=
  st.origMap.foldl finalizeStep st

/-- `execute_fsdn_two_phase_banking`: per instance group, phase 1 then
(when phase 1 created anything) phase 2; afterwards the finalisation of
leftover 2-bit cells. -/
def execute_fsdn_two_phase_banking (st : BankSt) : BankSt :=
  let keys := st.db.groups.map Prod.fst
  let st2 := keys.foldl
    (fun s key =>
      let initial := collect_fsdn_instances_for_group s.db key
      if initial.length < 2 then s
      else
        let r := execute_1bit_to_2bit_banking s key
        if 0 < r.2 then execute_2bit_to_4bit_banking r.1 key else r.1)
    st
  finalize_2bit_banking_records st2

/-- One quadruple of the LSRDPQ pass (`execute_lsrdpq_4bit_banking` loop
body). -/
def lsrdpqCluster (key : String) (st : BankSt) (cl : List Inst) : BankSt :=
  if cl.length ≠ 4 then st
  else
    match findOptimal st.db "RISING|D_Q_QN_CK|4bit" with
    | none => st
    | some opt =>
      match cl with
      | f :: _ =>
        let n : ℚ := cl.length
        let cx := (cl.map (fun i => i.posX)).sum / n
        let cy := (cl.map (fun i => i.posY)).sum / n
        let pre := extract_hierarchy_head f.name
        let nm := (if pre = "" then "ff_lsrdpq4_" else pre ++ "/ff_lsrdpq4_") ++ toString st.ctrL
        let newI : Inst :=
          { name := nm, cellName := opt, posX := cx, posY := cy
            bankingType := BankTy.risingLsrdpq, moduleName := f.moduleName
            connections := map_singlebit_to_multibit_connections st.db opt cl 4 }
        let table := eraseSources (upsertInst st.db.instances newI) cl
        let groups2 := rebuildGroup st.db.groups key cl nm
        let op : BankOp :=
          { sources := cl, resultName := nm, targetCell := opt
            pinMapping := generate_complete_banking_pin_mapping cl nm
            opType := "LSRDPQ_4BIT_BANKING" }
        { st with
          db := { st.db with instances := table, groups := groups2 }
          ctrL := st.ctrL + 1
          ops := st.ops ++ [op] }
      | _ => st

/-- `execute_lsrdpq_4bit_banking`. -/
def execute_lsrdpq_4bit_banking (st : BankSt) (key : String) : BankSt :=
  let ls := collect_lsrdpq_instances_for_group st.db key
  if ls.length < 4 then st
  else
    (simple_distance_clustering ls 4 LSRDPQ_4BIT_BANKING_distance).foldl
      (lsrdpqCluster key) st

/-- `execute_lsrdpq_single_phase_banking`. -/
def execute_lsrdpq_single_phase_banking (st : BankSt) : BankSt :=
  (st.db.groups.map Prod.fst).foldl
    (fun s key =>
      let initial := collect_lsrdpq_instances_for_group s.db key
      if initial.length < 4 then s else execute_lsrdpq_4bit_banking s key)
    st

/-- `record_bank_transformation`: one BANK record with the first source as
primary and the remaining sources as related instances. -/
def record_bank_transformation (db : Db) (sources : List Inst)
    (resName cellT : String) (pm : List (String × String)) : Db :=
  match sources with
  | [] => db
  | s0 :: rest =>
    let inherited := (((db.history.find?
        (fun r => (r.origName == s0.name || r.resName == s0.name) && r.clusterIdR ≠ "")).map
      (fun r => r.clusterIdR)).getD "")
    let r0 : TRec :=
      { origName := s0.name, resName := resName, op := TOp.bankOp,
        origCell := s0.cellName, resCell := cellT, pinMapping := pm,
        related := rest.map (fun i => i.name),
        resultX := s0.posX, resultY := s0.posY,
        clusterIdR := inherited, stage := "BANK" }
    { db with history := db.history ++ [r0] }

/-- `record_all_banking_transformations`: fill in missing target cell types
and pin mappings from the live result instance, then emit one BANK record
per collected operation; finally clear the operation and side tables. -/
def record_all_banking_transformations (st : BankSt) : BankSt :=
  let db2 := st.ops.foldl
    (fun d op =>
      let filled :=
        if op.targetCell = "" ∨ op.pinMapping = [] then
          match findInst d.instances op.resultName with
          | some ri =>
            ((if op.targetCell = "" then ri.cellName else op.targetCell),
              (if op.pinMapping = [] then
                  generate_complete_banking_pin_mapping op.sources op.resultName
                else op.pinMapping))
          | none => (op.targetCell, op.pinMapping)
        else (op.targetCell, op.pinMapping)
      record_bank_transformation d op.sources op.resultName filled.1 filled.2)
    st.db
  { st with db := db2, ops := [], origMap := [] }

/-- The banking stage as main.cpp drives it: pass A, the FSDN two-phase
pass, the LSRDPQ pass, then the unified recording. -/
def banking_pipeline (db : Db) : BankSt :=
  record_all_banking_transformations
    (execute_lsrdpq_single_phase_banking
      (execute_fsdn_two_phase_banking
        (execute_debank_cluster_rebanking { db := db })))

/-! ## Stage-capture orchestration (`main.cpp`)

The `CompletePipeline` constructor (data_structures.hpp) creates six stage
slots.  Each definition below lists the `complete_pipeline.capture_stage`
calls the named source function performs, in source order; the main trace
concatenates them in the order `main` invokes the stages. -/

/-- The six stage slots `CompletePipeline` is constructed with. -/
def pipelineStageNames : List String :=
  ["ORIGINAL", "DEBANK", "SUBSTITUTION", "BANK", "POST_BANKING", "LEGALIZE"]

/-- `initialize_transformation_tracking` (transformation_tracking.cpp)
captures the ORIGINAL stage once, after emitting the initial KEEP
records. -/
def initializeTrackingCaptures : List String := ["ORIGINAL"]

/-- `perform_strategic_debanking` (strategic_debanking.cpp) captures the
DEBANK stage once, at its end. -/
def strategicDebankingCaptures : List String := ["DEBANK"]

/-- `execute_three_stage_substitution` (substitution.cpp) captures the
SUBSTITUTION stage once, after recording the final SUBSTITUTE
operations. -/
def threeStageSubstitutionCaptures : List String := ["SUBSTITUTION"]

/-- `record_all_banking_transformations` (banking.cpp) captures the BANK
stage once, after emitting the BANK records. -/
def bankingRecordCaptures : List String := ["BANK"]

/-- The inline POST_BANKING capture in `main` (main.cpp), right after
`execute_post_banking_substitution`. -/
def mainPostBankingCaptures : List String := ["POST_BANKING"]

/-- `Legalizer::Abacus` and `Legalizer::place` (Legalization.cpp) perform
no stage capture. -/
def legalizerCaptures : List String := []

/-- `record_legalization_transformations` (transformation_tracking.cpp)
captures the LEGALIZE stage — but `main` never calls this function: after
`legalizer.place()` the code moves on with the comment that legalization is
not recorded. -/
def recordLegalizationCaptures : List String := ["LEGALIZE"]

/-- The stage captures `main` performs, in execution order: tracking
initialisation (step 11), debanking (step 12), three-stage substitution
(step 15), banking recording (after steps 17.1-17.3), the inline
POST_BANKING capture (step 18.5), then the legalizer (step 19, which
captures nothing).  `record_legalization_transformations` is absent because
`main` does not invoke it. -/
def mainStageCaptures : List String :=
  initializeTrackingCaptures ++ strategicDebankingCaptures ++
    threeStageSubstitutionCaptures ++ bankingRecordCaptures ++
    mainPostBankingCaptures ++ legalizerCaptures

/-! ## Invariants of the Abacus cluster chains

Predicates used to state and prove the post-legalization layout
contracts. -/

/-- Chain ordering: each cluster's left neighbour ends at or before the
cluster's anchor (the head of the list is the rightmost cluster). -/
def chainOrd (chain : List ClusterM) : Prop :=
  List.Chain' (fun c p => p.x + p.width ≤ c.x) chain

/-- Per-cluster bookkeeping: the width is the sum of the members'
site-rounded widths, the weight is positive, and members have positive raw
widths. -/
def cInv (w : ℚ) (c : ClusterM) : Prop :=
  c.width = (c.cells.map (fun i => roundW w i.width)).sum ∧ 0 < c.weight ∧
    ∀ i ∈ c.cells, 0 < i.width

/-- Every cluster sits inside the sub-row. -/
def chainBounds (xmin xmax : ℚ) (chain : List ClusterM) : Prop :=
  ∀ c ∈ chain, xmin ≤ c.x ∧ c.x + c.width ≤ xmax

/-- The full chain invariant maintained by committing insertions. -/
def chainInv (xmin xmax w : ℚ) (chain : List ClusterM) : Prop :=
  chainOrd chain ∧ chainBounds xmin xmax chain ∧ ∀ c ∈ chain, cInv w c

/-- Total width of a cluster chain. -/
def totalW (chain : List ClusterM) : ℚ := (chain.map (fun c => c.width)).sum

/-- One committing insertion into a sub-row (the state change of
`placeRow` with `final = true`). -/
def srCommit (row : PRow) (sr : SubRowM) (i : LInst) : SubRowM :=
  (placeRowFinal row sr i).1

/-- A sub-row state reachable from `sr0` by committing a sequence of
instances with positive widths and weights. -/
def Reach (row : PRow) (sr0 sr : SubRowM) : Prop :=
  ∃ commits : List LInst,
    (∀ i ∈ commits, 0 < i.width ∧ 0 < i.weight) ∧
      sr = commits.foldl (srCommit row) sr0

/-! ## Concrete legalizer inputs

Small closed instances of the legalizer data used to exercise the layout
contract and the fallback branch on explicit data. -/

/-- A single sub-row `[0, 600)` with 600 units of usable width. -/
def cexSr : SubRowM := { xmin := 0, xmax := 600, usew := 600, clusters := [] }

/-- A placement row at the origin with site width 400 and one sub-row whose
span (600) is not a multiple of the site width. -/
def cexRow : PRow := { originX := 0, originY := 0, siteW := 400, subrows := [cexSr] }

/-- A flip-flop of raw width 500 sitting at the origin: its raw width fits
the sub-row (500 ≤ 600) but its site-rounded placement width is 800. -/
def cexFF : LInst := { name := "ff", width := 500, posX := 0, posY := 0 }

/-- The cluster holding `cexFF` after the committing insertion. -/
def cexCluster : ClusterM := { x := 0, width := 800, weight := 1, q := 0, cells := [cexFF] }

/-- The sub-row state after committing `cexFF` (`Usewidth` went negative). -/
def cexSrFinal : SubRowM := { xmin := 0, xmax := 600, usew := -200, clusters := [cexCluster] }

/-- The row state after the Abacus pass on `cexFF`. -/
def cexRowFinal : PRow :=
  { originX := 0, originY := 0, siteW := 400, subrows := [cexSrFinal] }

/-- A well-formed sub-row `[0, 800)`: its span is a whole number of sites. -/
def wSr : SubRowM := { xmin := 0, xmax := 800, usew := 800, clusters := [] }

/-- A well-formed row whose sub-row span (800) is a whole number of sites. -/
def wRow : PRow :=
  { originX := 0, originY := 0, siteW := 400, subrows := [wSr] }

/-- An instance of width 350 near the sub-row of `wRow`. -/
def wFF : LInst := { name := "w", width := 350, posX := 100, posY := 50 }

/-- The cluster holding `wFF` after the committing insertion into `wSr`. -/
def wCluster : ClusterM := { x := 0, width := 400, weight := 1, q := 0, cells := [wFF] }

/-- The sub-row state after committing `wFF`. -/
def wSrFinal : SubRowM := { xmin := 0, xmax := 800, usew := 400, clusters := [wCluster] }

/-- The row state after the Abacus pass on `wFF`. -/
def wRowFinal : PRow :=
  { originX := 0, originY := 0, siteW := 400, subrows := [wSrFinal] }

/-- An instance too wide (900) for every sub-row of `wRow`: every trial is
rejected, so the Abacus fallback branch fires. -/
def bigFF : LInst := { name := "big", width := 900, posX := 100, posY := 50 }

/-- Three single-bit flip-flop instances on a line: `cB` lies between `cA`
and `cC` in x but far away in y, so it is beyond the clustering threshold
from `cA` while `cC` is within it. -/
def cA : Inst := { name := "A", cellName := "FF1", posX := 0, posY := 0 }

/-- The far middle instance. -/
def cB : Inst := { name := "B", cellName := "FF1", posX := 3000, posY := 20000 }

/-- The near right instance. -/
def cC : Inst := { name := "C", cellName := "FF1", posX := 6000, posY := 0 }

/-- A 2-bit flip-flop cell whose single-bit degenerate is `"null"`: the
debanker cannot process it. -/
def cellMB2 : Cell := { name := "MB2", bitWidth := 2, isFF := true, degenerate := "null" }

/-- A single-bit flip-flop cell that nevertheless names a degenerate: the
debanker processes it although its bit width is 1. -/
def cellSB1 : Cell := { name := "SB1", bitWidth := 1, isFF := true, degenerate := "SB0" }

/-- The degenerate cell of `cellSB1`. -/
def cellSB0 : Cell := { name := "SB0", bitWidth := 1, isFF := true }

/-- A 2-bit instance of `cellMB2`. -/
def dM1 : Inst := { name := "m1", cellName := "MB2" }

/-- A 1-bit instance of `cellSB1`. -/
def dS1 : Inst := { name := "s1", cellName := "SB1" }

/-- A database with one null-degenerate multi-bit FF and one single-bit FF
with a resolvable degenerate. -/
def dDb : Db := { cells := [cellMB2, cellSB1, cellSB0], instances := [dM1, dS1] }

/-- A 2-bit FSDN cell available as the 2-bit rebanking optimum. -/
def bFsdn2 : Cell := { name := "FSDN2C", bitWidth := 2, isFF := true }

/-- The single-bit FF cell of the debank-cluster members. -/
def bSB : Cell := { name := "SB", bitWidth := 1, isFF := true }

/-- First member of the 3-element debank cluster `cl0`. -/
def b0 : Inst := { name := "b0", cellName := "SB", clusterId := "cl0", bankingType := BankTy.fsdn }

/-- Second member. -/
def b1 : Inst := { name := "b1", cellName := "SB", clusterId := "cl0", bankingType := BankTy.fsdn }

/-- Third member. -/
def b2 : Inst := { name := "b2", cellName := "SB", clusterId := "cl0", bankingType := BankTy.fsdn }

/-- A database whose only banking work is pass A on the 3-element debank
cluster `cl0`, rebanked into the 2-bit `FSDN2C`. -/
def bDb : Db :=
  { cells := [bSB, bFsdn2], instances := [b0, b1, b2],
    optimalFF := [("FALLING|D_Q_QN_CK_SI_SE|2bit", "FSDN2C")] }

/-- The BANK record the pipeline emits for the cluster `cl0`: primary `b0`
plus two related instances, result cell `FSDN2C`. -/
def bRec : TRec :=
  { origName := "b0", resName := "cl0_REBANKED", op := TOp.bankOp,
    origCell := "SB", resCell := "FSDN2C", related := ["b1", "b2"],
    stage := "BANK" }

/-- A flip-flop cell with zero power and timing surrogate 1: its
substituter score is 1 but its cached score is 1000. -/
def cX : Cell := { name := "CX", isFF := true }

/-- A flip-flop cell with leakage 2000 and timing surrogate 0: its
substituter score is 2 and its cached score is 2. -/
def cY : Cell := { name := "CY", leakage := 2000, isFF := true }

/-- The hierarchical group holding `CX` and `CY`. -/
def hG : HierEntry := { edge := "FALLING", pins := "D", bit := 1, cells := ["CX", "CY"] }

/-- An instance currently on the cheap-by-substituter-score cell `CX`. -/
def sX : Inst := { name := "i1", cellName := "CX" }

/-- A database where the cache prefers `CY` (cached score 2 < 1000) while
the substituter prefers `CX` (score 1 < 2). -/
def subDb : Db :=
  { cells := [cX, cY], instances := [sX], alpha := 1, beta := 1, gamma := 0,
    timing := [("CX", 1)], hierGroups := [hG], groups := [("g", ["i1"])] }

/-- `subDb` after the optimal-cell cache is built. -/
def subDb1 : Db := { subDb with optimalFF := [("FALLING|D|1bit", "CY")] }

/-- `sX` after stage 1 rewrites it to the cached optimum `CY`. -/
def sX2 : Inst := { name := "i1", cellName := "CY", bestFF := "CY", bestScore := some 2 }

/-- `subDb1` after stage 1. -/
def subDb2 : Db := { subDb1 with instances := [sX2] }

/-- The SUBSTITUTE record the pipeline emits for `i1`. -/
def c7rec : TRec :=
  { origName := "i1", resName := "i1", op := TOp.substituteOp,
    origCell := "CX", resCell := "CY", clusterIdR := "i1", stage := "SUBSTITUTE" }

/-- A surviving single-bit flip-flop whose recorded best alternative `CX`
(score 1) strictly beats its current cell `CY` (score 2). -/
def pInst : Inst :=
  { name := "p1", cellName := "CY", bestFF := "CX", bestScore := some 1 }

/-- A database on which the post-banking substitution pass reverts `p1` to
`CX`. -/
def pDb : Db :=
  { cells := [cX, cY], instances := [pInst], alpha := 1, beta := 1, gamma := 0,
    timing := [("CX", 1)] }

/-- A flip-flop cell used to exercise the two scoring functions. -/
def scoreCell : Cell :=
  { name := "CELLX", leakage := 2000, area := 10, bitWidth := 2, isFF := true }

/-- A database holding just `scoreCell`, unit objective weights and timing
surrogate 7 for it. -/
def scoreDb : Db :=
  { cells := [scoreCell], instances := [], alpha := 1, beta := 1, gamma := 1,
    timing := [("CELLX", 7)] }

/-! ## Names and state classification for the banking consumption proof -/

/-- Decimal re-parsing step: `a ↦ 10·a + digit value`. -/
def rdStep (a : ℕ) (c : Char) : ℕ := 10 * a + (c.toNat - 48)

/-- The maximal all-digit suffix of a character list. -/
def dsuf (l : List Char) : List Char := (l.reverse.takeWhile Char.isDigit).reverse

/-- A name is clean when it contains none of the four substrings the
banking passes use to build generated names. -/
def Clean (s : String) : Bool :=
  !hasSub s "ff_fsdn2_" && !hasSub s "ff_fsdn4_" && !hasSub s "ff_lsrdpq4_" &&
    !hasSub s "_REBANKED"

/-- The generated-name scheme of the banking syntheses: hierarchy prefix
(if any), stem, decimal counter. -/
def genName (pre stem : String) (k : ℕ) : String :=
  (if pre = "" then stem else pre ++ "/" ++ stem) ++ Nat.repr k

/-- The names of a list of instances. -/
def instNames (l : List Inst) : List String := l.map (fun i => i.name)

/-- The source names of a banking operation. -/
def opSrcNames (op : BankOp) : List String := instNames op.sources

/-- The original one-bit source names of an `original_sources_map` pair. -/
def entryNames (e : String × List Inst) : List String := instNames e.2

/-- The source names a BANK record carries: the primary original plus the
related instances. -/
def recSrcNames (r : TRec) : List String := r.origName :: r.related

/-- Disjointness of two source-name lists. -/
def NamesDisj (a b : List String) : Prop := ∀ n ∈ a, n ∉ b

/-- The cell-name shapes of the banking optima: a 2-bit FSDN cell, a 4-bit
FSDN cell, or a 4-bit LSRDPQ cell, each rejected by the collectors of the
other passes. -/
def ShapeOK (c : String) : Bool :=
  (hasSub c "FSDN2" && !hasSub c "FSDN4" && !hasSub c "LSRDPQ" && !hasSub c "FDP") ||
  (hasSub c "FSDN4" && !hasSub c "FSDN2" && !hasSub c "LSRDPQ" && !hasSub c "FDP") ||
  (hasSub c "LSRDPQ4" && !hasSub c "FSDN" && !hasSub c "FDP")

/-- A generated name whose decimal counter lies below the corresponding
name-counter bound. -/
def GenBound (c2 c4 cL : ℕ) (n : String) : Prop :=
  ∃ p k, Clean p = true ∧
    ((n = genName p "ff_fsdn2_" k ∧ k < c2) ∨
     (n = genName p "ff_fsdn4_" k ∧ k < c4) ∨
     (n = genName p "ff_lsrdpq4_" k ∧ k < cL))

/-- The consumption invariant threaded through the banking passes: recorded
operations have pairwise name-disjoint, dead, initial-table sources; side-map
pairs are pairwise disjoint, dead, initial, keyed by 2-bit generated names
below the counter; a 4-bit operation only absorbs side-map pairs whose 2-bit
key instance has been consumed; live instances are initial or carry an
optimum cell shape; group member lists stay duplicate-free with members
clean or generated below the counters. -/
structure BankInv (db0 : Db) (st : BankSt) : Prop where
  constOpt : st.db.optimalFF = db0.optimalFF
  constHist : st.db.history = db0.history
  opsDisj : st.ops.Pairwise (fun o1 o2 => NamesDisj (opSrcNames o1) (opSrcNames o2))
  opsDead : ∀ op ∈ st.ops, ∀ n ∈ opSrcNames op, findInst st.db.instances n = none
  opsInit : ∀ op ∈ st.ops, ∀ i ∈ op.sources, i ∈ db0.instances
  opsTy : ∀ op ∈ st.ops, op.opType = "DEBANK_CLUSTER_REBANK" ∨
    op.opType = "FSDN_2BIT_BANKING" ∨ op.opType = "FSDN_4BIT_BANKING" ∨
    op.opType = "LSRDPQ_4BIT_BANKING"
  mapDisj : st.origMap.Pairwise (fun e1 e2 => NamesDisj (entryNames e1) (entryNames e2))
  mapDead : ∀ e ∈ st.origMap, ∀ n ∈ entryNames e, findInst st.db.instances n = none
  mapInit : ∀ e ∈ st.origMap, ∀ i ∈ e.2, i ∈ db0.instances
  mapKeys : ∀ e ∈ st.origMap, ∃ p k, Clean p = true ∧ k < st.ctr2 ∧
    e.1 = genName p "ff_fsdn2_" k
  opsMapDisj : ∀ op ∈ st.ops,
    op.opType = "DEBANK_CLUSTER_REBANK" ∨ op.opType = "LSRDPQ_4BIT_BANKING" →
    ∀ e ∈ st.origMap, NamesDisj (opSrcNames op) (entryNames e)
  fourBit : ∀ op ∈ st.ops, op.opType = "FSDN_4BIT_BANKING" →
    ∀ n ∈ opSrcNames op, ∀ e ∈ st.origMap, n ∈ entryNames e →
      findInst st.db.instances e.1 = none
  live : ∀ i ∈ st.db.instances, i ∈ db0.instances ∨ ShapeOK i.cellName = true
  groupsOK : ∀ g ∈ st.db.groups, g.2.Nodup ∧
    ∀ n ∈ g.2, Clean n = true ∨ GenBound st.ctr2 st.ctr4 st.ctrL n

/-- No leftover 2-bit operation has been recorded yet (holds until
`finalize_2bit_banking_records` runs). -/
def NoTwoBit (st : BankSt) : Prop :=
  ∀ op ∈ st.ops, op.opType ≠ "FSDN_2BIT_BANKING"

/-! # Theorems -/

/-! ## Arithmetic facts about alignment and rounding -/

theorem ceil_as_neg_floor (a : ℚ) : (⌈a⌉ : ℤ) = -⌊-a⌋ := by
  rw [Int.floor_neg, neg_neg]

theorem roundW_eval (w x : ℚ) : roundW w x = (-(⌊-(x / w)⌋ : ℤ) : ℚ) * w := by
  rw [roundW, ceil_as_neg_floor]; push_cast; ring

theorem alignDown_le (xmin : ℚ) {w : ℚ} (hw : 0 < w) (x : ℚ) :
    alignDown xmin w x ≤ x := by
  have h := Int.floor_le ((x - xmin) / w)
  have h2 := mul_le_mul_of_nonneg_right h hw.le
  rw [div_mul_cancel₀ _ (ne_of_gt hw)] at h2
  unfold alignDown; linarith

theorem alignDown_ge (xmin : ℚ) {w : ℚ} (hw : 0 < w) {x : ℚ} (hx : xmin ≤ x) :
    xmin ≤ alignDown xmin w x := by
  have h0 : (0 : ℚ) ≤ (x - xmin) / w := div_nonneg (by linarith) hw.le
  have h1 : (0 : ℤ) ≤ ⌊(x - xmin) / w⌋ := Int.floor_nonneg.mpr h0
  have h2 : (0 : ℚ) ≤ (⌊(x - xmin) / w⌋ : ℚ) := by exact_mod_cast h1
  have h3 := mul_nonneg h2 hw.le
  unfold alignDown; linarith

theorem alignDown_mono (xmin : ℚ) {w : ℚ} (hw : 0 < w) {x y : ℚ} (h : x ≤ y) :
    alignDown xmin w x ≤ alignDown xmin w y := by
  have hd : (x - xmin) / w ≤ (y - xmin) / w :=
    (div_le_div_iff_of_pos_right hw).mpr (by linarith)
  have h1 : ⌊(x - xmin) / w⌋ ≤ ⌊(y - xmin) / w⌋ := Int.floor_le_floor hd
  have h2 : ((⌊(x - xmin) / w⌋ : ℤ) : ℚ) ≤ ((⌊(y - xmin) / w⌋ : ℤ) : ℚ) := by
    exact_mod_cast h1
  have h3 := mul_le_mul_of_nonneg_right h2 hw.le
  unfold alignDown; linarith

theorem alignDown_add_int_mul (xmin : ℚ) {w : ℚ} (hw : w ≠ 0) (x : ℚ) (k : ℤ) :
    alignDown xmin w (x + k * w) = alignDown xmin w x + k * w := by
  unfold alignDown
  have h : (x + k * w - xmin) / w = (x - xmin) / w + k := by
    field_simp; ring
  rw [h, Int.floor_add_int]
  push_cast; ring

theorem le_roundW {w : ℚ} (hw : 0 < w) (x : ℚ) : x ≤ roundW w x := by
  have h := Int.le_ceil (x / w)
  have h2 := mul_le_mul_of_nonneg_right h hw.le
  rw [div_mul_cancel₀ _ (ne_of_gt hw)] at h2
  unfold roundW; linarith

theorem roundW_pos {w : ℚ} (hw : 0 < w) {x : ℚ} (hx : 0 < x) : 0 < roundW w x :=
  lt_of_lt_of_le hx (le_roundW hw x)

theorem roundW_int (w x : ℚ) : ∃ k : ℤ, roundW w x = k * w := ⟨⌈x / w⌉, rfl⟩

theorem sum_roundW_int (w : ℚ) (l : List LInst) :
    ∃ k : ℤ, (l.map (fun i => roundW w i.width)).sum = k * w := by
  induction l with
  | nil => exact ⟨0, by simp⟩
  | cons a t ih =>
    obtain ⟨k, hk⟩ := ih
    refine ⟨⌈a.width / w⌉ + k, ?_⟩
    rw [List.map_cons, List.sum_cons, hk, roundW]
    push_cast; ring

theorem tempXof_mem {xmin xmax w rawW posX : ℚ} (hw : 0 < w) (m : ℕ)
    (hm : xmax - xmin = m * w)
    (hr : roundW w rawW ≤ xmax - xmin) :
    xmin ≤ tempXof xmin xmax w rawW posX ∧
      tempXof xmin xmax w rawW posX + roundW w rawW ≤ xmax := by
  have hle : (⌈rawW / w⌉ : ℤ) ≤ (m : ℤ) := by
    have hq : (⌈rawW / w⌉ : ℚ) * w ≤ (m : ℚ) * w := by
      rw [← hm]; exact hr
    have := (mul_le_mul_right hw).mp hq
    exact_mod_cast this
  unfold tempXof
  split_ifs with h1 h2
  · exact ⟨le_refl _, by linarith⟩
  · -- right-edge branch: xmax − rawW aligned down
    have hceil : ⌊(xmax - rawW - xmin) / w⌋ = -⌈rawW / w⌉ + (m : ℤ) := by
      have h9 : xmax - rawW - xmin = -rawW + (m : ℚ) * w := by linarith
      have he : (xmax - rawW - xmin) / w = -(rawW / w) + (m : ℕ) := by
        rw [h9, add_div, neg_div, mul_div_cancel_right₀ _ (ne_of_gt hw)]
      rw [he, Int.floor_add_nat, Int.floor_neg]
    constructor
    · unfold alignDown
      rw [hceil]
      have h0 : (0 : ℤ) ≤ -⌈rawW / w⌉ + (m : ℤ) := by omega
      have h0q : (0 : ℚ) ≤ ((-⌈rawW / w⌉ + (m : ℤ) : ℤ) : ℚ) := by exact_mod_cast h0
      nlinarith
    · unfold alignDown roundW
      rw [hceil]
      push_cast
      linarith
  · -- interior branch: posX aligned down
    have hx : xmin < posX := not_le.mp h1
    have hx2 : posX + rawW < xmax := not_le.mp h2
    have hk1 : (⌊(posX - xmin) / w⌋ : ℚ) * w ≤ posX - xmin := by
      have h := Int.floor_le ((posX - xmin) / w)
      have h2b := mul_le_mul_of_nonneg_right h hw.le
      rwa [div_mul_cancel₀ _ (ne_of_gt hw)] at h2b
    have hB : (⌈rawW / w⌉ : ℚ) * w < rawW + w := by
      have h := Int.ceil_lt_add_one (rawW / w)
      have h2b := mul_lt_mul_of_pos_right h hw
      rwa [add_mul, div_mul_cancel₀ _ (ne_of_gt hw), one_mul] at h2b
    have hsum : ((⌊(posX - xmin) / w⌋ + ⌈rawW / w⌉ : ℤ) : ℚ) * w < ((m : ℚ) + 1) * w := by
      push_cast
      nlinarith
    have hltZ : (⌊(posX - xmin) / w⌋ + ⌈rawW / w⌉ : ℤ) < (m : ℤ) + 1 := by
      have := (mul_lt_mul_right hw).mp hsum
      exact_mod_cast this
    have hleZ : (⌊(posX - xmin) / w⌋ + ⌈rawW / w⌉ : ℤ) ≤ (m : ℤ) := by omega
    have hleq : ((⌊(posX - xmin) / w⌋ + ⌈rawW / w⌉ : ℤ) : ℚ) * w ≤ (m : ℚ) * w := by
      apply mul_le_mul_of_nonneg_right _ hw.le
      exact_mod_cast hleZ
    constructor
    · exact alignDown_ge xmin hw (le_of_lt hx)
    · unfold alignDown roundW
      push_cast at hleq ⊢
      linarith

example : roundW 2 3 = 4 := by
  rw [roundW_eval]; norm_num

/-! ## Invariant preservation by the committing insertion -/

theorem collapseX_mem {xmin xmax w : ℚ} (c : ClusterM)
    (hcw : c.width ≤ xmax - xmin) :
    xmin ≤ collapseX xmin xmax w c ∧ collapseX xmin xmax w c + c.width ≤ xmax := by
  simp only [collapseX]
  split_ifs with h1 h2 h2
  · constructor <;> linarith
  · constructor <;> linarith
  · constructor <;> linarith
  · constructor <;> linarith

theorem cellsSum_nonneg {w : ℚ} (hw : 0 < w) {l : List LInst}
    (hl : ∀ i ∈ l, 0 < i.width) :
    0 ≤ (l.map (fun i => roundW w i.width)).sum := by
  induction l with
  | nil => simp
  | cons a t ih =>
    simp only [List.map_cons, List.sum_cons]
    have ha := roundW_pos hw (hl a (by simp))
    have ht := ih (fun i hi => hl i (by simp [hi]))
    linarith

theorem cInv_width_nonneg {w : ℚ} (hw : 0 < w) {c : ClusterM} (h : cInv w c) :
    0 ≤ c.width := by
  obtain ⟨hwid, -, hpos⟩ := h
  rw [hwid]; exact cellsSum_nonneg hw hpos

theorem AddCluster_cInv {w : ℚ} {p c : ClusterM} (hp : cInv w p) (hc : cInv w c) :
    cInv w (AddCluster p c) := by
  obtain ⟨hw1, hp1, hm1⟩ := hp
  obtain ⟨hw2, hp2, hm2⟩ := hc
  refine ⟨?_, by simp [AddCluster]; linarith, ?_⟩
  · simp [AddCluster, hw1, hw2]
  · intro i hi
    simp only [AddCluster, List.mem_append] at hi
    rcases hi with hi | hi
    · exact hm1 i hi
    · exact hm2 i hi

theorem totalW_cons (c : ClusterM) (l : List ClusterM) :
    totalW (c :: l) = c.width + totalW l := by
  simp [totalW]

theorem Collapse_totalW (xmin xmax w : ℚ) :
    ∀ (preds : List ClusterM) (c : ClusterM),
      totalW (Collapse xmin xmax w c preds) = totalW (c :: preds) := by
  intro preds
  induction preds with
  | nil => intro c; simp [Collapse, totalW]
  | cons p ps ih =>
    intro c
    simp only [Collapse]
    split_ifs with h
    · rw [ih]
      simp [totalW, AddCluster]
      ring
    · simp [totalW]

theorem totalW_nonneg {w : ℚ} (hw : 0 < w) :
    ∀ {chain : List ClusterM}, (∀ q ∈ chain, cInv w q) → 0 ≤ totalW chain := by
  intro chain
  induction chain with
  | nil => intro _; simp [totalW]
  | cons a t ih =>
    intro h
    rw [totalW_cons]
    have ha := cInv_width_nonneg hw (h a (by simp))
    have ht := ih (fun q hq => h q (by simp [hq]))
    linarith

theorem Collapse_chainInv {xmin xmax w : ℚ} (hw : 0 < w) :
    ∀ (preds : List ClusterM) (c : ClusterM),
      chainOrd preds →
      chainBounds xmin xmax preds →
      (∀ q ∈ preds, cInv w q) →
      cInv w c →
      totalW (c :: preds) ≤ xmax - xmin →
      chainInv xmin xmax w (Collapse xmin xmax w c preds) := by
  intro preds
  induction preds with
  | nil =>
    intro c _ _ _ hc hcap
    have hcw : c.width ≤ xmax - xmin := by
      rw [totalW_cons] at hcap
      simp [totalW] at hcap
      linarith
    obtain ⟨hlo, hhi⟩ := @collapseX_mem xmin xmax w c hcw
    refine ⟨?_, ?_, ?_⟩
    · simp [Collapse, chainOrd]
    · intro q hq
      simp [Collapse] at hq
      subst hq
      exact ⟨hlo, hhi⟩
    · intro q hq
      simp [Collapse] at hq
      subst hq
      exact hc
  | cons p ps ih =>
    intro c hord hbnd hinv hc hcap
    simp only [Collapse]
    split_ifs with h
    · -- merge with the left neighbour and continue
      have hp : cInv w p := hinv p (by simp)
      have hmerged : cInv w (AddCluster p { c with x := collapseX xmin xmax w c }) :=
        AddCluster_cInv hp hc
      have hord' : chainOrd ps := hord.tail
      have hbnd' : chainBounds xmin xmax ps := fun q hq => hbnd q (by simp [hq])
      have hinv' : ∀ q ∈ ps, cInv w q := fun q hq => hinv q (by simp [hq])
      have hcap' : totalW (AddCluster p { c with x := collapseX xmin xmax w c } :: ps) ≤
          xmax - xmin := by
        rw [totalW_cons] at hcap ⊢
        rw [totalW_cons] at hcap
        simp only [AddCluster]
        linarith
      exact ih _ hord' hbnd' hinv' hmerged hcap'
    · -- the chain is stable: reposition the head only
      have hps : 0 ≤ totalW ps := totalW_nonneg hw (fun q hq => hinv q (by simp [hq]))
      have hpw : 0 ≤ p.width := cInv_width_nonneg hw (hinv p (by simp))
      have hcw : c.width ≤ xmax - xmin := by
        rw [totalW_cons, totalW_cons] at hcap
        linarith
      obtain ⟨hlo, hhi⟩ := @collapseX_mem xmin xmax w c hcw
      refine ⟨?_, ?_, ?_⟩
      · rw [chainOrd, List.chain'_cons]
        exact ⟨by simpa using not_lt.mp h, hord⟩
      · intro q hq
        rcases List.mem_cons.mp hq with hq | hq
        · subst hq; exact ⟨hlo, hhi⟩
        · exact hbnd q hq
      · intro q hq
        rcases List.mem_cons.mp hq with hq | hq
        · subst hq; exact hc
        · exact hinv q hq

theorem AddCell_cInv {w : ℚ} {c : ClusterM} {i : LInst} (tempX : ℚ)
    (hc : cInv w c) (hiw : 0 < i.width) (hwt : 0 < i.weight) :
    cInv w (AddCell c i tempX (roundW w i.width)) := by
  obtain ⟨h1, h2, h3⟩ := hc
  refine ⟨?_, by simp [AddCell]; linarith, ?_⟩
  · simp [AddCell, h1]
  · intro j hj
    simp only [AddCell, List.mem_append, List.mem_singleton] at hj
    rcases hj with hj | hj
    · exact h3 j hj
    · subst hj; exact hiw

theorem AddCell_fresh_cInv {w : ℚ} {i : LInst} (tempX : ℚ)
    (hiw : 0 < i.width) (hwt : 0 < i.weight) :
    cInv w (AddCell { x := tempX, width := 0, weight := 0, q := 0, cells := [] }
      i tempX (roundW w i.width)) := by
  refine ⟨by simp [AddCell], by simp [AddCell]; linarith, ?_⟩
  intro j hj
  simp only [AddCell, List.nil_append, List.mem_singleton] at hj
  subst hj; exact hiw

theorem srCommit_fields (row : PRow) (sr : SubRowM) (i : LInst) :
    (srCommit row sr i).xmin = sr.xmin ∧ (srCommit row sr i).xmax = sr.xmax := by
  unfold srCommit placeRowFinal
  cases sr.clusters with
  | nil => exact ⟨rfl, rfl⟩
  | cons last preds =>
    dsimp only
    split_ifs <;> exact ⟨rfl, rfl⟩

theorem srCommit_totalW (row : PRow) (sr : SubRowM) (i : LInst) :
    totalW (srCommit row sr i).clusters =
      totalW sr.clusters + roundW row.siteW i.width := by
  unfold srCommit placeRowFinal
  cases h : sr.clusters with
  | nil => simp [totalW, AddCell]
  | cons last preds =>
    dsimp only
    split_ifs with hb
    · simp [totalW_cons, AddCell]
      ring
    · rw [Collapse_totalW]
      simp [totalW_cons, AddCell]
      ring

theorem srCommit_chainInv {row : PRow} (hw : 0 < row.siteW) {sr : SubRowM}
    {i : LInst} (m : ℕ) (hm : sr.xmax - sr.xmin = m * row.siteW)
    (hinv : chainInv sr.xmin sr.xmax row.siteW sr.clusters)
    (hiw : 0 < i.width) (hwt : 0 < i.weight)
    (hcap : totalW sr.clusters + roundW row.siteW i.width ≤ sr.xmax - sr.xmin) :
    chainInv sr.xmin sr.xmax row.siteW (srCommit row sr i).clusters := by
  obtain ⟨hord, hbnd, hcell⟩ := hinv
  have hrle : roundW row.siteW i.width ≤ sr.xmax - sr.xmin := by
    have h0 := totalW_nonneg hw hcell
    linarith
  obtain ⟨htl, hth⟩ := @tempXof_mem _ _ _ _ i.posX hw m hm hrle
  unfold srCommit placeRowFinal
  cases h : sr.clusters with
  | nil =>
    dsimp only
    refine ⟨?_, ?_, ?_⟩
    · simp [chainOrd]
    · intro q hq
      simp at hq
      subst hq
      simpa [AddCell] using ⟨htl, by simpa [AddCell] using hth⟩
    · intro q hq
      simp at hq
      subst hq
      exact AddCell_fresh_cInv _ hiw hwt
  | cons last preds =>
    rw [h] at hord hbnd hcell hcap
    dsimp only
    split_ifs with hb
    · -- a fresh rightmost cluster
      refine ⟨?_, ?_, ?_⟩
      · rw [chainOrd, List.chain'_cons]
        exact ⟨by simpa [AddCell] using hb, hord⟩
      · intro q hq
        rcases List.mem_cons.mp hq with hq | hq
        · subst hq
          constructor
          · simpa [AddCell] using htl
          · simpa [AddCell] using hth
        · exact hbnd q hq
      · intro q hq
        rcases List.mem_cons.mp hq with hq | hq
        · subst hq; exact AddCell_fresh_cInv _ hiw hwt
        · exact hcell q hq
    · -- add to the last cluster and collapse
      apply Collapse_chainInv hw
      · exact hord.tail
      · exact fun q hq => hbnd q (by simp [hq])
      · exact fun q hq => hcell q (by simp [hq])
      · exact AddCell_cInv _ (hcell last (by simp)) hiw hwt
      · rw [totalW_cons]
        rw [totalW_cons] at hcap
        simp only [AddCell]
        linarith

theorem foldCommit_fields (row : PRow) :
    ∀ (commits : List LInst) (s : SubRowM),
      (commits.foldl (srCommit row) s).xmin = s.xmin ∧
        (commits.foldl (srCommit row) s).xmax = s.xmax := by
  intro commits
  induction commits with
  | nil => intro s; exact ⟨rfl, rfl⟩
  | cons c cs ih =>
    intro s
    obtain ⟨e1, e2⟩ := srCommit_fields row s c
    obtain ⟨f1, f2⟩ := ih (srCommit row s c)
    exact ⟨by rw [List.foldl_cons, f1, e1], by rw [List.foldl_cons, f2, e2]⟩

theorem foldCommit_total_mono {row : PRow} (hw : 0 < row.siteW) :
    ∀ (commits : List LInst) (s : SubRowM), (∀ i ∈ commits, 0 < i.width) →
      totalW s.clusters ≤ totalW ((commits.foldl (srCommit row) s).clusters) := by
  intro commits
  induction commits with
  | nil => intro s _; exact le_refl _
  | cons c cs ih =>
    intro s hpos
    have h1 : totalW s.clusters ≤ totalW ((srCommit row s c).clusters) := by
      rw [srCommit_totalW]
      have := roundW_pos hw (hpos c (by simp))
      linarith
    have h2 := ih (srCommit row s c) (fun i hi => hpos i (by simp [hi]))
    rw [List.foldl_cons]
    linarith

theorem foldCommit_chainInv {row : PRow} (hw : 0 < row.siteW) :
    ∀ (commits : List LInst) (s : SubRowM) (m : ℕ),
      s.xmax - s.xmin = m * row.siteW →
      (∀ i ∈ commits, 0 < i.width ∧ 0 < i.weight) →
      chainInv s.xmin s.xmax row.siteW s.clusters →
      totalW ((commits.foldl (srCommit row) s).clusters) ≤ s.xmax - s.xmin →
      chainInv s.xmin s.xmax row.siteW ((commits.foldl (srCommit row) s).clusters) := by
  intro commits
  induction commits with
  | nil =>
    intro s m _ _ hinv _
    exact hinv
  | cons c cs ih =>
    intro s m hm hpos hinv hcap
    rw [List.foldl_cons] at hcap ⊢
    obtain ⟨e1, e2⟩ := srCommit_fields row s c
    have hmono := foldCommit_total_mono hw cs (srCommit row s c)
      (fun i hi => (hpos i (by simp [hi])).1)
    have hstep : totalW s.clusters + roundW row.siteW c.width ≤ s.xmax - s.xmin := by
      rw [← srCommit_totalW row s c]
      linarith
    have hinv1 := srCommit_chainInv hw m hm hinv (hpos c (by simp)).1 (hpos c (by simp)).2
      hstep
    have := ih (srCommit row s c) m (by rw [e1, e2]; exact hm)
      (fun i hi => hpos i (by simp [hi]))
      (by rw [e1, e2]; exact hinv1)
      (by rw [e1, e2]; exact hcap)
    rw [e1, e2] at this
    exact this

/-! ## The final layout pass -/

theorem chainInv_tail {xmin xmax w : ℚ} {c : ClusterM} {rest : List ClusterM}
    (h : chainInv xmin xmax w (c :: rest)) : chainInv xmin xmax w rest := by
  obtain ⟨hord, hbnd, hcell⟩ := h
  exact ⟨hord.tail, fun q hq => hbnd q (by simp [hq]),
    fun q hq => hcell q (by simp [hq])⟩

theorem layoutCells_bounds {w oy : ℚ} (hw : 0 < w) :
    ∀ (cells : List LInst) (x : ℚ), (∀ i ∈ cells, 0 < i.width) →
      ∀ e ∈ layoutCells w oy x cells,
        x ≤ e.x ∧ e.x + e.w ≤ x + (cells.map (fun i => roundW w i.width)).sum ∧
          e.y = oy := by
  intro cells
  induction cells with
  | nil => intro x _ e he; simp [layoutCells] at he
  | cons i is ih =>
    intro x hpos e he
    have hr0 : 0 < roundW w i.width := roundW_pos hw (hpos i (by simp))
    have hrest : 0 ≤ (is.map (fun j => roundW w j.width)).sum :=
      cellsSum_nonneg hw (fun j hj => hpos j (by simp [hj]))
    simp only [layoutCells, List.mem_cons] at he
    rcases he with he | he
    · subst he
      refine ⟨le_refl _, ?_, rfl⟩
      simp only [List.map_cons, List.sum_cons]
      linarith
    · obtain ⟨h1, h2, h3⟩ := ih (x + roundW w i.width)
        (fun j hj => hpos j (by simp [hj])) e he
      refine ⟨by linarith, ?_, h3⟩
      simp only [List.map_cons, List.sum_cons]
      linarith

theorem layoutCells_pairwise {w oy : ℚ} (hw : 0 < w) :
    ∀ (cells : List LInst) (x : ℚ), (∀ i ∈ cells, 0 < i.width) →
      (layoutCells w oy x cells).Pairwise cellsDisjoint := by
  intro cells
  induction cells with
  | nil => intro x _; simp [layoutCells]
  | cons i is ih =>
    intro x hpos
    simp only [layoutCells]
    refine List.Pairwise.cons ?_ (ih _ (fun j hj => hpos j (by simp [hj])))
    intro e he
    obtain ⟨h1, -, -⟩ := layoutCells_bounds hw is (x + roundW w i.width)
      (fun j hj => hpos j (by simp [hj])) e he
    left
    exact h1

theorem layoutChain_bounds {xmin xmax w oy : ℚ} (hw : 0 < w) :
    ∀ (chain : List ClusterM), chainInv xmin xmax w chain →
      ∀ e ∈ layoutChain xmin w oy chain,
        xmin ≤ e.x ∧ e.x + e.w ≤ xmax ∧ e.y = oy := by
  intro chain hinv e he
  obtain ⟨hord, hbnd, hcell⟩ := hinv
  rw [layoutChain, List.mem_flatMap] at he
  obtain ⟨c, hc, he⟩ := he
  obtain ⟨hxlo, hxhi⟩ := hbnd c hc
  obtain ⟨hwsum, -, hpos⟩ := hcell c hc
  obtain ⟨h1, h2, h3⟩ := layoutCells_bounds hw c.cells (alignDown xmin w c.x) hpos e he
  have hgel := alignDown_ge xmin hw hxlo
  have hlel := alignDown_le xmin hw c.x
  refine ⟨by linarith, ?_, h3⟩
  rw [← hwsum] at h2
  linarith

theorem layoutChain_upper {xmin oy : ℚ} {w : ℚ} (hw : 0 < w) :
    ∀ (chain : List ClusterM), (∀ c ∈ chain, cInv w c) →
      ∀ (B : ℚ), (∀ p ∈ chain, p.x + p.width ≤ B) →
        ∀ e ∈ layoutChain xmin w oy chain, e.x + e.w ≤ alignDown xmin w B := by
  intro chain hcell B hB e he
  rw [layoutChain, List.mem_flatMap] at he
  obtain ⟨p, hp, he⟩ := he
  obtain ⟨hwsum, -, hpos⟩ := hcell p hp
  obtain ⟨-, h2, -⟩ := layoutCells_bounds hw p.cells (alignDown xmin w p.x) hpos e he
  obtain ⟨k, hk⟩ := sum_roundW_int w p.cells
  have hkw : p.width = k * w := by rw [hwsum, hk]
  have heq : alignDown xmin w p.x + p.width = alignDown xmin w (p.x + p.width) := by
    rw [hkw, alignDown_add_int_mul xmin (ne_of_gt hw)]
  have hmono := alignDown_mono xmin hw (hB p hp)
  rw [← hwsum] at h2
  linarith [heq ▸ h2, hmono]

theorem chainOrd_dominates {w : ℚ} (hw : 0 < w) :
    ∀ (rest : List ClusterM) (c : ClusterM), chainOrd (c :: rest) →
      (∀ q ∈ c :: rest, cInv w q) → ∀ p ∈ rest, p.x + p.width ≤ c.x := by
  intro rest
  induction rest with
  | nil => intro c _ _ p hp; simp at hp
  | cons q qs ih =>
    intro c hord hcell p hp
    have hcq : q.x + q.width ≤ c.x := (List.chain'_cons.mp hord).1
    rcases List.mem_cons.mp hp with hp | hp
    · subst hp; exact hcq
    · have h1 := ih q (List.chain'_cons.mp hord).2
        (fun r hr => hcell r (by simp [List.mem_cons] at hr ⊢; tauto)) p hp
      have hqw : 0 ≤ q.width := cInv_width_nonneg hw (hcell q (by simp))
      linarith

theorem layoutChain_pairwise {xmin xmax w oy : ℚ} (hw : 0 < w) :
    ∀ (chain : List ClusterM), chainInv xmin xmax w chain →
      (layoutChain xmin w oy chain).Pairwise cellsDisjoint := by
  intro chain
  induction chain with
  | nil => intro _; simp [layoutChain]
  | cons c rest ih =>
    intro hinv
    have htail := chainInv_tail hinv
    obtain ⟨hord, hbnd, hcell⟩ := hinv
    have hpos : ∀ i ∈ c.cells, 0 < i.width := (hcell c (by simp)).2.2
    rw [layoutChain, List.flatMap_cons, List.pairwise_append]
    refine ⟨layoutCells_pairwise hw c.cells _ hpos, ih htail, ?_⟩
    intro a ha b hb
    obtain ⟨ha1, -, -⟩ := layoutCells_bounds hw c.cells (alignDown xmin w c.x) hpos a ha
    have hdom := chainOrd_dominates hw rest c hord hcell
    have hb2 := @layoutChain_upper xmin oy _ hw rest
      (fun q hq => htail.2.2 q hq) c.x hdom b hb
    right
    linarith

theorem layoutSubrows_pairwise {w oy : ℚ} (hw : 0 < w) :
    ∀ (srs : List SubRowM),
      (∀ sr ∈ srs, chainInv sr.xmin sr.xmax w sr.clusters) →
      srs.Pairwise (fun a b => a.xmax ≤ b.xmin ∨ b.xmax ≤ a.xmin) →
      (srs.flatMap (fun sr => layoutChain sr.xmin w oy sr.clusters)).Pairwise
        cellsDisjoint := by
  intro srs
  induction srs with
  | nil => intro _ _; simp
  | cons sr rest ih =>
    intro hinv hdisj
    rw [List.flatMap_cons, List.pairwise_append]
    refine ⟨layoutChain_pairwise hw sr.clusters (hinv sr (by simp)), ?_, ?_⟩
    · exact ih (fun s hs => hinv s (by simp [hs])) (List.Pairwise.of_cons hdisj)
    · intro a ha b hb
      obtain ⟨ha1, ha2, -⟩ := layoutChain_bounds hw sr.clusters (hinv sr (by simp)) a ha
      rw [List.mem_flatMap] at hb
      obtain ⟨sr2, hsr2, hb⟩ := hb
      obtain ⟨hb1, hb2, -⟩ := layoutChain_bounds hw sr2.clusters
        (hinv sr2 (by simp [hsr2])) b hb
      have hd := List.rel_of_pairwise_cons hdisj hsr2
      rcases hd with hd | hd
      · left; linarith
      · right; linarith

theorem layoutRow_ok (row : PRow) (hw : 0 < row.siteW)
    (hinv : ∀ sr ∈ row.subrows, chainInv sr.xmin sr.xmax row.siteW sr.clusters)
    (hdisj : row.subrows.Pairwise (fun a b => a.xmax ≤ b.xmin ∨ b.xmax ≤ a.xmin)) :
    rowLayoutOk row := by
  constructor
  · exact layoutSubrows_pairwise hw row.subrows hinv hdisj
  · intro a ha
    rw [layoutRow, List.mem_flatMap] at ha
    obtain ⟨sr, hsr, ha⟩ := ha
    obtain ⟨h1, h2, -⟩ := layoutChain_bounds hw sr.clusters (hinv sr hsr) a ha
    exact ⟨sr, hsr, h1, h2⟩

/-! ## From the Abacus outer loop to per-sub-row commit sequences -/

theorem srCommit_congr {r1 r2 : PRow} (h1 : r1.siteW = r2.siteW)
    (h2 : r1.originY = r2.originY) (sr : SubRowM) (i : LInst) :
    srCommit r1 sr i = srCommit r2 sr i := by
  simp only [srCommit, placeRowFinal, h1, h2]

theorem chainInv_nil (xmin xmax w : ℚ) : chainInv xmin xmax w [] := by
  refine ⟨by simp [chainOrd], ?_, ?_⟩ <;> intro q hq <;> simp at hq

/-- One Abacus iteration changes each sub-row either not at all or by a
single committing insertion of the processed instance. -/
def StepRel (inst : LInst) (rows rows' : List PRow) : Prop :=
  List.Forall₂
    (fun row row' =>
      row'.originX = row.originX ∧ row'.originY = row.originY ∧
        row'.siteW = row.siteW ∧
        List.Forall₂ (fun sr sr' => sr' = sr ∨ sr' = srCommit row sr inst)
          row.subrows row'.subrows)
    rows rows'

theorem forall₂_set_self {α : Type} {R : α → α → Prop} :
    ∀ (l : List α) (i : ℕ) (v : α), (∀ x ∈ l, R x x) →
      (∀ x, l[i]? = some x → R x v) → List.Forall₂ R l (l.set i v) := by
  intro l
  induction l with
  | nil => intro i v _ _; simp [List.Forall₂.nil]
  | cons a t ih =>
    intro i v hrefl hset
    cases i with
    | zero =>
      rw [List.set_cons_zero]
      exact List.Forall₂.cons (hset a (by simp)) ((List.forall₂_same).mpr
        (fun x hx => hrefl x (by simp [hx])))
    | succ j =>
      rw [List.set_cons_succ]
      exact List.Forall₂.cons (hrefl a (by simp))
        (ih j v (fun x hx => hrefl x (by simp [hx]))
          (fun x hx => hset x (by simpa using hx)))

theorem stepRel_refl (inst : LInst) (rows : List PRow) : StepRel inst rows rows := by
  rw [StepRel, List.forall₂_same]
  intro row _
  exact ⟨rfl, rfl, rfl, (List.forall₂_same).mpr (fun sr _ => Or.inl rfl)⟩

theorem commitAt_stepRel (rows : List PRow) (ri si : ℕ) (inst : LInst) :
    StepRel inst rows (commitAt rows ri si inst).1 := by
  rw [commitAt]
  cases hrow : rows[ri]? with
  | none => exact stepRel_refl inst rows
  | some row =>
    dsimp only
    cases hsr : row.subrows[si]? with
    | none => exact stepRel_refl inst rows
    | some sr =>
      dsimp only
      rw [StepRel]
      apply forall₂_set_self
      · intro x _
        exact ⟨rfl, rfl, rfl, (List.forall₂_same).mpr (fun s _ => Or.inl rfl)⟩
      · intro x hx
        rw [hrow] at hx
        cases hx
        refine ⟨rfl, rfl, rfl, ?_⟩
        apply forall₂_set_self (R := fun sr sr' => sr' = sr ∨ sr' = srCommit row sr inst)
        · intro s _; exact Or.inl rfl
        · intro s hs
          rw [hsr] at hs
          cases hs
          exact Or.inr rfl

theorem abacusStep_stepRel (m : ℚ) (rows : List PRow) (inst : LInst) :
    StepRel inst rows (abacusStep m rows inst).1 := by
  rw [abacusStep]
  cases findBestRow rows inst with
  | none => exact stepRel_refl inst rows
  | some o =>
    dsimp only
    cases sweepLoop rows m inst o rows.length 0 none with
    | none => exact stepRel_refl inst rows
    | some brs =>
      dsimp only
      exact commitAt_stepRel rows brs.2.1 brs.2.2 inst

/-- Reachability of each sub-row from its initial state via commit
sequences, together with preservation of the static row fields. -/
def RowsReach (rows0 rows : List PRow) : Prop :=
  List.Forall₂
    (fun row0 row =>
      row.originX = row0.originX ∧ row.originY = row0.originY ∧
        row.siteW = row0.siteW ∧
        List.Forall₂ (Reach row0) row0.subrows row.subrows)
    rows0 rows

theorem forall₂_compose {α β γ : Type} {R : α → β → Prop} {S : β → γ → Prop}
    {T : α → γ → Prop} (h : ∀ a b c, R a b → S b c → T a c) :
    ∀ {l1 : List α} {l2 : List β} {l3 : List γ},
      List.Forall₂ R l1 l2 → List.Forall₂ S l2 l3 → List.Forall₂ T l1 l3 := by
  intro l1 l2 l3 h12 h23
  induction h12 generalizing l3 with
  | nil => cases h23; exact List.Forall₂.nil
  | cons hab htail ih =>
    cases h23 with
    | cons hbc htail2 => exact List.Forall₂.cons (h _ _ _ hab hbc) (ih htail2)

theorem reach_refl (row : PRow) (sr : SubRowM) : Reach row sr sr :=
  ⟨[], by simp, rfl⟩

theorem rowsReach_refl (rows : List PRow) : RowsReach rows rows := by
  rw [RowsReach, List.forall₂_same]
  intro row _
  exact ⟨rfl, rfl, rfl, (List.forall₂_same).mpr (fun sr _ => reach_refl row sr)⟩

theorem rowsReach_step {rows0 rows rows' : List PRow} {inst : LInst}
    (hw : 0 < inst.width) (hwt : 0 < inst.weight)
    (h1 : RowsReach rows0 rows) (h2 : StepRel inst rows rows') :
    RowsReach rows0 rows' := by
  refine forall₂_compose ?_ h1 h2
  rintro row0 row1 row2 ⟨e1, e2, e3, hsub1⟩ ⟨f1, f2, f3, hsub2⟩
  refine ⟨f1.trans e1, f2.trans e2, f3.trans e3, ?_⟩
  refine forall₂_compose ?_ hsub1 hsub2
  rintro sr0 sr1 sr2 ⟨commits, hpos, hfold⟩ (rfl | rfl)
  · exact ⟨commits, hpos, hfold⟩
  · refine ⟨commits ++ [inst], ?_, ?_⟩
    · intro i hi
      rcases List.mem_append.mp hi with hi | hi
      · exact hpos i hi
      · simp at hi; subst hi; exact ⟨hw, hwt⟩
    · rw [List.foldl_append, ← hfold]
      simp only [List.foldl_cons, List.foldl_nil]
      exact srCommit_congr (by rw [e3]) (by rw [e2]) sr1 inst

theorem insertByKey_mem {α : Type} (key : α → ℚ) (a x : α) :
    ∀ l : List α, x ∈ insertByKey key a l ↔ x = a ∨ x ∈ l := by
  intro l
  induction l with
  | nil => simp [insertByKey]
  | cons b bs ih =>
    rw [insertByKey]
    by_cases h : key a ≤ key b
    · simp [h]
    · rw [if_neg h]
      simp only [List.mem_cons, ih]
      tauto

theorem sortByKey_mem {α : Type} (key : α → ℚ) (x : α) (l : List α) :
    x ∈ sortByKey key l ↔ x ∈ l := by
  rw [sortByKey]
  induction l with
  | nil => simp
  | cons b bs ih =>
    rw [List.foldr_cons, insertByKey_mem]
    simp [ih]

theorem foldl_rowsReach (m : ℚ) :
    ∀ (l : List LInst) (st : List PRow × List LInst) (rows0 : List PRow),
      (∀ i ∈ l, 0 < i.width ∧ 0 < i.weight) → RowsReach rows0 st.1 →
      RowsReach rows0
        ((l.foldl (fun st inst =>
          let r := abacusStep m st.1 inst
          (r.1, st.2 ++ [r.2])) st).1) := by
  intro l
  induction l with
  | nil => intro st rows0 _ h; exact h
  | cons c cs ih =>
    intro st rows0 hpos h
    rw [List.foldl_cons]
    exact ih _ rows0 (fun i hi => hpos i (by simp [hi]))
      (rowsReach_step (hpos c (by simp)).1 (hpos c (by simp)).2 h
        (abacusStep_stepRel m st.1 c))

theorem abacusRun_rowsReach (m : ℚ) (rows : List PRow) (ffs : List LInst)
    (hpos : ∀ i ∈ ffs, 0 < i.width ∧ 0 < i.weight) :
    RowsReach rows (abacusRun m rows ffs).1 := by
  rw [abacusRun]
  exact foldl_rowsReach m _ _ rows
    (fun i hi => hpos i ((sortByKey_mem _ i ffs).mp hi)) (rowsReach_refl rows)

theorem forall₂_getElem {α β : Type} {R : α → β → Prop} :
    ∀ {l1 : List α} {l2 : List β}, List.Forall₂ R l1 l2 →
      ∀ (i : ℕ) (h2 : i < l2.length), ∃ h1 : i < l1.length, R l1[i] l2[i] := by
  intro l1 l2 h
  induction h with
  | nil => intro i h2; simp at h2
  | cons hab htail ih =>
    intro i h2
    cases i with
    | zero => exact ⟨by simp, hab⟩
    | succ j =>
      obtain ⟨h1, hr⟩ := ih j (by simpa using h2)
      exact ⟨by simpa using h1, hr⟩

theorem forall₂_mem_right {α β : Type} {R : α → β → Prop} :
    ∀ {l1 : List α} {l2 : List β}, List.Forall₂ R l1 l2 →
      ∀ b ∈ l2, ∃ a ∈ l1, R a b := by
  intro l1 l2 h
  induction h with
  | nil => intro b hb; simp at hb
  | cons hab htail ih =>
    intro b hb
    rcases List.mem_cons.mp hb with rfl | hb
    · exact ⟨_, by simp, hab⟩
    · obtain ⟨a, ha, hr⟩ := ih b hb
      exact ⟨a, by simp [ha], hr⟩

theorem pairwise_of_forall₂ {α β : Type} {S : α → β → Prop} {R : α → α → Prop}
    {Q : β → β → Prop}
    (h : ∀ a b c d, S a c → S b d → R a b → Q c d) :
    ∀ {l : List α} {l2 : List β}, List.Forall₂ S l l2 → l.Pairwise R →
      l2.Pairwise Q := by
  intro l l2 hf
  induction hf with
  | nil => intro _; exact List.Pairwise.nil
  | cons hab htail ih =>
    intro hp
    rcases List.pairwise_cons.mp hp with ⟨hhead, hptail⟩
    refine List.Pairwise.cons ?_ (ih hptail)
    intro d hd
    obtain ⟨b, hbmem, hS⟩ := forall₂_mem_right htail d hd
    exact h _ _ _ _ hab hS (hhead b hbmem)

/-- C1 (amended): after the Abacus pass and the final `place()` layout,
non-overlap and sub-row containment of the laid-out footprints hold for
every row **provided** every final sub-row's committed total site-rounded
width fits its span — the capacity hypothesis the C++ `Usewidth` test
(which checks only raw widths) fails to guarantee.  The rows start with
empty cluster chains, positive site widths, site-aligned sub-row spans and
pairwise disjoint sub-rows, and the instances have positive widths and
weights. -/
theorem legalizer_layout_of_capacity (m : ℚ) (rows0 : List PRow)
    (ffs : List LInst)
    (hw : ∀ row ∈ rows0, 0 < row.siteW)
    (halign : ∀ row ∈ rows0, ∀ sr ∈ row.subrows,
      ∃ k : ℕ, sr.xmax - sr.xmin = k * row.siteW)
    (hinit : ∀ row ∈ rows0, ∀ sr ∈ row.subrows, sr.clusters = [])
    (hdisj : ∀ row ∈ rows0,
      row.subrows.Pairwise (fun a b => a.xmax ≤ b.xmin ∨ b.xmax ≤ a.xmin))
    (hffs : ∀ i ∈ ffs, 0 < i.width ∧ 0 < i.weight)
    (hcap : ∀ row ∈ (abacusRun m rows0 ffs).1, ∀ sr ∈ row.subrows,
      totalW sr.clusters ≤ sr.xmax - sr.xmin) :
    ∀ row ∈ (abacusRun m rows0 ffs).1, rowLayoutOk row := by
  intro row2 hrow2
  have hreach := abacusRun_rowsReach m rows0 ffs hffs
  obtain ⟨i, hlt, hget⟩ := List.getElem_of_mem hrow2
  obtain ⟨h1, hrel⟩ := forall₂_getElem hreach i hlt
  rw [hget] at hrel
  have hrow0mem : rows0[i] ∈ rows0 := List.getElem_mem h1
  obtain ⟨e1, e2, e3, hsub⟩ := hrel
  refine layoutRow_ok row2 (by rw [e3]; exact hw _ hrow0mem) ?_ ?_
  · intro sr2 hsr2
    obtain ⟨sr0, hsr0, hre⟩ := forall₂_mem_right hsub sr2 hsr2
    obtain ⟨commits, hcpos, hfold⟩ := hre
    obtain ⟨k, hk⟩ := halign _ hrow0mem sr0 hsr0
    have hxmin : sr2.xmin = sr0.xmin := by
      rw [hfold]; exact (foldCommit_fields _ commits sr0).1
    have hxmax : sr2.xmax = sr0.xmax := by
      rw [hfold]; exact (foldCommit_fields _ commits sr0).2
    have hbase : chainInv sr0.xmin sr0.xmax (rows0[i]).siteW sr0.clusters := by
      rw [hinit _ hrow0mem sr0 hsr0]; exact chainInv_nil _ _ _
    have hc := hcap row2 hrow2 sr2 hsr2
    rw [hxmin, hxmax, hfold] at hc
    have hinv :=
      foldCommit_chainInv (hw _ hrow0mem) commits sr0 k hk hcpos hbase hc
    rw [hxmin, hxmax, e3, hfold]
    exact hinv
  · refine pairwise_of_forall₂ ?_ hsub (hdisj _ hrow0mem)
    rintro a b c d ⟨ca, hca, hfa⟩ ⟨cb, hcb, hfb⟩ hr
    have ha2 : c.xmax = a.xmax := by
      rw [hfa]; exact (foldCommit_fields _ ca a).2
    have ha1 : c.xmin = a.xmin := by
      rw [hfa]; exact (foldCommit_fields _ ca a).1
    have hb2 : d.xmax = b.xmax := by
      rw [hfb]; exact (foldCommit_fields _ cb b).2
    have hb1 : d.xmin = b.xmin := by
      rw [hfb]; exact (foldCommit_fields _ cb b).1
    rw [ha2, ha1, hb2, hb1]
    exact hr
/-! ## Concrete evaluation of the Abacus pass on `cexFF` -/

theorem cexRoundW : roundW 400 500 = 800 := by
  rw [roundW_eval]; norm_num

theorem cexSubsEq : cexRow.subrows = [cexSr] := rfl

theorem cexBestRow : findBestRow [cexRow] cexFF = some 0 := rfl

theorem cexSubrowpos : findSubrowpos cexFF cexRow = some 0 := by
  norm_num [findSubrowpos, findSubrowposAux, cexFF, cexRow, cexSr, dmLT]

theorem cexTrial : placeRowTrial cexRow cexSr cexFF 1000000000000 = some 0 := by
  norm_num [placeRowTrial, tempXof, sqDist, cexRow, cexSr, cexFF]

theorem cexTryNone :
    sweepTry [cexRow] 1000000000000 cexFF 0 none = some (0, 0, 0) := by
  simp [sweepTry, cexSubrowpos, cexTrial, cexSubsEq, dmLT]

theorem cexTrySome :
    sweepTry [cexRow] 1000000000000 cexFF 0 (some 0) = some 0 := by
  norm_num [sweepTry, cexSubrowpos, cexTrial, cexSubsEq, dmLT]

theorem cexAliveNone : sweepAlive [cexRow] cexFF 0 none = true := by
  simp [sweepAlive]

theorem cexAliveSome :
    sweepAlive [cexRow] cexFF 0 (some 0) = false := by
  norm_num [sweepAlive, sqDist, cexFF, cexRow]

theorem cexSweep :
    sweepLoop [cexRow] 1000000000000 cexFF 0 1 0 none = some 0 := by
  rw [show (1 : ℕ) = 0 + 1 from rfl, sweepLoop]
  norm_num [cexAliveNone, cexAliveSome, cexTryNone, cexTrySome, sweepLoop]

theorem cexCommit : (commitAt [cexRow] 0 0 cexFF).1 = [cexRowFinal] := by
  rw [commitAt]
  norm_num [placeRowFinal, tempXof, AddCell, cexRoundW, cexRow, cexSr, cexFF,
    cexRowFinal, cexSrFinal, cexCluster]

theorem cexStep :
    (abacusStep 1000000000000 [cexRow] cexFF).1 = [cexRowFinal] := by
  rw [abacusStep, cexBestRow]
  dsimp only
  rw [List.length_singleton, cexSweep]
  exact cexCommit

theorem cexRun :
    (abacusRun 1000000000000 [cexRow] [cexFF]).1 = [cexRowFinal] := by
  rw [abacusRun]
  simp only [sortByKey, List.foldr_cons, List.foldr_nil, insertByKey,
    List.foldl_cons, List.foldl_nil]
  exact cexStep

theorem cexLayout :
    layoutRow cexRowFinal = [{ name := "ff", x := 0, w := 800, y := 0 }] := by
  norm_num [layoutRow, layoutChain, layoutCells, alignDown, cexRowFinal,
    cexSrFinal, cexCluster, cexFF, cexRoundW]

/-- C1 counterexample: the C++ `Usewidth` admission test compares the raw
cell width (500 ≤ 600 here) but the committed and laid-out footprint uses
the site-rounded width (800), so a single flip-flop accepted by the
legalizer sticks out of its sub-row `[0, 600)`: after the run the layout
contract fails for the row. -/
theorem legalizer_layout_cex :
    cexFF.width ≤ cexSr.usew ∧
      ¬ (∀ row ∈ (abacusRun 1000000000000 [cexRow] [cexFF]).1,
        rowLayoutOk row) := by
  refine ⟨by norm_num [cexFF, cexSr], fun hall => ?_⟩
  have hok := hall cexRowFinal (by rw [cexRun]; simp)
  obtain ⟨-, hcont⟩ := hok
  obtain ⟨sr, hsr, hin⟩ := hcont { name := "ff", x := 0, w := 800, y := 0 }
    (by rw [cexLayout]; simp)
  simp only [cexRowFinal, List.mem_singleton] at hsr
  subst hsr
  obtain ⟨-, h2⟩ := hin
  norm_num [cexSrFinal] at h2

/-! ## Site alignment of the final layout -/

theorem layoutCells_y {w oy : ℚ} :
    ∀ (cells : List LInst) (x : ℚ), ∀ e ∈ layoutCells w oy x cells, e.y = oy := by
  intro cells
  induction cells with
  | nil => intro x e he; simp [layoutCells] at he
  | cons i is ih =>
    intro x e he
    rw [layoutCells] at he
    rcases List.mem_cons.mp he with rfl | he
    · rfl
    · exact ih _ e he

theorem layoutCells_on_grid {w oy : ℚ} (base : ℚ) :
    ∀ (cells : List LInst) (x : ℚ), (∃ k : ℤ, x - base = k * w) →
      ∀ e ∈ layoutCells w oy x cells, ∃ k : ℤ, e.x - base = k * w := by
  intro cells
  induction cells with
  | nil => intro x _ e he; simp [layoutCells] at he
  | cons i is ih =>
    intro x hx e he
    rw [layoutCells] at he
    rcases List.mem_cons.mp he with rfl | he
    · exact hx
    · refine ih _ ?_ e he
      obtain ⟨k, hk⟩ := hx
      obtain ⟨j, hj⟩ := roundW_int w i.width
      refine ⟨k + j, ?_⟩
      rw [hj]
      push_cast
      linarith

theorem layoutChain_on_grid {w oy : ℚ} (base xmin : ℚ)
    (hx : ∃ a : ℤ, xmin - base = a * w) :
    ∀ (chain : List ClusterM), ∀ e ∈ layoutChain xmin w oy chain,
      ∃ k : ℤ, e.x - base = k * w := by
  intro chain e he
  rw [layoutChain, List.mem_flatMap] at he
  obtain ⟨c, -, he⟩ := he
  refine layoutCells_on_grid base c.cells (alignDown xmin w c.x) ?_ e he
  obtain ⟨a, ha⟩ := hx
  refine ⟨a + ⌊(c.x - xmin) / w⌋, ?_⟩
  rw [alignDown]
  push_cast
  linarith

/-- C2 (confirmed): every footprint the final `place()` pass lays out in a
row of the legalized state sits on that row's site grid — `x_new` differs
from the row origin by an integer number of site widths — and its `y_new`
is the row's origin y.  The rows start with sub-rows whose left edges lie
on the site grid (as `buildSubRows` carves them), and the instances have
positive widths and weights. -/
theorem legalizer_site_alignment (m : ℚ) (rows0 : List PRow) (ffs : List LInst)
    (hffs : ∀ i ∈ ffs, 0 < i.width ∧ 0 < i.weight)
    (hgrid : ∀ row ∈ rows0, ∀ sr ∈ row.subrows,
      ∃ a : ℤ, sr.xmin - row.originX = a * row.siteW) :
    ∀ row ∈ (abacusRun m rows0 ffs).1, ∀ e ∈ layoutRow row,
      (∃ k : ℤ, e.x - row.originX = k * row.siteW) ∧ e.y = row.originY := by
  intro row2 hrow2 e he
  have hreach := abacusRun_rowsReach m rows0 ffs hffs
  obtain ⟨i, hlt, hget⟩ := List.getElem_of_mem hrow2
  obtain ⟨h1, hrel⟩ := forall₂_getElem hreach i hlt
  rw [hget] at hrel
  have hrow0mem : rows0[i] ∈ rows0 := List.getElem_mem h1
  obtain ⟨e1, e2, e3, hsub⟩ := hrel
  rw [layoutRow, List.mem_flatMap] at he
  obtain ⟨sr2, hsr2, he⟩ := he
  obtain ⟨sr0, hsr0, ⟨commits, -, hfold⟩⟩ := forall₂_mem_right hsub sr2 hsr2
  have hxmin : sr2.xmin = sr0.xmin := by
    rw [hfold]; exact (foldCommit_fields _ commits sr0).1
  have hy : e.y = row2.originY := by
    have he2 := he
    rw [layoutChain, List.mem_flatMap] at he2
    obtain ⟨c, -, hec⟩ := he2
    exact layoutCells_y c.cells _ e hec
  refine ⟨?_, hy⟩
  refine layoutChain_on_grid row2.originX sr2.xmin ?_ sr2.clusters e he
  obtain ⟨a, ha⟩ := hgrid _ hrow0mem sr0 hsr0
  exact ⟨a, by rw [hxmin, e1, e3]; exact ha⟩

/-! ## Concrete evaluation of the Abacus pass on `wFF` and `bigFF` -/

theorem wRoundW : roundW 400 350 = 400 := by
  rw [roundW_eval]; norm_num

theorem wSubsEq : wRow.subrows = [wSr] := rfl

theorem wBestRow : findBestRow [wRow] wFF = some 0 := rfl

theorem wSubrowpos : findSubrowpos wFF wRow = some 0 := by
  norm_num [findSubrowpos, findSubrowposAux, wFF, wRow, wSr, dmLT]

theorem wTrial : placeRowTrial wRow wSr wFF 1000000 = some 12500 := by
  norm_num [placeRowTrial, tempXof, sqDist, alignDown, wRow, wSr, wFF]

theorem wTryNone :
    sweepTry [wRow] 1000000 wFF 0 none = some (12500, 0) := by
  simp [sweepTry, wSubrowpos, wTrial, wSubsEq, dmLT]

theorem wTrySome :
    sweepTry [wRow] 1000000 wFF 0 (some (12500, 0)) = some (12500, 0) := by
  norm_num [sweepTry, wSubrowpos, wTrial, wSubsEq, dmLT]

theorem wAliveNone : sweepAlive [wRow] wFF 0 none = true := by
  simp [sweepAlive]

theorem wAliveSome :
    sweepAlive [wRow] wFF 0 (some (12500, 0)) = true := by
  norm_num [sweepAlive, sqDist, wFF, wRow]

theorem wSweep :
    sweepLoop [wRow] 1000000 wFF 0 1 0 none = some (12500, 0) := by
  rw [show (1 : ℕ) = 0 + 1 from rfl, sweepLoop]
  norm_num [wAliveNone, wAliveSome, wTryNone, wTrySome, sweepLoop]

theorem wCommit : (commitAt [wRow] 0 0 wFF).1 = [wRowFinal] := by
  rw [commitAt]
  norm_num [placeRowFinal, tempXof, AddCell, alignDown, wRoundW, wRow, wSr,
    wFF, wRowFinal, wSrFinal, wCluster]

theorem wStep : (abacusStep 1000000 [wRow] wFF).1 = [wRowFinal] := by
  rw [abacusStep, wBestRow]
  dsimp only
  rw [List.length_singleton, wSweep]
  exact wCommit

theorem wRun : (abacusRun 1000000 [wRow] [wFF]).1 = [wRowFinal] := by
  rw [abacusRun]
  simp only [sortByKey, List.foldr_cons, List.foldr_nil, insertByKey,
    List.foldl_cons, List.foldl_nil]
  exact wStep

theorem wLayout :
    layoutRow wRowFinal = [{ name := "w", x := 0, w := 400, y := 0 }] := by
  norm_num [layoutRow, layoutChain, layoutCells, alignDown, wRowFinal,
    wSrFinal, wCluster, wFF, wRoundW]

/-- Witness for the amended layout contract on the concrete run that
places `wFF` into `wRow`: the final sub-row's committed width (400) fits
its span (800), and the resulting layout satisfies the contract. -/
theorem legalizer_layout_of_capacity_witness : rowLayoutOk wRowFinal := by
  refine legalizer_layout_of_capacity 1000000 [wRow] [wFF] ?_ ?_ ?_ ?_ ?_ ?_
    wRowFinal ?_
  · intro row hr; simp only [List.mem_singleton] at hr; subst hr
    norm_num [wRow]
  · intro row hr sr hsr; simp only [List.mem_singleton] at hr; subst hr
    simp only [wRow, List.mem_singleton] at hsr; subst hsr
    exact ⟨2, by norm_num [wRow, wSr]⟩
  · intro row hr sr hsr; simp only [List.mem_singleton] at hr; subst hr
    simp only [wRow, List.mem_singleton] at hsr; subst hsr
    rfl
  · intro row hr; simp only [List.mem_singleton] at hr; subst hr
    simp [wRow]
  · intro i hi; simp only [List.mem_singleton] at hi; subst hi
    norm_num [wFF]
  · intro row hr sr hsr
    rw [wRun] at hr
    simp only [List.mem_singleton] at hr; subst hr
    simp only [wRowFinal, List.mem_singleton] at hsr; subst hsr
    norm_num [totalW, wSrFinal, wCluster]
  · rw [wRun]; simp

/-- Witness for the site-alignment contract on the concrete run that places
`wFF` into `wRow`: its laid-out footprint starts on the site grid and its
`y_new` is the row origin. -/
theorem legalizer_site_alignment_witness :
    (∃ k : ℤ, ({ name := "w", x := 0, w := 400, y := 0 } : PlacedCell).x -
        wRowFinal.originX = k * wRowFinal.siteW) ∧
      ({ name := "w", x := 0, w := 400, y := 0 } : PlacedCell).y =
        wRowFinal.originY := by
  refine legalizer_site_alignment 1000000 [wRow] [wFF] ?_ ?_ wRowFinal ?_ _ ?_
  · intro i hi; simp only [List.mem_singleton] at hi; subst hi
    norm_num [wFF]
  · intro row hr sr hsr
    simp only [List.mem_singleton] at hr; subst hr
    simp only [wRow, List.mem_singleton] at hsr; subst hsr
    exact ⟨0, by norm_num [wRow, wSr]⟩
  · rw [wRun]; simp
  · rw [wLayout]; simp

/-! ## The fallback branch of the Abacus loop -/

theorem bigBest : findBestRow [wRow] bigFF = some 0 := rfl

theorem bigSubrowpos : findSubrowpos bigFF wRow = none := by
  norm_num [findSubrowpos, findSubrowposAux, bigFF, wRow, wSr]

theorem bigTry : sweepTry [wRow] 100 bigFF 0 none = none := by
  simp [sweepTry, bigSubrowpos, wSubsEq]

theorem bigSweep : sweepLoop [wRow] 100 bigFF 0 1 0 none = none := by
  rw [show (1 : ℕ) = 0 + 1 from rfl, sweepLoop]
  norm_num [sweepAlive, bigTry, sweepLoop]

/-- C9 (confirmed): when no (row, sub-row) pair accepts an instance — the
bidirectional sweep returns no candidate because every trial reported the
`DBL_MAX` sentinel or no sub-row fit — the Abacus step leaves the rows
untouched, writes the instance's original position into `x_new`/`y_new`,
and leaves the placement status unchanged (not `PLACED`); the outer fold
then continues with the remaining instances.  This is the warning branch
of `Legalizer::Abacus`. -/
theorem legalizer_fallback (m : ℚ) (rows : List PRow) (inst : LInst) (o : ℕ)
    (hbest : findBestRow rows inst = some o)
    (hsweep : sweepLoop rows m inst o rows.length 0 none = none) :
    (abacusStep m rows inst).1 = rows ∧
      (abacusStep m rows inst).2.xNew = inst.posX ∧
      (abacusStep m rows inst).2.yNew = inst.posY ∧
      (abacusStep m rows inst).2.status = inst.status := by
  rw [abacusStep, hbest]
  dsimp only
  rw [hsweep]
  exact ⟨rfl, rfl, rfl, rfl⟩

/-- Witness for the fallback branch: the 900-wide `bigFF` fits no sub-row
of `wRow`, so the step keeps the rows, restores the original position and
leaves the status untouched. -/
theorem legalizer_fallback_witness :
    (abacusStep 100 [wRow] bigFF).1 = [wRow] ∧
      (abacusStep 100 [wRow] bigFF).2.xNew = bigFF.posX ∧
      (abacusStep 100 [wRow] bigFF).2.yNew = bigFF.posY ∧
      (abacusStep 100 [wRow] bigFF).2.status = bigFF.status :=
  legalizer_fallback 100 [wRow] bigFF 0 bigBest bigSweep

/-! ## Cache scoring versus substituter scoring -/

/-- C6 (confirmed): the per-group optimal-cell cache
(`calculate_optimal_ff_for_instance_groups`) and the three-stage
substituter (`calculate_ff_score`) score a library flip-flop with the same
power/area expression `(β·P·10⁻³ + γ·A)/b` — the cache's
`bit_width > 0 ? bit_width : 1` equals the substituter's
`max(1, bit_width)` when the group's bit width is the cell's — but the
cache's timing term is `α·T·1000` against the substituter's `α·T`, so the
two scores differ by exactly `α·T·999`. -/
theorem cache_vs_substituter_timing (db : Db) (n : String) (c : Cell)
    (hc : findCell db n = some c) (hff : c.isFF = true) :
    cacheCellScore db c.bitWidth n =
      (calculate_ff_score db n).map
        (fun s => s + db.alpha * timingRepr db.timing n * 999) := by
  rw [calculate_ff_score, cacheCellScore, hc]
  dsimp only
  simp only [hff, if_true, Option.map_some', Option.some.injEq]
  have hbit : ((if 0 < c.bitWidth then c.bitWidth else 1) : ℤ) =
      max 1 c.bitWidth := by
    split_ifs with h
    · exact (max_eq_right (by omega)).symm
    · exact (max_eq_left (by omega)).symm
  rw [hbit]
  ring

/-- Witness for the score relation on the concrete cell `CELLX`
(leakage 2000, area 10, 2-bit, timing surrogate 7, unit weights). -/
theorem cache_vs_substituter_timing_witness :
    cacheCellScore scoreDb scoreCell.bitWidth "CELLX" =
      (calculate_ff_score scoreDb "CELLX").map
        (fun s => s + scoreDb.alpha * timingRepr scoreDb.timing "CELLX" * 999) :=
  cache_vs_substituter_timing scoreDb "CELLX" scoreCell rfl rfl

/-! ## Stage snapshots -/

/-- C5 (amended): of the six stage slots `CompletePipeline` is constructed
with, `main`'s pipeline captures exactly one snapshot for each of ORIGINAL,
DEBANK, SUBSTITUTION, BANK and POST_BANKING, in that order and each right
after its stage finishes — but no LEGALIZE snapshot is ever captured:
`record_legalization_transformations` would capture it, yet `main` never
calls that function. -/
theorem stage_captures_five_once :
    mainStageCaptures =
        ["ORIGINAL", "DEBANK", "SUBSTITUTION", "BANK", "POST_BANKING"] ∧
      mainStageCaptures.count "ORIGINAL" = 1 ∧
      mainStageCaptures.count "DEBANK" = 1 ∧
      mainStageCaptures.count "SUBSTITUTION" = 1 ∧
      mainStageCaptures.count "BANK" = 1 ∧
      mainStageCaptures.count "POST_BANKING" = 1 ∧
      mainStageCaptures.count "LEGALIZE" = 0 ∧
      recordLegalizationCaptures = ["LEGALIZE"] := by
  decide

/-- C5 counterexample: LEGALIZE is one of the six constructed stage slots,
yet the captures `main` performs contain no LEGALIZE snapshot (the
legalizer runs without recording). -/
theorem stage_captures_cex :
    "LEGALIZE" ∈ pipelineStageNames ∧
      mainStageCaptures.count "LEGALIZE" = 0 := by
  decide

/-! ## Spatial clustering -/

theorem manhattan_self (a : Inst) : manhattan_distance a a = 0 := by
  simp [manhattan_distance]

theorem takeNear_spec (f : Inst) (thr : ℚ) :
    ∀ (l : List Inst) (need : ℕ),
      (takeNear f thr need l).1.length ≤ need ∧
        ∀ j ∈ (takeNear f thr need l).1, manhattan_distance f j ≤ thr := by
  intro l
  induction l with
  | nil =>
    intro need
    constructor
    · simp [takeNear]
    · intro j hj; simp [takeNear] at hj
  | cons j js ih =>
    intro need
    cases need with
    | zero =>
      constructor
      · simp [takeNear]
      · intro x hx; simp [takeNear] at hx
    | succ n =>
      rw [takeNear]
      split_ifs with h
      · obtain ⟨h1, h2⟩ := ih n
        constructor
        · simpa using Nat.succ_le_succ h1
        · intro x hx
          rcases List.mem_cons.mp hx with rfl | hx
          · exact h
          · exact h2 x hx
      · exact ih (n + 1)

theorem sdcAux_spec (target : ℕ) (thr : ℚ) (ht : 1 ≤ target) (hthr : 0 ≤ thr) :
    ∀ (fuel : ℕ) (l : List Inst), ∀ cl ∈ sdcAux target thr fuel l,
      cl.length = target ∧
        ∃ f, cl.head? = some f ∧ ∀ j ∈ cl, manhattan_distance f j ≤ thr := by
  intro fuel
  induction fuel with
  | zero => intro l cl hcl; simp [sdcAux] at hcl
  | succ n ih =>
    intro l cl hcl
    cases l with
    | nil => simp [sdcAux] at hcl
    | cons i is =>
      rw [sdcAux] at hcl
      by_cases h : target ≤ (i :: (takeNear i thr (target - 1) is).1).length
      · rw [if_pos h] at hcl
        rcases List.mem_cons.mp hcl with rfl | hcl
        · obtain ⟨h1, h2⟩ := takeNear_spec i thr is (target - 1)
          refine ⟨?_, i, rfl, ?_⟩
          · have : (i :: (takeNear i thr (target - 1) is).1).length ≤ target := by
              simp only [List.length_cons]
              omega
            omega
          · intro j hj
            rcases List.mem_cons.mp hj with rfl | hj
            · rw [manhattan_self]; exact hthr
            · exact h2 j hj
        · exact ih _ cl hcl
      · rw [if_neg h] at hcl
        exact ih _ cl hcl

theorem c8run :
    simple_distance_clustering [cA, cB, cC] 2 FSDN_2BIT_BANKING_distance =
      [[cA, cC]] := by
  norm_num [simple_distance_clustering, sdcAux, takeNear, manhattan_distance,
    cA, cB, cC, FSDN_2BIT_BANKING_distance]

theorem c8sweep :
    spec_sweep_clustering [cA, cB, cC] 2 FSDN_2BIT_BANKING_distance = [] := by
  norm_num [spec_sweep_clustering, specSweepAux, sortByKey, insertByKey,
    manhattan_distance, cA, cB, cC, FSDN_2BIT_BANKING_distance]

/-- C8 (amended): the clustering used by the banking passes
(`simple_distance_clustering`) is greedy from each cluster's first
instance, and every emitted cluster has exactly the target size with all
members within the threshold of the cluster's first instance — but it is
not the spec's left-to-right sweep: the candidate list is iterated in its
given order (not sorted by `position.x`), and an instance beyond the
threshold is skipped and left available rather than ending the cluster. -/
theorem clustering_members_near (insts : List Inst) (target : ℕ) (thr : ℚ)
    (ht : 1 ≤ target) (hthr : 0 ≤ thr) :
    ∀ cl ∈ simple_distance_clustering insts target thr,
      cl.length = target ∧
        ∃ f, cl.head? = some f ∧ ∀ j ∈ cl, manhattan_distance f j ≤ thr := by
  intro cl hcl
  exact sdcAux_spec target thr ht hthr insts.length insts cl hcl

/-- Witness for the amended clustering contract: the cluster emitted from
`[cA, cB, cC]` has exactly two members, both within the threshold of its
first member `cA`. -/
theorem clustering_members_near_witness :
    ([cA, cC] : List Inst).length = 2 ∧
      ∃ f, ([cA, cC] : List Inst).head? = some f ∧
        ∀ j ∈ [cA, cC], manhattan_distance f j ≤ FSDN_2BIT_BANKING_distance :=
  clustering_members_near [cA, cB, cC] 2 FSDN_2BIT_BANKING_distance
    (by norm_num) (by norm_num [FSDN_2BIT_BANKING_distance]) [cA, cC]
    (by rw [c8run]; simp)

/-- C8 counterexample: on `[cA, cB, cC]` with target 2 and threshold
10000, the source's clustering skips the far `cB` and pairs `cA` with
`cC`, while the spec's left-to-right sweep (stop the cluster at the first
too-far instance) emits nothing — even though `cB` is farther than the
threshold from `cA`, the scan did not stop there. -/
theorem clustering_sweep_cex :
    simple_distance_clustering [cA, cB, cC] 2 FSDN_2BIT_BANKING_distance =
        [[cA, cC]] ∧
      spec_sweep_clustering [cA, cB, cC] 2 FSDN_2BIT_BANKING_distance = [] ∧
      manhattan_distance cA cB > FSDN_2BIT_BANKING_distance :=
  ⟨c8run, c8sweep,
    by norm_num [manhattan_distance, cA, cB, FSDN_2BIT_BANKING_distance]⟩

/-! ## Strategic debanking -/

/-- C4 (amended): the debanking loop processes an instance exactly when its
template resolves to a flip-flop with a non-null and resolvable single-bit
degenerate — there is no bit-width test, so single-bit FFs with a
degenerate are processed too; a processed instance contributes `bit_width`
fragments all typed by the degenerate cell and is marked for removal, and
an unprocessed instance leaves the state untouched.  Consequently
multi-bit FFs whose degenerate is `"null"` or unresolvable survive
debanking. -/
theorem debank_processes_iff (st : Db × List Inst × List String) (i : Inst) :
    (debankCond st.1 i = false → debankStep st i = st) ∧
    (debankCond st.1 i = true →
      ∃ c parent, findCell st.1 i.cellName = some c ∧
        findCell st.1 c.degenerate = some parent ∧
        (debankStep st i).2.1 =
          st.2.1 ++ debankFragments i c.bitWidth.toNat parent ∧
        (debankStep st i).2.2 = st.2.2 ++ [i.name] ∧
        (∀ f ∈ debankFragments i c.bitWidth.toNat parent,
          f.cellName = parent.name) ∧
        (debankFragments i c.bitWidth.toNat parent).length =
          c.bitWidth.toNat) := by
  constructor
  · intro hF
    rw [debankStep]
    cases hc : findCell st.1 i.cellName with
    | none => rfl
    | some c =>
      rw [debankCond, hc] at hF
      dsimp only
      by_cases h1 : c.isFF = true ∧ c.degenerate ≠ "null"
      · rw [if_pos h1]
        cases hp : findCell st.1 c.degenerate with
        | none => rfl
        | some parent =>
          exfalso
          simp [h1.1, h1.2, hp] at hF
      · rw [if_neg h1]
  · intro hT
    rw [debankCond] at hT
    cases hc : findCell st.1 i.cellName with
    | none => rw [hc] at hT; simp at hT
    | some c =>
      rw [hc] at hT
      simp only [Bool.and_eq_true, bne_iff_ne, ne_eq,
        Option.isSome_iff_exists] at hT
      obtain ⟨⟨hff, hdeg⟩, parent, hp⟩ := hT
      have hstep : debankStep st i =
          (remove_keep_transformation_record
            (record_debank_transformation st.1 i
              (debankFragments i c.bitWidth.toNat parent) parent.name) i.name,
           st.2.1 ++ debankFragments i c.bitWidth.toNat parent,
           st.2.2 ++ [i.name]) := by
        rw [debankStep, hc]
        dsimp only
        rw [if_pos ⟨hff, hdeg⟩, hp]
      refine ⟨c, parent, rfl, hp, by rw [hstep], by rw [hstep], ?_, ?_⟩
      · intro f hf
        simp only [debankFragments, List.mem_map] at hf
        obtain ⟨b, -, rfl⟩ := hf
        rfl
      · simp [debankFragments]

/-- C4 counterexample: in `dDb` the single-bit FF instance `s1` (template
`SB1`, bit width 1, degenerate `SB0`) is debanked and removed, while the
2-bit FF instance `m1` (template `MB2`, degenerate `"null"`) survives
debanking as a multi-bit flip-flop — refuting both the `N>1` guard and the
all-single-bit invariant. -/
theorem debanking_cex :
    cellSB1.bitWidth = 1 ∧ debankCond dDb dS1 = true ∧
      findInst (perform_strategic_debanking dDb).instances "s1" = none ∧
      cellMB2.bitWidth = 2 ∧ cellMB2.isFF = true ∧
      findInst (perform_strategic_debanking dDb).instances "m1" = some dM1 ∧
      findCell (perform_strategic_debanking dDb) dM1.cellName = some cellMB2 := by
  decide

/-! ## Substitution score monotonicity -/

theorem c7fcX : findCell subDb "CX" = some cX := by
  simp [findCell, subDb, cX, cY]

theorem c7fcY : findCell subDb "CY" = some cY := by
  simp [findCell, subDb, cX, cY]

theorem c7cacheX : cacheCellScore subDb 1 "CX" = some 1000 := by
  rw [cacheCellScore, c7fcX]
  norm_num [cX, timingRepr, subDb]

theorem c7cacheY : cacheCellScore subDb 1 "CY" = some 2 := by
  rw [cacheCellScore, c7fcY]
  norm_num [cY, timingRepr, subDb]
  decide

theorem c7best : bestCellOfEntry subDb hG = some "CY" := by
  rw [bestCellOfEntry, show hG.cells = ["CX", "CY"] from rfl,
    show hG.bit = (1 : ℤ) from rfl]
  dsimp only [List.foldl_cons, List.foldl_nil]
  rw [c7cacheX]
  dsimp only
  rw [c7cacheY]
  dsimp only
  rw [if_pos (by norm_num : (2 : ℚ) < 1000)]
  rfl

theorem c7opt : calculate_optimal_ff_for_instance_groups subDb = subDb1 := by
  rw [calculate_optimal_ff_for_instance_groups,
    show subDb.hierGroups = [hG] from rfl]
  dsimp only [List.foldl_cons, List.foldl_nil]
  rw [c7best]
  dsimp only
  rw [show hierKeyOf hG = "FALLING|D|1bit" from by decide]
  rfl

theorem c7hist :
    (execute_three_stage_substitution subDb1).history = [c7rec] := by
  decide

theorem c7scoreX : calculate_ff_score subDb "CX" = some 1 := by
  rw [calculate_ff_score, c7fcX]
  norm_num [cX, timingRepr, subDb]

theorem c7scoreY : calculate_ff_score subDb "CY" = some 2 := by
  rw [calculate_ff_score, c7fcY]
  norm_num [cY, timingRepr, subDb]
  decide

/-- C7 (amended): SUBSTITUTE records do not obey the monotone-cost rule
(stage 1 substitutes to the cached optimum unconditionally, and the cache
ranks by a different timing weight), but every POST_SUBSTITUTE record
emitted by the post-banking pass strictly decreases the substituter score:
when the instance's remembered best score is consistent with the score of
its remembered best cell, the pass either appends nothing or appends one
POST_SUBSTITUTE record whose result cell scores strictly below its
original cell under `calculate_ff_score`. -/
theorem post_substitution_strict_decrease (db : Db) (n : String) (i : Inst)
    (hi : findInst db.instances n = some i)
    (hcons : i.bestScore = calculate_ff_score db i.bestFF) :
    (postBankInst db n).history = db.history ∨
      ∃ r0, (postBankInst db n).history = db.history ++ [r0] ∧
        r0.op = TOp.postSubstituteOp ∧ r0.origCell = i.cellName ∧
        r0.resCell = i.bestFF ∧
        dmLT (calculate_ff_score db r0.resCell)
          (calculate_ff_score db r0.origCell) = true := by
  rw [postBankInst, hi]
  dsimp only
  by_cases h1 : ¬ is_single_bit_ff db i = true
  · rw [if_pos h1]; exact Or.inl rfl
  · rw [if_neg h1]
    by_cases h2 : i.bestFF ≠ "" ∧
        dmLT i.bestScore (calculate_ff_score db i.cellName) = true
    · rw [if_pos h2]
      cases hfc : findCell db i.bestFF with
      | none => exact Or.inl rfl
      | some c =>
        dsimp only
        refine Or.inr ⟨_, rfl, rfl, rfl, rfl, ?_⟩
        rw [← hcons]
        exact h2.2
    · rw [if_neg h2]; exact Or.inl rfl

/-- Witness for the POST_SUBSTITUTE strict decrease on `pDb`: reverting
`p1` from `CY` (score 2) to its remembered best `CX` (score 1). -/
theorem post_substitution_strict_decrease_witness :
    (postBankInst pDb "p1").history = pDb.history ∨
      ∃ r0, (postBankInst pDb "p1").history = pDb.history ++ [r0] ∧
        r0.op = TOp.postSubstituteOp ∧ r0.origCell = pInst.cellName ∧
        r0.resCell = pInst.bestFF ∧
        dmLT (calculate_ff_score pDb r0.resCell)
          (calculate_ff_score pDb r0.origCell) = true :=
  post_substitution_strict_decrease pDb "p1" pInst
    (by simp [findInst, pDb, pInst])
    (by
      rw [show pInst.bestFF = "CX" from rfl, calculate_ff_score,
        show findCell pDb "CX" = some cX from by simp [findCell, pDb, cX, cY]]
      norm_num [cX, timingRepr, pDb, pInst])

/-- C7 counterexample: starting from `subDb`, the real pipeline (cache
build, then the three-stage substituter with its final recording) emits a
SUBSTITUTE record rewriting `i1` from `CX` to `CY`, although `CX` scores 1
and `CY` scores 2 under `calculate_ff_score` — stage 1 substitutes to the
cached optimum unconditionally, and the cache's `×1000` timing weighting
prefers `CY`. -/
theorem substitution_monotone_cex :
    ∃ r ∈ (execute_three_stage_substitution
        (calculate_optimal_ff_for_instance_groups subDb)).history,
      r.op = TOp.substituteOp ∧
        dmLT (calculate_ff_score subDb r.origCell)
          (calculate_ff_score subDb r.resCell) = true := by
  refine ⟨c7rec, ?_, rfl, ?_⟩
  · rw [c7opt, c7hist]; simp
  · rw [show c7rec.origCell = "CX" from rfl, show c7rec.resCell = "CY" from rfl,
      c7scoreX, c7scoreY]
    norm_num [dmLT]

/-! ## Banking arity -/

theorem c3run : ((banking_pipeline bDb).db).history = [bRec] := by
  decide

/-- C3 (amended): `record_bank_transformation` emits, per banking
operation with a non-empty source list, exactly one BANK record whose
source count is 1 (the primary) plus the length of `related_instances`,
i.e. the number of operation sources; and LSRDPQ operations carry exactly
4 sources.  The arity-equals-bit-width rule does **not** hold for pass A
(debank-cluster rebanking), which records the whole debank cluster as
sources whatever the result cell's bit width. -/
theorem bank_record_arity :
    (∀ (db : Db) (sources : List Inst) (resName cellT : String)
        (pm : List (String × String)) (s0 : Inst) (rest : List Inst),
      sources = s0 :: rest →
        ∃ r0, (record_bank_transformation db sources resName cellT pm).history =
            db.history ++ [r0] ∧ r0.op = TOp.bankOp ∧
            1 + r0.related.length = sources.length ∧
            r0.resCell = cellT ∧ r0.origName = s0.name ∧
            r0.related = rest.map (fun i => i.name)) ∧
    (∀ (key : String) (st : BankSt) (cl : List Inst),
      (lsrdpqCluster key st cl).ops = st.ops ∨
        ∃ op, (lsrdpqCluster key st cl).ops = st.ops ++ [op] ∧
          op.sources.length = 4 ∧ op.opType = "LSRDPQ_4BIT_BANKING") := by
  constructor
  · intro db sources resName cellT pm s0 rest h
    subst h
    rw [record_bank_transformation]
    dsimp only
    refine ⟨_, rfl, rfl, ?_, rfl, rfl, rfl⟩
    simp [Nat.add_comm]
  · intro key st cl
    rw [lsrdpqCluster]
    by_cases h : cl.length ≠ 4
    · rw [if_pos h]; exact Or.inl rfl
    · rw [if_neg h]
      cases hopt : findOptimal st.db "RISING|D_Q_QN_CK|4bit" with
      | none => exact Or.inl rfl
      | some opt =>
        dsimp only
        cases cl with
        | nil => exact Or.inl rfl
        | cons f tl =>
          dsimp only
          refine Or.inr ⟨_, rfl, ?_, rfl⟩
          dsimp only
          omega

/-- C3 counterexample: the banking pipeline on `bDb` (pass A rebanks the
3-element debank cluster `cl0` into the 2-bit `FSDN2C`) emits a BANK
record whose source count is 3 while the result cell's bit width is 2. -/
theorem banking_arity_cex :
    ∃ r ∈ ((banking_pipeline bDb).db).history,
      r.op = TOp.bankOp ∧ findCell bDb r.resCell = some bFsdn2 ∧
        bFsdn2.bitWidth = 2 ∧ 1 + r.related.length = 3 := by
  refine ⟨bRec, ?_, rfl, by decide, rfl, rfl⟩
  rw [c3run]
  simp

/-! ## Consumption of banking sources -/

theorem findInst_eraseInst_self (t : List Inst) (n : String) :
    findInst (eraseInst t n) n = none := by
  rw [findInst, List.find?_eq_none]
  intro x hx
  rw [eraseInst, List.mem_filter] at hx
  simpa using hx.2

theorem findInst_none_eraseInst (t : List Inst) (n m : String)
    (h : findInst t n = none) : findInst (eraseInst t m) n = none := by
  rw [findInst, List.find?_eq_none] at h ⊢
  intro x hx
  exact h x (List.mem_filter.mp hx).1

theorem findInst_none_eraseSources :
    ∀ (cl : List Inst) (t : List Inst) (n : String),
      findInst t n = none → findInst (eraseSources t cl) n = none := by
  intro cl
  induction cl with
  | nil => intro t n h; exact h
  | cons c cs ih =>
    intro t n h
    exact ih (eraseInst t c.name) n (findInst_none_eraseInst t n c.name h)

theorem findInst_eraseSources_mem :
    ∀ (cl : List Inst) (t : List Inst) (i : Inst), i ∈ cl →
      findInst (eraseSources t cl) i.name = none := by
  intro cl
  induction cl with
  | nil => intro t i hi; simp at hi
  | cons c cs ih =>
    intro t i hi
    rcases List.mem_cons.mp hi with rfl | hi
    · exact findInst_none_eraseSources cs (eraseInst t i.name) i.name
        (findInst_eraseInst_self t i.name)
    · exact ih (eraseInst t c.name) i hi

theorem findInst_eraseInst_ne (t : List Inst) (n m : String) (h : m ≠ n) :
    findInst (eraseInst t n) m = findInst t m := by
  induction t with
  | nil => rfl
  | cons a t ih =>
    by_cases ha : a.name = n
    · have h1 : eraseInst (a :: t) n = eraseInst t n := by
        rw [eraseInst, eraseInst, List.filter_cons]
        simp [ha]
      have hf : (a.name == m) = false := by
        rw [ha]
        exact beq_eq_false_iff_ne.mpr (Ne.symm h)
      have h2 : findInst (a :: t) m = findInst t m := by
        rw [findInst, findInst, List.find?_cons, hf]
      rw [h1, h2]
      exact ih
    · have h1 : eraseInst (a :: t) n = a :: eraseInst t n := by
        rw [eraseInst, eraseInst, List.filter_cons]
        simp [ha]
      rw [findInst, findInst] at ih
      rw [h1, findInst, findInst, List.find?_cons, List.find?_cons]
      cases hb : (a.name == m) with
      | true => rfl
      | false => exact ih

theorem findInst_eraseSources_ne :
    ∀ (cl : List Inst) (t : List Inst) (m : String),
      (∀ i ∈ cl, i.name ≠ m) →
      findInst (eraseSources t cl) m = findInst t m := by
  intro cl
  induction cl with
  | nil => intro t m _; rfl
  | cons c cs ih =>
    intro t m h
    rw [show eraseSources t (c :: cs) = eraseSources (eraseInst t c.name) cs from rfl]
    rw [ih (eraseInst t c.name) m (fun i hi => h i (by simp [hi]))]
    exact findInst_eraseInst_ne t c.name m (fun hc => h c (by simp) hc.symm)

theorem findInst_upsertInst_self (t : List Inst) (v : Inst) :
    findInst (upsertInst t v) v.name = some v := by
  rw [upsertInst]
  by_cases h : t.any (fun i => i.name == v.name) = true
  · rw [if_pos h, findInst, replInst]
    induction t with
    | nil => simp at h
    | cons a t ih =>
      rw [List.map_cons, List.find?_cons]
      by_cases ha : a.name = v.name
      · simp [ha]
      · have h2 : (if (a.name == v.name) = true then v else a) = a := by simp [ha]
        rw [h2]
        have h3 : (a.name == v.name) = false := by simp [ha]
        rw [h3]
        simp only [List.any_cons, h3, Bool.false_or] at h
        exact ih h
  · rw [if_neg h, findInst]
    induction t with
    | nil => simp
    | cons a t ih =>
      rw [List.cons_append, List.find?_cons]
      simp only [List.any_cons, Bool.or_eq_true, not_or] at h
      have h3 : (a.name == v.name) = false := by
        cases hb : (a.name == v.name) <;> simp_all
      rw [h3]
      exact ih (by simpa using h.2)

theorem passA_member_key (db : Db) (p : String × List Inst)
    (hp : p ∈ passAClusters db) : ∀ i ∈ p.2, (i.clusterId == p.1) = true := by
  intro i hi
  simp only [passAClusters, List.mem_map] at hp
  obtain ⟨k, -, rfl⟩ := hp
  exact (List.mem_filter.mp hi).2

theorem finalizeStep_guard (s : BankSt) (m : String × List Inst) :
    (finalizeStep s m).ops = s.ops ∨
      ((finalizeStep s m).ops = s.ops ++
          [{ sources := m.2, resultName := m.1, targetCell := "",
             pinMapping := [], opType := "FSDN_2BIT_BANKING" }] ∧
        ∀ op ∈ s.ops,
          (op.opType = "FSDN_4BIT_BANKING" ∨ op.opType = "LSRDPQ_4BIT_BANKING") →
          ∀ src ∈ m.2, ∀ os ∈ op.sources, os.name ≠ src.name) := by
  simp only [finalizeStep]
  by_cases h : (s.ops.any fun op =>
      (op.opType == "FSDN_4BIT_BANKING" || op.opType == "LSRDPQ_4BIT_BANKING") &&
        m.2.any (fun src => op.sources.any (fun os => os.name == src.name))) = true
  · rw [if_pos h]; exact Or.inl rfl
  · rw [if_neg h]
    refine Or.inr ⟨rfl, ?_⟩
    intro op hop hty src hsrc os hos heq
    apply h
    rw [List.any_eq_true]
    refine ⟨op, hop, ?_⟩
    rw [Bool.and_eq_true, Bool.or_eq_true]
    refine ⟨?_, ?_⟩
    · rcases hty with h4 | h4 <;> simp [h4]
    · rw [List.any_eq_true]
      exact ⟨src, hsrc, by rw [List.any_eq_true]; exact ⟨os, hos, by simp [heq]⟩⟩


/-! ## Decimal names, generated-name freshness and the banking consumption
invariant (C10) -/

theorem digitChar_val : ∀ m, m < 10 → (Nat.digitChar m).toNat - 48 = m := by decide

theorem digitChar_isDigit : ∀ m, m < 10 → (Nat.digitChar m).isDigit = true := by decide

theorem toDigitsCore_parse :
    ∀ (fuel n : ℕ) (ds : List Char), n < fuel →
      (Nat.toDigitsCore 10 fuel n ds).foldl rdStep 0 = ds.foldl rdStep n := by
  intro fuel
  induction fuel with
  | zero => intro n ds h; omega
  | succ fuel ih =>
    intro n ds h
    rw [Nat.toDigitsCore]
    by_cases h0 : n / 10 = 0
    · have hn : n < 10 := by omega
      simp only [h0, if_pos]
      have hm : n % 10 = n := Nat.mod_eq_of_lt hn
      simp only [List.foldl_cons, rdStep, Nat.mul_zero, Nat.zero_add, hm,
        digitChar_val n hn]
    · have h1 : n / 10 < fuel := by
        have := Nat.div_lt_self (by omega : 0 < n) (by omega : 1 < 10)
        omega
      simp only [h0, if_neg, ite_false]
      rw [ih (n / 10) (Nat.digitChar (n % 10) :: ds) h1]
      simp only [List.foldl_cons, rdStep]
      have hlt : n % 10 < 10 := Nat.mod_lt _ (by omega)
      rw [digitChar_val (n % 10) hlt]
      have : 10 * (n / 10) + n % 10 = n := Nat.div_add_mod n 10
      rw [this]

theorem repr_parse (n : ℕ) : (Nat.repr n).data.foldl rdStep 0 = n := by
  show ((Nat.toDigits 10 n).asString).data.foldl rdStep 0 = n
  have h1 : ((Nat.toDigits 10 n).asString).data = Nat.toDigits 10 n := rfl
  rw [h1, Nat.toDigits, toDigitsCore_parse (n + 1) n [] (Nat.lt_succ_self n)]
  rfl

theorem natRepr_inj {m n : ℕ} (h : (Nat.repr m).data = (Nat.repr n).data) : m = n := by
  have := congrArg (fun l => l.foldl rdStep 0) h
  simpa [repr_parse] using this

theorem toDigitsCore_digits :
    ∀ (fuel n : ℕ) (ds : List Char), (∀ c ∈ ds, c.isDigit = true) →
      ∀ c ∈ Nat.toDigitsCore 10 fuel n ds, c.isDigit = true := by
  intro fuel
  induction fuel with
  | zero => intro n ds hds; exact hds
  | succ fuel ih =>
    intro n ds hds c hc
    rw [Nat.toDigitsCore] at hc
    have hd : ∀ x ∈ Nat.digitChar (n % 10) :: ds, x.isDigit = true := by
      intro x hx
      rcases List.mem_cons.mp hx with rfl | hx
      · exact digitChar_isDigit _ (Nat.mod_lt _ (by omega))
      · exact hds x hx
    by_cases h0 : n / 10 = 0
    · simp only [h0, if_pos] at hc
      exact hd c hc
    · simp only [h0, if_neg, ite_false] at hc
      exact ih (n / 10) _ hd c hc

theorem repr_digits (n : ℕ) : ∀ c ∈ (Nat.repr n).data, c.isDigit = true := by
  intro c hc
  have h1 : (Nat.repr n).data = Nat.toDigitsCore 10 (n + 1) n [] := rfl
  rw [h1] at hc
  exact toDigitsCore_digits (n + 1) n [] (by intro x hx; simp at hx) c hc

theorem toDigitsCore_len :
    ∀ (fuel n : ℕ) (ds : List Char), ds.length ≤ (Nat.toDigitsCore 10 fuel n ds).length := by
  intro fuel
  induction fuel with
  | zero => intro n ds; exact le_refl _
  | succ fuel ih =>
    intro n ds
    rw [Nat.toDigitsCore]
    by_cases h0 : n / 10 = 0
    · simp [h0]
    · simp only [h0, if_neg, ite_false]
      calc ds.length ≤ (Nat.digitChar (n % 10) :: ds).length := by simp
        _ ≤ _ := ih (n / 10) _

theorem repr_ne_nil (n : ℕ) : (Nat.repr n).data ≠ [] := by
  have h1 : (Nat.repr n).data = Nat.toDigitsCore 10 (n + 1) n [] := rfl
  rw [h1, Nat.toDigitsCore]
  by_cases h0 : n / 10 = 0
  · simp [h0]
  · simp only [h0, if_neg, ite_false]
    intro hcon
    have := toDigitsCore_len n (n / 10) [Nat.digitChar (n % 10)]
    rw [hcon] at this
    simp at this

theorem takeWhile_append_all {p : Char → Bool} :
    ∀ (a b : List Char), (∀ c ∈ a, p c = true) →
      (a ++ b).takeWhile p = a ++ b.takeWhile p := by
  intro a
  induction a with
  | nil => intro b _; simp
  | cons x xs ih =>
    intro b h
    have hx : p x = true := h x (by simp)
    simp only [List.cons_append, List.takeWhile_cons, hx, ite_true, List.cons_inj_right]
    exact ih b (fun c hc => h c (by simp [hc]))

theorem dropWhile_append_all {p : Char → Bool} :
    ∀ (a b : List Char), (∀ c ∈ a, p c = true) →
      (a ++ b).dropWhile p = b.dropWhile p := by
  intro a
  induction a with
  | nil => intro b _; simp
  | cons x xs ih =>
    intro b h
    have hx : p x = true := h x (by simp)
    simp only [List.cons_append, List.dropWhile_cons, hx, ite_true]
    exact ih b (fun c hc => h c (by simp [hc]))

theorem dsuf_spec (a : List Char) (x : Char) (hx : x.isDigit = false) (b : List Char)
    (hb : ∀ c ∈ b, c.isDigit = true) : dsuf ((a ++ [x]) ++ b) = b := by
  rw [dsuf, List.reverse_append, List.reverse_append]
  have hrb : ∀ c ∈ b.reverse, c.isDigit = true := by
    intro c hc; exact hb c (List.mem_reverse.mp hc)
  rw [takeWhile_append_all b.reverse _ hrb]
  simp only [List.reverse_cons, List.reverse_nil, List.nil_append, List.singleton_append,
    List.takeWhile_cons, hx]
  simp

theorem strData_append (s t : String) : (s ++ t).data = s.data ++ t.data := rfl

theorem slashData : ("/" : String).data = ['/'] := rfl

theorem genName_data (pre stem : String) (k : ℕ) :
    (genName pre stem k).data =
      (if pre = "" then [] else pre.data ++ ['/']) ++ stem.data ++ (Nat.repr k).data := by
  by_cases h : pre = "" <;>
    simp [genName, h, strData_append, slashData, List.append_assoc]

theorem genName_dsuf (pre stem : String) (s0 : List Char) (hstem : stem.data = s0 ++ ['_'])
    (k : ℕ) : dsuf (genName pre stem k).data = (Nat.repr k).data := by
  rw [genName_data, hstem]
  have h1 : (if pre = "" then [] else pre.data ++ ['/']) ++ (s0 ++ ['_']) ++ (Nat.repr k).data
      = (((if pre = "" then [] else pre.data ++ ['/']) ++ s0) ++ ['_']) ++ (Nat.repr k).data := by
    simp [List.append_assoc]
  rw [h1]
  exact dsuf_spec _ '_' (by decide) _ (repr_digits k)

theorem genName_inj_k {pre1 pre2 stem : String} {s0 : List Char}
    (hstem : stem.data = s0 ++ ['_']) {k1 k2 : ℕ}
    (h : genName pre1 stem k1 = genName pre2 stem k2) : k1 = k2 := by
  have hd := congrArg String.data h
  have h1 := genName_dsuf pre1 stem s0 hstem k1
  have h2 := genName_dsuf pre2 stem s0 hstem k2
  rw [hd] at h1
  exact natRepr_inj (h1.symm.trans h2)

theorem genName_cross {pre1 pre2 stem1 stem2 : String} {s1 s2 : List Char}
    (h1 : stem1.data = s1 ++ ['_']) (h2 : stem2.data = s2 ++ ['_'])
    (hl1 : 9 ≤ stem1.data.length) (hl2 : 9 ≤ stem2.data.length)
    (hne : stem1.data.reverse.take 9 ≠ stem2.data.reverse.take 9)
    {k1 k2 : ℕ} : genName pre1 stem1 k1 ≠ genName pre2 stem2 k2 := by
  intro h
  have hd := congrArg String.data h
  rw [genName_data, genName_data] at hd
  have e1 := genName_dsuf pre1 stem1 s1 h1 k1
  have e2 := genName_dsuf pre2 stem2 s2 h2 k2
  rw [genName_data] at e1
  rw [genName_data] at e2
  have hdig : (Nat.repr k1).data = (Nat.repr k2).data := by
    rw [← e1, ← e2, hd]
  have hbody := (List.append_inj' hd (by rw [hdig])).1
  have hb1 : ((if pre1 = "" then [] else pre1.data ++ ['/']) ++ stem1.data).reverse.take 9
      = stem1.data.reverse.take 9 := by
    rw [List.reverse_append]
    exact List.take_append_of_le_length (by simpa using hl1)
  have hb2 : ((if pre2 = "" then [] else pre2.data ++ ['/']) ++ stem2.data).reverse.take 9
      = stem2.data.reverse.take 9 := by
    rw [List.reverse_append]
    exact List.take_append_of_le_length (by simpa using hl2)
  exact hne (by rw [← hb1, ← hb2, hbody])

theorem rebanked_dsuf (q : String) : dsuf (q ++ "_REBANKED").data = [] := by
  have h1 : (q ++ "_REBANKED").data = ((q.data ++ "_REBANKE".data) ++ ['D']) ++ [] := by
    rw [strData_append]
    simp [List.append_assoc]
  rw [h1]
  exact dsuf_spec _ 'D' (by decide) [] (by intro c hc; simp at hc)

theorem rebanked_ne_genName (q pre stem : String) (s0 : List Char)
    (hstem : stem.data = s0 ++ ['_']) (k : ℕ) :
    q ++ "_REBANKED" ≠ genName pre stem k := by
  intro h
  have hd : dsuf (q ++ "_REBANKED").data = dsuf (genName pre stem k).data := by rw [h]
  rw [rebanked_dsuf, genName_dsuf pre stem s0 hstem k] at hd
  exact repr_ne_nil k hd.symm

theorem hasSub_false_infx {s t pat : String} (hs : hasSub s pat = false)
    (h : t.data <:+: s.data) : hasSub t pat = false := by
  cases ht : hasSub t pat with
  | false => rfl
  | true =>
    simp only [hasSub, decide_eq_true_eq] at ht
    have : hasSub s pat = true := by
      simp only [hasSub, decide_eq_true_eq]
      exact ht.trans h
    rw [this] at hs
    exact hs

theorem clean_no_stem {s : String} (hs : Clean s = true) :
    hasSub s "ff_fsdn2_" = false ∧ hasSub s "ff_fsdn4_" = false ∧
      hasSub s "ff_lsrdpq4_" = false ∧ hasSub s "_REBANKED" = false := by
  simp only [Clean, Bool.and_eq_true, Bool.not_eq_true'] at hs
  exact ⟨hs.1.1.1, hs.1.1.2, hs.1.2, hs.2⟩

theorem clean_infx {s t : String} (hs : Clean s = true) (h : t.data <:+: s.data) :
    Clean t = true := by
  obtain ⟨h1, h2, h3, h4⟩ := clean_no_stem hs
  simp only [Clean, Bool.and_eq_true, Bool.not_eq_true']
  exact ⟨⟨⟨hasSub_false_infx h1 h, hasSub_false_infx h2 h⟩, hasSub_false_infx h3 h⟩,
    hasSub_false_infx h4 h⟩

theorem genName_stem_infx (pre stem : String) (k : ℕ) :
    hasSub (genName pre stem k) stem = true := by
  simp only [hasSub, decide_eq_true_eq]
  rw [genName_data]
  exact ⟨if pre = "" then [] else pre.data ++ ['/'], (Nat.repr k).data, by
    simp [List.append_assoc]⟩

theorem clean_ne_genName {s pre stem : String} {k : ℕ} (hs : Clean s = true)
    (hstem : stem = "ff_fsdn2_" ∨ stem = "ff_fsdn4_" ∨ stem = "ff_lsrdpq4_") :
    s ≠ genName pre stem k := by
  intro h
  have hsub := genName_stem_infx pre stem k
  rw [← h] at hsub
  obtain ⟨h1, h2, h3, -⟩ := clean_no_stem hs
  rcases hstem with rfl | rfl | rfl
  · rw [h1] at hsub; exact Bool.false_ne_true hsub
  · rw [h2] at hsub; exact Bool.false_ne_true hsub
  · rw [h3] at hsub; exact Bool.false_ne_true hsub

theorem clean_ne_rebanked {s q : String} (hs : Clean s = true) : s ≠ q ++ "_REBANKED" := by
  intro h
  have hsub : hasSub (q ++ "_REBANKED") "_REBANKED" = true := by
    simp only [hasSub, decide_eq_true_eq]
    exact ⟨q.data, [], by rw [strData_append]; simp⟩
  rw [← h, (clean_no_stem hs).2.2.2] at hsub
  exact Bool.false_ne_true hsub

theorem headPref (n : String) : (extract_hierarchy_head n).data <+: n.data := by
  rw [extract_hierarchy_head]
  cases hdw : n.data.reverse.dropWhile (fun c => c != '/') with
  | nil => exact List.nil_prefix
  | cons c rest =>
    set T := n.data.reverse.takeWhile (fun c => c != '/') with hT
    have hsplit : T ++ c :: rest = n.data.reverse := by
      rw [hT, hdw.symm]
      exact List.takeWhile_append_dropWhile _ _
    have hn : n.data = (rest.reverse ++ [c]) ++ T.reverse := by
      have h2 := congrArg List.reverse hsplit
      rw [List.reverse_reverse] at h2
      rw [← h2, List.reverse_append, List.reverse_cons]
    rw [hn]
    show rest.reverse <+: (rest.reverse ++ [c]) ++ _
    rw [List.append_assoc]
    exact List.prefix_append _ _

theorem head_clean {n : String} (h : Clean n = true) :
    Clean (extract_hierarchy_head n) = true :=
  clean_infx h (headPref n).isInfix

theorem digit_ne_slash {c : Char} (h : c.isDigit = true) : (c != '/') = true := by
  cases he : c == '/' with
  | false => simp [bne, he]
  | true =>
    have hc : c = '/' := beq_iff_eq.mp he
    rw [hc] at h
    exact absurd h (by decide)

theorem head_genName (pre stem : String) (hslash : ∀ c ∈ stem.data, (c != '/') = true)
    (k : ℕ) : extract_hierarchy_head (genName pre stem k) = pre := by
  have hdig : ∀ c ∈ (Nat.repr k).data, (c != '/') = true :=
    fun c hc => digit_ne_slash (repr_digits k c hc)
  rw [extract_hierarchy_head]
  by_cases hp : pre = ""
  · have hdata : (genName pre stem k).data = stem.data ++ (Nat.repr k).data := by
      rw [genName_data, hp]
      simp
    rw [hdata]
    have hnil : (stem.data ++ (Nat.repr k).data).reverse.dropWhile (fun c => c != '/')
        = [] := by
      rw [List.dropWhile_eq_nil_iff]
      intro x hx
      rw [List.mem_reverse, List.mem_append] at hx
      rcases hx with hx | hx
      · exact hslash x hx
      · exact hdig x hx
    rw [hnil, hp]
  · have hdata : (genName pre stem k).data =
        pre.data ++ ['/'] ++ stem.data ++ (Nat.repr k).data := by
      rw [genName_data]
      simp [hp]
    rw [hdata]
    have hrev : (pre.data ++ ['/'] ++ stem.data ++ (Nat.repr k).data).reverse
        = ((Nat.repr k).data.reverse ++ stem.data.reverse) ++ ('/' :: pre.data.reverse) := by
      simp [List.reverse_append, List.append_assoc]
    rw [hrev, dropWhile_append_all _ _ (by
      intro x hx
      rw [List.mem_append] at hx
      rcases hx with hx | hx
      · exact hdig x (List.mem_reverse.mp hx)
      · exact hslash x (List.mem_reverse.mp hx))]
    rw [List.dropWhile_cons]
    simp only [show (('/' : Char) != '/') = false by decide, ite_false]
    show String.mk pre.data.reverse.reverse = pre
    rw [List.reverse_reverse]

theorem stemT2 : ("ff_fsdn2_" : String).data = "ff_fsdn2".data ++ ['_'] := rfl
theorem stemT4 : ("ff_fsdn4_" : String).data = "ff_fsdn4".data ++ ['_'] := rfl
theorem stemTL : ("ff_lsrdpq4_" : String).data = "ff_lsrdpq4".data ++ ['_'] := rfl

theorem stemT2_slash : ∀ c ∈ ("ff_fsdn2_" : String).data, (c != '/') = true := by decide
theorem stemT4_slash : ∀ c ∈ ("ff_fsdn4_" : String).data, (c != '/') = true := by decide
theorem stemTL_slash : ∀ c ∈ ("ff_lsrdpq4_" : String).data, (c != '/') = true := by decide

theorem crossT2T4 {p1 p2 : String} {k1 k2 : ℕ} :
    genName p1 "ff_fsdn2_" k1 ≠ genName p2 "ff_fsdn4_" k2 :=
  genName_cross stemT2 stemT4 (by decide) (by decide) (by decide)

theorem crossT2TL {p1 p2 : String} {k1 k2 : ℕ} :
    genName p1 "ff_fsdn2_" k1 ≠ genName p2 "ff_lsrdpq4_" k2 :=
  genName_cross stemT2 stemTL (by decide) (by decide) (by decide)

theorem crossT4TL {p1 p2 : String} {k1 k2 : ℕ} :
    genName p1 "ff_fsdn4_" k1 ≠ genName p2 "ff_lsrdpq4_" k2 :=
  genName_cross stemT4 stemTL (by decide) (by decide) (by decide)

theorem namesDisj_symm {a b : List String} (h : NamesDisj a b) : NamesDisj b a :=
  fun n hn hna => h n hna hn

theorem namesDisj_dead_live {t : List Inst} {a b : List String}
    (ha : ∀ n ∈ a, findInst t n = none)
    (hb : ∀ n ∈ b, ∃ i, findInst t n = some i) : NamesDisj a b := by
  intro n hna hnb
  obtain ⟨i, hi⟩ := hb n hnb
  rw [ha n hna] at hi
  exact Option.noConfusion hi

theorem findInst_name {l : List Inst} {n : String} {i : Inst}
    (h : findInst l n = some i) : i.name = n ∧ i ∈ l := by
  induction l with
  | nil => exact Option.noConfusion h
  | cons a t ih =>
    rw [findInst, List.find?_cons] at h
    cases ha : (a.name == n) with
    | true =>
      rw [ha] at h
      have hai : a = i := Option.some.inj h
      exact ⟨hai ▸ beq_iff_eq.mp ha, hai ▸ List.mem_cons_self a t⟩
    | false =>
      rw [ha] at h
      have h2 := ih h
      exact ⟨h2.1, List.mem_cons_of_mem _ h2.2⟩

theorem findInst_mem_nodup {l : List Inst} (hn : (instNames l).Nodup) {i : Inst}
    (hi : i ∈ l) : findInst l i.name = some i := by
  induction l with
  | nil => simp at hi
  | cons a t ih =>
    have hn2 : a.name ∉ instNames t ∧ (instNames t).Nodup := by
      have : instNames (a :: t) = a.name :: instNames t := rfl
      rw [this] at hn
      exact List.nodup_cons.mp hn
    rw [findInst, List.find?_cons]
    rcases List.mem_cons.mp hi with rfl | hi
    · simp
    · have hne : (a.name == i.name) = false := by
        have : a.name ≠ i.name := by
          intro he
          exact hn2.1 (he ▸ List.mem_map.mpr ⟨i, hi, rfl⟩)
        simpa using this
      rw [hne]
      exact ih hn2.2 hi

theorem findInst_repl_ne {t : List Inst} {v : Inst} {n : String} (h : n ≠ v.name) :
    findInst (replInst t v) n = findInst t n := by
  induction t with
  | nil => rfl
  | cons a t ih =>
    have hstep : replInst (a :: t) v =
        (if (a.name == v.name) = true then v else a) :: replInst t v := by
      simp [replInst]
    rw [hstep, findInst, findInst, List.find?_cons, List.find?_cons]
    by_cases ha : (a.name == v.name) = true
    · rw [if_pos ha]
      have hv : (v.name == n) = false := by simpa using (Ne.symm h)
      have ha2 : (a.name == n) = false := by rw [beq_iff_eq.mp ha]; exact hv
      rw [hv, ha2]
      exact ih
    · rw [if_neg ha]
      cases hb : (a.name == n) with
      | true => rfl
      | false => exact ih

theorem findInst_upsert_ne {t : List Inst} {v : Inst} {n : String} (h : n ≠ v.name) :
    findInst (upsertInst t v) n = findInst t n := by
  rw [upsertInst]
  by_cases hc : t.any (fun i => i.name == v.name) = true
  · rw [if_pos hc]
    exact findInst_repl_ne h
  · rw [if_neg hc, findInst, List.find?_append]
    have hv : List.find? (fun i => i.name == n) [v] = none := by
      simp [Ne.symm h]
    rw [hv, Option.or_none]
    rfl

theorem takeNear_perm (f : Inst) (thr : ℚ) :
    ∀ (need : ℕ) (l : List Inst),
      List.Perm ((takeNear f thr need l).1 ++ (takeNear f thr need l).2) l := by
  intro need l
  induction l generalizing need with
  | nil => cases need <;> simp [takeNear]
  | cons j js ih =>
    cases need with
    | zero => simp [takeNear]
    | succ m =>
      rw [takeNear]
      by_cases hd : manhattan_distance f j ≤ thr
      · simp only [hd, ite_true]
        exact (List.Perm.cons j (ih m))
      · simp only [hd, ite_false]
        exact (List.perm_middle).trans (List.Perm.cons j (ih (m + 1)))

theorem sdcAux_facts (target : ℕ) (thr : ℚ) :
    ∀ (fuel : ℕ) (l : List Inst), l.Nodup →
      (∀ C ∈ sdcAux target thr fuel l, C.Nodup ∧ ∀ x ∈ C, x ∈ l) ∧
      (sdcAux target thr fuel l).Pairwise (fun C D => ∀ x ∈ C, x ∉ D) := by
  intro fuel
  induction fuel with
  | zero => intro l _; simp [sdcAux]
  | succ fuel ih =>
    intro l hnd
    cases l with
    | nil => simp [sdcAux]
    | cons i is =>
      simp only [sdcAux]
      have hni : i ∉ is ∧ is.Nodup := List.nodup_cons.mp hnd
      have hperm := takeNear_perm i thr (target - 1) is
      set r := takeNear i thr (target - 1) is with hr
      have hrnd : (r.1 ++ r.2).Nodup := hperm.nodup_iff.mpr hni.2
      obtain ⟨h1, h2, hdisj⟩ := List.nodup_append.mp hrnd
      have hmem1 : ∀ x ∈ r.1, x ∈ is := fun x hx =>
        hperm.mem_iff.mp (List.mem_append_left _ hx)
      have hmem2 : ∀ x ∈ r.2, x ∈ is := fun x hx =>
        hperm.mem_iff.mp (List.mem_append_right _ hx)
      obtain ⟨ihA, ihB⟩ := ih r.2 h2
      by_cases hlen : target ≤ (i :: r.1).length
      · simp only [hlen, ite_true]
        constructor
        · intro C hC
          rcases List.mem_cons.mp hC with rfl | hC
          · refine ⟨List.nodup_cons.mpr ⟨fun hx => hni.1 (hmem1 i hx), h1⟩, ?_⟩
            intro x hx
            rcases List.mem_cons.mp hx with rfl | hx
            · exact List.mem_cons_self _ _
            · exact List.mem_cons_of_mem _ (hmem1 x hx)
          · obtain ⟨hCnd, hCmem⟩ := ihA C hC
            exact ⟨hCnd, fun x hx => List.mem_cons_of_mem _ (hmem2 x (hCmem x hx))⟩
        · refine List.pairwise_cons.mpr ⟨?_, ihB⟩
          intro D hD x hx hxD
          have hxr2 : x ∈ r.2 := (ihA D hD).2 x hxD
          rcases List.mem_cons.mp hx with rfl | hx
          · exact hni.1 (hmem2 x hxr2)
          · exact hdisj hx hxr2
      · simp only [hlen, ite_false]
        constructor
        · intro C hC
          obtain ⟨hCnd, hCmem⟩ := ihA C hC
          exact ⟨hCnd, fun x hx => List.mem_cons_of_mem _ (hmem2 x (hCmem x hx))⟩
        · exact ihB

theorem collect_fold_facts (tbl : List Inst) (P : Inst → Bool) :
    ∀ (ms : List String) (acc : List Inst),
      ∃ ex : List Inst,
        ms.foldl (fun acc n =>
          match findInst tbl n with
          | none => acc
          | some i => if P i then acc ++ [i] else acc) acc = acc ++ ex ∧
        List.Sublist (instNames ex) ms ∧
        ∀ x ∈ ex, findInst tbl x.name = some x ∧ P x = true := by
  intro ms
  induction ms with
  | nil =>
    intro acc
    exact ⟨[], by simp, List.nil_sublist _, by intro x hx; simp at hx⟩
  | cons n ms ih =>
    intro acc
    rw [List.foldl_cons]
    cases hf : findInst tbl n with
    | none =>
      obtain ⟨ex, he, hs, hp⟩ := ih acc
      refine ⟨ex, ?_, hs.cons n, hp⟩
      simp only [hf]
      exact he
    | some i =>
      have hin := findInst_name hf
      by_cases hPi : P i = true
      · obtain ⟨ex, he, hs, hp⟩ := ih (acc ++ [i])
        refine ⟨i :: ex, ?_, ?_, ?_⟩
        · simp only [hf, hPi, ite_true]
          rw [he, List.append_assoc]
          rfl
        · have : instNames (i :: ex) = i.name :: instNames ex := rfl
          rw [this, hin.1]
          exact hs.cons₂ n
        · intro x hx
          rcases List.mem_cons.mp hx with rfl | hx
          · exact ⟨hin.1 ▸ hf, hPi⟩
          · exact hp x hx
      · obtain ⟨ex, he, hs, hp⟩ := ih acc
        refine ⟨ex, ?_, hs.cons n, hp⟩
        have hPf : P i = false := by simpa using hPi
        simp only [hf, hPf, ite_false]
        exact he

theorem collect_fsdn_facts (db : Db) (key : String) :
    ∀ x ∈ collect_fsdn_instances_for_group db key,
      findInst db.instances x.name = some x ∧
      (isFFInst db x &&
        (hasSub x.cellName "FSDN" && !hasSub x.cellName "FSDN2" &&
          !hasSub x.cellName "FSDN4")) = true ∧
      ∃ g ∈ db.groups, x.name ∈ g.2 := by
  intro x hx
  rw [collect_fsdn_instances_for_group] at hx
  cases hg : db.groups.find? (fun g => g.1 == key) with
  | none => rw [hg] at hx; simp at hx
  | some g =>
    rw [hg] at hx
    replace hx : x ∈ g.2.foldl (fun acc n =>
        match findInst db.instances n with
        | none => acc
        | some i =>
          if isFFInst db i &&
              (hasSub i.cellName "FSDN" && !hasSub i.cellName "FSDN2" &&
                !hasSub i.cellName "FSDN4") then
            acc ++ [i]
          else acc) [] := hx
    obtain ⟨ex, he, hs, hp⟩ := collect_fold_facts db.instances
      (fun i => isFFInst db i &&
        (hasSub i.cellName "FSDN" && !hasSub i.cellName "FSDN2" &&
          !hasSub i.cellName "FSDN4")) g.2 []
    rw [he, List.nil_append] at hx
    refine ⟨(hp x hx).1, (hp x hx).2, g, List.mem_of_find?_eq_some hg, ?_⟩
    have : x.name ∈ instNames ex := List.mem_map.mpr ⟨x, hx, rfl⟩
    exact hs.subset this

theorem collect_fsdn_nodup (db : Db) (key : String)
    (h : ∀ g ∈ db.groups, g.2.Nodup) :
    (instNames (collect_fsdn_instances_for_group db key)).Nodup := by
  rw [collect_fsdn_instances_for_group]
  cases hg : db.groups.find? (fun g => g.1 == key) with
  | none => simp [instNames]
  | some g =>
    show (instNames (g.2.foldl (fun acc n =>
        match findInst db.instances n with
        | none => acc
        | some i =>
          if isFFInst db i &&
              (hasSub i.cellName "FSDN" && !hasSub i.cellName "FSDN2" &&
                !hasSub i.cellName "FSDN4") then
            acc ++ [i]
          else acc) [])).Nodup
    obtain ⟨ex, he, hs, hp⟩ := collect_fold_facts db.instances
      (fun i => isFFInst db i &&
        (hasSub i.cellName "FSDN" && !hasSub i.cellName "FSDN2" &&
          !hasSub i.cellName "FSDN4")) g.2 []
    rw [he, List.nil_append]
    exact hs.nodup (h g (List.mem_of_find?_eq_some hg))

theorem collect_lsr_facts (db : Db) (key : String) :
    ∀ x ∈ collect_lsrdpq_instances_for_group db key,
      findInst db.instances x.name = some x ∧
      (isFFInst db x &&
        ((hasSub x.cellName "LSRDPQ" && !hasSub x.cellName "LSRDPQ4") ||
          hasSub x.cellName "FDP")) = true ∧
      ∃ g ∈ db.groups, x.name ∈ g.2 := by
  intro x hx
  rw [collect_lsrdpq_instances_for_group] at hx
  cases hg : db.groups.find? (fun g => g.1 == key) with
  | none => rw [hg] at hx; simp at hx
  | some g =>
    rw [hg] at hx
    replace hx : x ∈ g.2.foldl (fun acc n =>
        match findInst db.instances n with
        | none => acc
        | some i =>
          if isFFInst db i &&
              ((hasSub i.cellName "LSRDPQ" && !hasSub i.cellName "LSRDPQ4") ||
                hasSub i.cellName "FDP") then
            acc ++ [i]
          else acc) [] := hx
    obtain ⟨ex, he, hs, hp⟩ := collect_fold_facts db.instances
      (fun i => isFFInst db i &&
        ((hasSub i.cellName "LSRDPQ" && !hasSub i.cellName "LSRDPQ4") ||
          hasSub i.cellName "FDP")) g.2 []
    rw [he, List.nil_append] at hx
    refine ⟨(hp x hx).1, (hp x hx).2, g, List.mem_of_find?_eq_some hg, ?_⟩
    have : x.name ∈ instNames ex := List.mem_map.mpr ⟨x, hx, rfl⟩
    exact hs.subset this

theorem collect_lsr_nodup (db : Db) (key : String)
    (h : ∀ g ∈ db.groups, g.2.Nodup) :
    (instNames (collect_lsrdpq_instances_for_group db key)).Nodup := by
  rw [collect_lsrdpq_instances_for_group]
  cases hg : db.groups.find? (fun g => g.1 == key) with
  | none => simp [instNames]
  | some g =>
    show (instNames (g.2.foldl (fun acc n =>
        match findInst db.instances n with
        | none => acc
        | some i =>
          if isFFInst db i &&
              ((hasSub i.cellName "LSRDPQ" && !hasSub i.cellName "LSRDPQ4") ||
                hasSub i.cellName "FDP") then
            acc ++ [i]
          else acc) [])).Nodup
    obtain ⟨ex, he, hs, hp⟩ := collect_fold_facts db.instances
      (fun i => isFFInst db i &&
        ((hasSub i.cellName "LSRDPQ" && !hasSub i.cellName "LSRDPQ4") ||
          hasSub i.cellName "FDP")) g.2 []
    rw [he, List.nil_append]
    exact hs.nodup (h g (List.mem_of_find?_eq_some hg))

theorem collect_2bit_facts (db : Db) (key : String) :
    ∀ x ∈ collect2bitFsdn db key,
      findInst db.instances x.name = some x ∧
      (isFFInst db x && hasSub x.cellName "FSDN2") = true ∧
      ∃ g ∈ db.groups, x.name ∈ g.2 := by
  intro x hx
  rw [collect2bitFsdn] at hx
  cases hg : db.groups.find? (fun g => g.1 == key) with
  | none => rw [hg] at hx; simp at hx
  | some g =>
    rw [hg] at hx
    replace hx : x ∈ g.2.foldl (fun acc n =>
        match findInst db.instances n with
        | none => acc
        | some i =>
          if isFFInst db i && hasSub i.cellName "FSDN2" then
            acc ++ [i]
          else acc) [] := hx
    obtain ⟨ex, he, hs, hp⟩ := collect_fold_facts db.instances
      (fun i => isFFInst db i && hasSub i.cellName "FSDN2") g.2 []
    rw [he, List.nil_append] at hx
    refine ⟨(hp x hx).1, (hp x hx).2, g, List.mem_of_find?_eq_some hg, ?_⟩
    have : x.name ∈ instNames ex := List.mem_map.mpr ⟨x, hx, rfl⟩
    exact hs.subset this

theorem collect_2bit_nodup (db : Db) (key : String)
    (h : ∀ g ∈ db.groups, g.2.Nodup) :
    (instNames (collect2bitFsdn db key)).Nodup := by
  rw [collect2bitFsdn]
  cases hg : db.groups.find? (fun g => g.1 == key) with
  | none => simp [instNames]
  | some g =>
    show (instNames (g.2.foldl (fun acc n =>
        match findInst db.instances n with
        | none => acc
        | some i =>
          if isFFInst db i && hasSub i.cellName "FSDN2" then
            acc ++ [i]
          else acc) [])).Nodup
    obtain ⟨ex, he, hs, hp⟩ := collect_fold_facts db.instances
      (fun i => isFFInst db i && hasSub i.cellName "FSDN2") g.2 []
    rw [he, List.nil_append]
    exact hs.nodup (h g (List.mem_of_find?_eq_some hg))

theorem eraseDups_loop_nodup :
    ∀ (as bs : List String), bs.Nodup → (List.eraseDups.loop as bs).Nodup := by
  intro as
  induction as with
  | nil =>
    intro bs h
    rw [List.eraseDups.loop]
    exact List.nodup_reverse.mpr h
  | cons a as ih =>
    intro bs h
    rw [List.eraseDups.loop]
    cases he : bs.elem a with
    | true => exact ih bs h
    | false =>
      refine ih (a :: bs) (List.nodup_cons.mpr ⟨?_, h⟩)
      intro hm
      rw [List.elem_eq_true_of_mem hm] at he
      exact Bool.noConfusion he

theorem eraseDups_nodup (l : List String) : l.eraseDups.Nodup := by
  rw [List.eraseDups]
  exact eraseDups_loop_nodup l [] List.nodup_nil

theorem insertString_perm (k : String) :
    ∀ l, List.Perm (insertString k l) (k :: l) := by
  intro l
  induction l with
  | nil => rfl
  | cons x xs ih =>
    rw [insertString]
    by_cases h : decide (k < x) = true
    · rw [if_pos h]
    · rw [if_neg h]
      exact (List.Perm.cons x ih).trans (List.Perm.swap k x xs)

theorem foldr_insertString_perm :
    ∀ L : List String, List.Perm (L.foldr insertString []) L := by
  intro L
  induction L with
  | nil => rfl
  | cons x xs ih =>
    rw [List.foldr_cons]
    exact (insertString_perm x _).trans (List.Perm.cons x ih)

theorem passAClusters_facts (db0 : Db) (hdb : (instNames db0.instances).Nodup) :
    (∀ p ∈ passAClusters db0, ∀ x ∈ p.2, x ∈ db0.instances ∧ x.clusterId = p.1) ∧
    (∀ p ∈ passAClusters db0, (instNames p.2).Nodup) ∧
    (passAClusters db0).Pairwise
      (fun p q => NamesDisj (instNames p.2) (instNames q.2)) := by
  have hmem : ∀ p ∈ passAClusters db0, ∀ x ∈ p.2,
      x ∈ db0.instances ∧ x.clusterId = p.1 := by
    intro p hp x hx
    simp only [passAClusters, List.mem_map] at hp
    obtain ⟨k, -, rfl⟩ := hp
    have h2 := List.mem_filter.mp hx
    have h3 := List.mem_filter.mp h2.1
    exact ⟨h3.1, beq_iff_eq.mp h2.2⟩
  refine ⟨hmem, ?_, ?_⟩
  · intro p hp
    simp only [passAClusters, List.mem_map] at hp
    obtain ⟨k, -, rfl⟩ := hp
    have hdb2 : (db0.instances.map (fun i => i.name)).Nodup := hdb
    have hsub : List.Sublist (List.filter (fun i => i.clusterId == k)
        (List.filter (fun i => isFFInst db0 i && i.clusterId != "" &&
          i.bankingType != BankTy.noTy) db0.instances)) db0.instances :=
      (List.filter_sublist _).trans (List.filter_sublist _)
    exact (hsub.map (fun i => i.name)).nodup hdb2
  · have hkeys : (((List.filter (fun i => isFFInst db0 i && i.clusterId != "" &&
        i.bankingType != BankTy.noTy) db0.instances).map
          (fun i => i.clusterId)).eraseDups.foldr insertString []).Nodup := by
      have hperm := foldr_insertString_perm
        ((List.filter (fun i => isFFInst db0 i && i.clusterId != "" &&
          i.bankingType != BankTy.noTy) db0.instances).map
            (fun i => i.clusterId)).eraseDups
      exact hperm.nodup_iff.mpr (eraseDups_nodup _)
    rw [passAClusters]
    rw [List.pairwise_map]
    have hpw : (((List.filter (fun i => isFFInst db0 i && i.clusterId != "" &&
        i.bankingType != BankTy.noTy) db0.instances).map
          (fun i => i.clusterId)).eraseDups.foldr insertString []).Pairwise (· ≠ ·) :=
      hkeys
    refine hpw.imp ?_
    intro k1 k2 hne n hn1 hn2
    obtain ⟨x, hx, hxn⟩ := List.mem_map.mp hn1
    obtain ⟨y, hy, hyn⟩ := List.mem_map.mp hn2
    have hxm := List.mem_filter.mp hx
    have hym := List.mem_filter.mp hy
    have hxy : x = y := by
      refine List.inj_on_of_nodup_map hdb ?_ ?_ ?_
      · exact (List.mem_filter.mp hxm.1).1
      · exact (List.mem_filter.mp hym.1).1
      · rw [hxn, hyn]
    apply hne
    have h1 : x.clusterId = k1 := beq_iff_eq.mp hxm.2
    have h2 : y.clusterId = k2 := beq_iff_eq.mp hym.2
    rw [← h1, ← h2, hxy]

theorem shape_not_fsdn1 {c : String} (h : ShapeOK c = true) :
    (hasSub c "FSDN" && !hasSub c "FSDN2" && !hasSub c "FSDN4") = false := by
  simp only [ShapeOK, Bool.or_eq_true, Bool.and_eq_true, Bool.not_eq_true'] at h
  rcases h with (⟨⟨⟨h1, h2⟩, h3⟩, h4⟩ | ⟨⟨⟨h1, h2⟩, h3⟩, h4⟩) | ⟨⟨h1, h2⟩, h3⟩
  · simp [h1]
  · simp [h1]
  · simp [h2]

theorem shape_not_lsr {c : String} (h : ShapeOK c = true) :
    ((hasSub c "LSRDPQ" && !hasSub c "LSRDPQ4") || hasSub c "FDP") = false := by
  simp only [ShapeOK, Bool.or_eq_true, Bool.and_eq_true, Bool.not_eq_true'] at h
  rcases h with (⟨⟨⟨h1, h2⟩, h3⟩, h4⟩ | ⟨⟨⟨h1, h2⟩, h3⟩, h4⟩) | ⟨⟨h1, h2⟩, h3⟩
  · simp [h3, h4]
  · simp [h3, h4]
  · simp [h1, h3]

theorem genBound_mono {c2 c4 cL c2' c4' cL' : ℕ} {n : String} (h : GenBound c2 c4 cL n)
    (h2 : c2 ≤ c2') (h4 : c4 ≤ c4') (hL : cL ≤ cL') : GenBound c2' c4' cL' n := by
  obtain ⟨p, k, hp, hf⟩ := h
  exact ⟨p, k, hp, by
    rcases hf with ⟨he, hk⟩ | ⟨he, hk⟩ | ⟨he, hk⟩
    · exact Or.inl ⟨he, by omega⟩
    · exact Or.inr (Or.inl ⟨he, by omega⟩)
    · exact Or.inr (Or.inr ⟨he, by omega⟩)⟩

theorem fresh2 {n p : String} {c2 c4 cL : ℕ}
    (hcl : Clean n = true ∨ GenBound c2 c4 cL n) :
    n ≠ genName p "ff_fsdn2_" c2 := by
  intro he
  rcases hcl with hc | ⟨q, k, hq, hf⟩
  · exact clean_ne_genName hc (Or.inl rfl) he
  · rcases hf with ⟨hfe, hk⟩ | ⟨hfe, hk⟩ | ⟨hfe, hk⟩
    · rw [hfe] at he
      exact absurd (genName_inj_k stemT2 he) (by omega)
    · rw [hfe] at he
      exact crossT2T4 he.symm
    · rw [hfe] at he
      exact crossT2TL he.symm

theorem fresh4 {n p : String} {c2 c4 cL : ℕ}
    (hcl : Clean n = true ∨ GenBound c2 c4 cL n) :
    n ≠ genName p "ff_fsdn4_" c4 := by
  intro he
  rcases hcl with hc | ⟨q, k, hq, hf⟩
  · exact clean_ne_genName hc (Or.inr (Or.inl rfl)) he
  · rcases hf with ⟨hfe, hk⟩ | ⟨hfe, hk⟩ | ⟨hfe, hk⟩
    · rw [hfe] at he
      exact crossT2T4 he
    · rw [hfe] at he
      exact absurd (genName_inj_k stemT4 he) (by omega)
    · rw [hfe] at he
      exact crossT4TL he.symm

theorem freshL {n p : String} {c2 c4 cL : ℕ}
    (hcl : Clean n = true ∨ GenBound c2 c4 cL n) :
    n ≠ genName p "ff_lsrdpq4_" cL := by
  intro he
  rcases hcl with hc | ⟨q, k, hq, hf⟩
  · exact clean_ne_genName hc (Or.inr (Or.inr rfl)) he
  · rcases hf with ⟨hfe, hk⟩ | ⟨hfe, hk⟩ | ⟨hfe, hk⟩
    · rw [hfe] at he
      exact crossT2TL he
    · rw [hfe] at he
      exact crossT4TL he
    · rw [hfe] at he
      exact absurd (genName_inj_k stemTL he) (by omega)

theorem classified_ne_rebanked {n q : String} {c2 c4 cL : ℕ}
    (hcl : Clean n = true ∨ GenBound c2 c4 cL n) : n ≠ q ++ "_REBANKED" := by
  rcases hcl with hc | ⟨r, k, hr, hf⟩
  · exact clean_ne_rebanked hc
  · intro he
    rcases hf with ⟨hfe, -⟩ | ⟨hfe, -⟩ | ⟨hfe, -⟩ <;> rw [hfe] at he
    · exact rebanked_ne_genName q r "ff_fsdn2_" _ stemT2 k he.symm
    · exact rebanked_ne_genName q r "ff_fsdn4_" _ stemT4 k he.symm
    · exact rebanked_ne_genName q r "ff_lsrdpq4_" _ stemTL k he.symm

theorem pairwise_namesDisj_of_values {insts : List Inst}
    (hn : (instNames insts).Nodup) :
    ∀ (CS : List (List Inst)), (∀ C ∈ CS, ∀ x ∈ C, x ∈ insts) →
      CS.Pairwise (fun C D => ∀ x ∈ C, x ∉ D) →
      CS.Pairwise (fun C D => NamesDisj (instNames C) (instNames D)) := by
  intro CS
  induction CS with
  | nil => intro _ _; exact List.Pairwise.nil
  | cons C rest ih =>
    intro hmem hpw
    obtain ⟨hCD, hrest⟩ := List.pairwise_cons.mp hpw
    refine List.pairwise_cons.mpr
      ⟨?_, ih (fun D hD => hmem D (List.mem_cons_of_mem _ hD)) hrest⟩
    intro D hD n hnC hnD
    obtain ⟨x, hx, hxn⟩ := List.mem_map.mp hnC
    obtain ⟨y, hy, hyn⟩ := List.mem_map.mp hnD
    have hxy : x = y := by
      refine List.inj_on_of_nodup_map hn ?_ ?_ ?_
      · exact hmem C (List.mem_cons_self _ _) x hx
      · exact hmem D (List.mem_cons_of_mem _ hD) y hy
      · rw [hxn, hyn]
    exact hCD D hD x hx (hxy ▸ hy)

theorem sdc_facts (insts : List Inst) (target : ℕ) (thr : ℚ)
    (hn : (instNames insts).Nodup) :
    (∀ C ∈ simple_distance_clustering insts target thr,
        (instNames C).Nodup ∧ ∀ x ∈ C, x ∈ insts) ∧
    (simple_distance_clustering insts target thr).Pairwise
      (fun C D => NamesDisj (instNames C) (instNames D)) := by
  have hvn : insts.Nodup := List.Nodup.of_map _ hn
  obtain ⟨hA, hB⟩ := sdcAux_facts target thr insts.length insts hvn
  constructor
  · intro C hC
    obtain ⟨hCnd, hCm⟩ := hA C hC
    refine ⟨?_, hCm⟩
    exact List.Nodup.map_on
      (fun x hx y hy hxy => List.inj_on_of_nodup_map hn (hCm x hx) (hCm y hy) hxy)
      hCnd
  · exact pairwise_namesDisj_of_values hn _ (fun C hC => (hA C hC).2) hB

theorem mem_of_upsert {t : List Inst} {v x : Inst} (h : x ∈ upsertInst t v) :
    x ∈ t ∨ x = v := by
  rw [upsertInst] at h
  by_cases hc : (t.any fun i => i.name == v.name) = true
  · rw [if_pos hc] at h
    rw [replInst] at h
    obtain ⟨y, hy, hxy⟩ := List.mem_map.mp h
    by_cases hyv : (y.name == v.name) = true
    · rw [if_pos hyv] at hxy
      exact Or.inr hxy.symm
    · rw [if_neg hyv] at hxy
      exact Or.inl (hxy ▸ hy)
  · rw [if_neg hc] at h
    rcases List.mem_append.mp h with h | h
    · exact Or.inl h
    · exact Or.inr (List.mem_singleton.mp h)

theorem mem_of_eraseSources {cl : List Inst} :
    ∀ {t : List Inst} {x : Inst}, x ∈ eraseSources t cl → x ∈ t := by
  induction cl with
  | nil => intro t x h; exact h
  | cons c cs ih =>
    intro t x h
    have h2 : x ∈ eraseInst t c.name := ih h
    exact (List.mem_filter.mp h2).1

theorem dead_preserved {t : List Inst} {v : Inst} {cl : List Inst} {n : String}
    (hd : findInst t n = none) (hne : n ≠ v.name) :
    findInst (eraseSources (upsertInst t v) cl) n = none :=
  findInst_none_eraseSources cl _ n (by rw [findInst_upsert_ne hne]; exact hd)

theorem cluster_dead {t : List Inst} {v : Inst} {cl : List Inst} :
    ∀ n ∈ instNames cl, findInst (eraseSources (upsertInst t v) cl) n = none := by
  intro n hn
  obtain ⟨x, hx, hxn⟩ := List.mem_map.mp hn
  exact hxn ▸ findInst_eraseSources_mem cl _ x hx

theorem table_unchanged {t : List Inst} {v : Inst} {cl : List Inst} {n : String}
    (h1 : ∀ x ∈ cl, x.name ≠ n) (h2 : n ≠ v.name) :
    findInst (eraseSources (upsertInst t v) cl) n = findInst t n := by
  rw [findInst_eraseSources_ne cl _ n h1, findInst_upsert_ne h2]

theorem findOptimal_mem {db : Db} {key c : String} (h : findOptimal db key = some c) :
    ∃ pr ∈ db.optimalFF, pr.2 = c := by
  rw [findOptimal] at h
  cases hf : db.optimalFF.find? (fun p => p.1 == key) with
  | none => rw [hf] at h; exact Option.noConfusion h
  | some pr =>
    rw [hf] at h
    exact ⟨pr, List.mem_of_find?_eq_some hf, Option.some.inj h⟩

theorem passA_act (db0 : Db) (st : BankSt) (inv : BankInv db0 st) (hnt : NoTwoBit st)
    (hdb0 : ∀ i ∈ db0.instances, Clean i.name = true)
    (M : List Inst) (newI : Inst) (op : BankOp) (q : String)
    (hlive : ∀ x ∈ M, findInst st.db.instances x.name = some x)
    (hinit : ∀ x ∈ M, x ∈ db0.instances)
    (hops : op.sources = M)
    (hty : op.opType = "DEBANK_CLUSTER_REBANK")
    (hSopt : ShapeOK newI.cellName = true)
    (hname : newI.name = q ++ "_REBANKED") :
    BankInv db0 { st with
      db := { st.db with instances := eraseSources (upsertInst st.db.instances newI) M },
      ops := st.ops ++ [op] } ∧
    NoTwoBit { st with
      db := { st.db with instances := eraseSources (upsertInst st.db.instances newI) M },
      ops := st.ops ++ [op] } := by
  have hclM : ∀ x ∈ M, Clean x.name = true := fun x hx => hdb0 x (hinit x hx)
  have hMlive : ∀ n ∈ instNames M, ∃ i, findInst st.db.instances n = some i := by
    intro n hn
    obtain ⟨x, hx, rfl⟩ := List.mem_map.mp hn
    exact ⟨x, hlive x hx⟩
  have hdeadpres : ∀ n : String, Clean n = true →
      findInst st.db.instances n = none →
      findInst (eraseSources (upsertInst st.db.instances newI) M) n = none := by
    intro n hcn hdn
    exact dead_preserved hdn (hname ▸ clean_ne_rebanked hcn)
  have hsrcClean : ∀ o ∈ st.ops, ∀ n ∈ opSrcNames o, Clean n = true := by
    intro o ho n hn
    obtain ⟨x, hx, rfl⟩ := List.mem_map.mp hn
    exact hdb0 x (inv.opsInit o ho x hx)
  have hentClean : ∀ e ∈ st.origMap, ∀ n ∈ entryNames e, Clean n = true := by
    intro e he n hn
    obtain ⟨x, hx, rfl⟩ := List.mem_map.mp hn
    exact hdb0 x (inv.mapInit e he x hx)
  refine ⟨?_, ?_⟩
  · refine
      { constOpt := inv.constOpt
        constHist := inv.constHist
        opsDisj := ?_
        opsDead := ?_
        opsInit := ?_
        opsTy := ?_
        mapDisj := inv.mapDisj
        mapDead := ?_
        mapInit := inv.mapInit
        mapKeys := inv.mapKeys
        opsMapDisj := ?_
        fourBit := ?_
        live := ?_
        groupsOK := inv.groupsOK }
    · show (st.ops ++ [op]).Pairwise (fun o1 o2 => NamesDisj (opSrcNames o1) (opSrcNames o2))
      rw [List.pairwise_append]
      refine ⟨inv.opsDisj, List.pairwise_singleton _ _, ?_⟩
      intro o1 ho1 o2 ho2
      rw [List.mem_singleton] at ho2
      subst ho2
      simp only [opSrcNames, hops]
      exact namesDisj_dead_live (inv.opsDead o1 ho1) hMlive
    · intro o ho n hn
      rcases List.mem_append.mp ho with ho | ho
      · exact hdeadpres n (hsrcClean o ho n hn) (inv.opsDead o ho n hn)
      · rw [List.mem_singleton] at ho
        subst ho
        rw [opSrcNames, hops] at hn
        exact cluster_dead n hn
    · intro o ho i hi
      rcases List.mem_append.mp ho with ho | ho
      · exact inv.opsInit o ho i hi
      · rw [List.mem_singleton] at ho
        subst ho
        rw [hops] at hi
        exact hinit i hi
    · intro o ho
      rcases List.mem_append.mp ho with ho | ho
      · exact inv.opsTy o ho
      · rw [List.mem_singleton] at ho
        subst ho
        exact Or.inl hty
    · intro e he n hn
      exact hdeadpres n (hentClean e he n hn) (inv.mapDead e he n hn)
    · intro o ho hoty e he
      rcases List.mem_append.mp ho with ho | ho
      · exact inv.opsMapDisj o ho hoty e he
      · rw [List.mem_singleton] at ho
        subst ho
        simp only [opSrcNames, hops]
        exact namesDisj_symm (namesDisj_dead_live (inv.mapDead e he) hMlive)
    · intro o ho hoty n hn e he hne
      rcases List.mem_append.mp ho with ho | ho
      · obtain ⟨p, k2, hp, hk2, he1⟩ := inv.mapKeys e he
        rw [he1]
        refine dead_preserved ?_ ?_
        · rw [← he1]
          exact inv.fourBit o ho hoty n hn e he hne
        · rw [hname]
          exact Ne.symm (rebanked_ne_genName q p "ff_fsdn2_" _ stemT2 k2)
      · rw [List.mem_singleton] at ho
        subst ho
        rw [hty] at hoty
        exact absurd hoty (by decide)
    · intro i hi
      have h2 := mem_of_upsert (mem_of_eraseSources hi)
      rcases h2 with h2 | h2
      · exact inv.live i h2
      · subst h2
        exact Or.inr hSopt
  · intro o ho
    rcases List.mem_append.mp ho with ho | ho
    · exact hnt o ho
    · rw [List.mem_singleton] at ho
      subst ho
      rw [hty]
      decide

theorem passA_step (db0 : Db) (st : BankSt) (inv : BankInv db0 st) (hnt : NoTwoBit st)
    (hdb0 : ∀ i ∈ db0.instances, Clean i.name = true)
    (hshape : ∀ pr ∈ db0.optimalFF, ShapeOK pr.2 = true)
    (cl : String × List Inst)
    (hlive : ∀ x ∈ cl.2, findInst st.db.instances x.name = some x)
    (hinit : ∀ x ∈ cl.2, x ∈ db0.instances) :
    BankInv db0 (passACluster st cl) ∧ NoTwoBit (passACluster st cl) ∧
    (passACluster st cl).ctr2 = st.ctr2 ∧
    (passACluster st cl).ctr4 = st.ctr4 ∧
    (passACluster st cl).ctrL = st.ctrL ∧
    (passACluster st cl).origMap = st.origMap ∧
    (passACluster st cl).db.groups = st.db.groups ∧
    ∀ n, (∀ x ∈ cl.2, x.name ≠ n) →
      (Clean n = true ∨ GenBound st.ctr2 st.ctr4 st.ctrL n) →
      findInst (passACluster st cl).db.instances n = findInst st.db.instances n := by
  obtain ⟨k, members⟩ := cl
  simp only [passACluster]
  cases members with
  | nil =>
    refine ⟨inv, hnt, ?_, ?_, ?_, ?_, ?_, ?_⟩ <;>
      first
      | trivial
      | (intro n h1 h2; trivial)
  | cons f rest =>
    by_cases hlen : (f :: rest).length < 2
    · simp only [if_pos hlen]
      refine ⟨inv, hnt, ?_, ?_, ?_, ?_, ?_, ?_⟩ <;>
        first
        | trivial
        | (intro n h1 h2; trivial)
    · simp only [if_neg hlen]
      set tk := (if f.bankingType = BankTy.fsdn then
          if 4 ≤ (f :: rest).length then "FALLING|D_Q_QN_CK_SI_SE|4bit"
          else "FALLING|D_Q_QN_CK_SI_SE|2bit"
        else if f.bankingType = BankTy.risingLsrdpq then
          if 4 ≤ (f :: rest).length then "RISING|D_Q_QN_CK|4bit" else ""
        else "") with htk
      by_cases h0 : tk = ""
      · simp only [if_pos h0]
        refine ⟨inv, hnt, ?_, ?_, ?_, ?_, ?_, ?_⟩ <;>
        first
        | trivial
        | (intro n h1 h2; trivial)
      · simp only [if_neg h0]
        cases hopt : findOptimal st.db tk with
        | none =>
          refine ⟨inv, hnt, ?_, ?_, ?_, ?_, ?_, ?_⟩ <;>
            first
            | trivial
            | (intro n h1 h2; trivial)
        | some opt =>
          have hSopt : ShapeOK opt = true := by
            obtain ⟨pr, hpr, he⟩ := findOptimal_mem hopt
            exact he ▸ hshape pr (inv.constOpt ▸ hpr)
          refine ⟨?_, ?_, rfl, rfl, rfl, rfl, rfl, ?_⟩
          · exact (passA_act db0 st inv hnt hdb0 (f :: rest) _ _ k hlive hinit rfl rfl
              hSopt rfl).1
          · exact (passA_act db0 st inv hnt hdb0 (f :: rest) _ _ k hlive hinit rfl rfl
              hSopt rfl).2
          · intro n h1 h2
            exact table_unchanged h1 (classified_ne_rebanked h2)

theorem passA_fold (db0 : Db) (hdb0 : ∀ i ∈ db0.instances, Clean i.name = true)
    (hshape : ∀ pr ∈ db0.optimalFF, ShapeOK pr.2 = true) :
    ∀ (CS : List (String × List Inst)) (st : BankSt),
      BankInv db0 st → NoTwoBit st →
      (∀ p ∈ CS, ∀ x ∈ p.2,
        findInst st.db.instances x.name = some x ∧ x ∈ db0.instances) →
      CS.Pairwise (fun p qq => NamesDisj (instNames p.2) (instNames qq.2)) →
      BankInv db0 (CS.foldl passACluster st) ∧ NoTwoBit (CS.foldl passACluster st) := by
  intro CS
  induction CS with
  | nil => intro st inv hnt _ _; exact ⟨inv, hnt⟩
  | cons c cs ih =>
    intro st inv hnt hpend hpw
    rw [List.foldl_cons]
    obtain ⟨hCD, hpw2⟩ := List.pairwise_cons.mp hpw
    obtain ⟨inv1, hnt1, h2, h4, hL, hOM, hG, hook⟩ :=
      passA_step db0 st inv hnt hdb0 hshape c
        (fun x hx => (hpend c (List.mem_cons_self _ _) x hx).1)
        (fun x hx => (hpend c (List.mem_cons_self _ _) x hx).2)
    have hpend2 : ∀ p ∈ cs, ∀ x ∈ p.2,
        findInst (passACluster st c).db.instances x.name = some x ∧
          x ∈ db0.instances := by
      intro p hp x hx
      have h1 := hpend p (List.mem_cons_of_mem _ hp) x hx
      refine ⟨?_, h1.2⟩
      rw [hook x.name ?_ (Or.inl (hdb0 x h1.2))]
      · exact h1.1
      · intro y hy hyx
        exact hCD p hp x.name (hyx ▸ List.mem_map.mpr ⟨y, hy, rfl⟩)
          (List.mem_map.mpr ⟨x, hx, rfl⟩)
    exact ih (passACluster st c) inv1 hnt1 hpend2 hpw2

theorem passA_pass (db0 : Db) (hdb0 : ∀ i ∈ db0.instances, Clean i.name = true)
    (hshape : ∀ pr ∈ db0.optimalFF, ShapeOK pr.2 = true)
    (hnodup : (instNames db0.instances).Nodup)
    (st : BankSt) (inv : BankInv db0 st) (hnt : NoTwoBit st) (hst : st.db = db0) :
    BankInv db0 (execute_debank_cluster_rebanking st) ∧
      NoTwoBit (execute_debank_cluster_rebanking st) := by
  rw [execute_debank_cluster_rebanking]
  obtain ⟨hmem, hnd, hpw⟩ := passAClusters_facts db0 hnodup
  rw [hst]
  refine passA_fold db0 hdb0 hshape (passAClusters db0) st inv hnt ?_ hpw
  intro p hp x hx
  have h1 := hmem p hp x hx
  refine ⟨?_, h1.1⟩
  rw [hst]
  exact findInst_mem_nodup hnodup h1.1

theorem nm2_eq (pre : String) (k : ℕ) :
    (if pre = "" then "ff_fsdn2_" else pre ++ "/ff_fsdn2_") ++ toString k =
      genName pre "ff_fsdn2_" k := by
  rw [genName]
  by_cases h : pre = ""
  · rw [if_pos h, if_pos h]
    rfl
  · rw [if_neg h, if_neg h]
    exact congrArg (fun s => s ++ Nat.repr k) (String.append_assoc pre "/" "ff_fsdn2_").symm

theorem nm4_eq (pre : String) (k : ℕ) :
    (if pre = "" then "ff_fsdn4_" else pre ++ "/ff_fsdn4_") ++ toString k =
      genName pre "ff_fsdn4_" k := by
  rw [genName]
  by_cases h : pre = ""
  · rw [if_pos h, if_pos h]
    rfl
  · rw [if_neg h, if_neg h]
    exact congrArg (fun s => s ++ Nat.repr k) (String.append_assoc pre "/" "ff_fsdn4_").symm

theorem nmL_eq (pre : String) (k : ℕ) :
    (if pre = "" then "ff_lsrdpq4_" else pre ++ "/ff_lsrdpq4_") ++ toString k =
      genName pre "ff_lsrdpq4_" k := by
  rw [genName]
  by_cases h : pre = ""
  · rw [if_pos h, if_pos h]
    rfl
  · rw [if_neg h, if_neg h]
    exact congrArg (fun s => s ++ Nat.repr k)
      (String.append_assoc pre "/" "ff_lsrdpq4_").symm

theorem mem_rebuildGroup {groups : List (String × List String)} {key : String}
    {M : List Inst} {nm : String} {g2 : String × List String}
    (h : g2 ∈ rebuildGroup groups key M nm) :
    g2 ∈ groups ∨ ∃ g ∈ groups,
      g2 = (g.1, g.2.filter (fun n => ¬ M.any (fun i => i.name == n)) ++ [nm]) := by
  rw [rebuildGroup] at h
  obtain ⟨g, hg, hmap⟩ := List.mem_map.mp h
  by_cases hk : (g.1 == key) = true
  · rw [if_pos hk] at hmap
    exact Or.inr ⟨g, hg, hmap.symm⟩
  · rw [if_neg hk] at hmap
    exact Or.inl (hmap ▸ hg)

theorem phase1_act (db0 : Db) (st : BankSt) (inv : BankInv db0 st) (hnt : NoTwoBit st)
    (hdb0 : ∀ i ∈ db0.instances, Clean i.name = true)
    (key : String) (M : List Inst) (newI : Inst) (pre : String)
    (hlive : ∀ x ∈ M, findInst st.db.instances x.name = some x)
    (hinit : ∀ x ∈ M, x ∈ db0.instances)
    (hSopt : ShapeOK newI.cellName = true)
    (hname : newI.name = genName pre "ff_fsdn2_" st.ctr2)
    (hpre : Clean pre = true) :
    BankInv db0 { st with
      db := { st.db with
        instances := eraseSources (upsertInst st.db.instances newI) M,
        groups := rebuildGroup st.db.groups key M newI.name },
      ctr2 := st.ctr2 + 1,
      origMap := st.origMap ++ [(newI.name, M)] } ∧
    NoTwoBit { st with
      db := { st.db with
        instances := eraseSources (upsertInst st.db.instances newI) M,
        groups := rebuildGroup st.db.groups key M newI.name },
      ctr2 := st.ctr2 + 1,
      origMap := st.origMap ++ [(newI.name, M)] } := by
  have hMlive : ∀ n ∈ instNames M, ∃ i, findInst st.db.instances n = some i := by
    intro n hn
    obtain ⟨x, hx, rfl⟩ := List.mem_map.mp hn
    exact ⟨x, hlive x hx⟩
  have hfresh : ∀ n : String,
      Clean n = true ∨ GenBound st.ctr2 st.ctr4 st.ctrL n → n ≠ newI.name := by
    intro n hcl
    rw [hname]
    exact fresh2 hcl
  have hdeadpres : ∀ n : String,
      (Clean n = true ∨ GenBound st.ctr2 st.ctr4 st.ctrL n) →
      findInst st.db.instances n = none →
      findInst (eraseSources (upsertInst st.db.instances newI) M) n = none := by
    intro n hcl hdn
    exact dead_preserved hdn (hfresh n hcl)
  have hsrcClean : ∀ o ∈ st.ops, ∀ n ∈ opSrcNames o, Clean n = true := by
    intro o ho n hn
    obtain ⟨x, hx, rfl⟩ := List.mem_map.mp hn
    exact hdb0 x (inv.opsInit o ho x hx)
  have hentClean : ∀ e ∈ st.origMap, ∀ n ∈ entryNames e, Clean n = true := by
    intro e he n hn
    obtain ⟨x, hx, rfl⟩ := List.mem_map.mp hn
    exact hdb0 x (inv.mapInit e he x hx)
  refine ⟨?_, ?_⟩
  · refine
      { constOpt := inv.constOpt
        constHist := inv.constHist
        opsDisj := inv.opsDisj
        opsDead := ?_
        opsInit := inv.opsInit
        opsTy := inv.opsTy
        mapDisj := ?_
        mapDead := ?_
        mapInit := ?_
        mapKeys := ?_
        opsMapDisj := ?_
        fourBit := ?_
        live := ?_
        groupsOK := ?_ }
    · intro o ho n hn
      exact hdeadpres n (Or.inl (hsrcClean o ho n hn)) (inv.opsDead o ho n hn)
    · show (st.origMap ++ [(newI.name, M)]).Pairwise
        (fun e1 e2 => NamesDisj (entryNames e1) (entryNames e2))
      rw [List.pairwise_append]
      refine ⟨inv.mapDisj, List.pairwise_singleton _ _, ?_⟩
      intro e1 he1 e2 he2
      rw [List.mem_singleton] at he2
      subst he2
      exact namesDisj_dead_live (inv.mapDead e1 he1) hMlive
    · intro e he n hn
      rcases List.mem_append.mp he with he | he
      · exact hdeadpres n (Or.inl (hentClean e he n hn)) (inv.mapDead e he n hn)
      · rw [List.mem_singleton] at he
        subst he
        exact cluster_dead n hn
    · intro e he i hi
      rcases List.mem_append.mp he with he | he
      · exact inv.mapInit e he i hi
      · rw [List.mem_singleton] at he
        subst he
        exact hinit i hi
    · intro e he
      rcases List.mem_append.mp he with he | he
      · obtain ⟨p, k, hp, hk, he1⟩ := inv.mapKeys e he
        exact ⟨p, k, hp, by show k < st.ctr2 + 1; omega, he1⟩
      · rw [List.mem_singleton] at he
        subst he
        exact ⟨pre, st.ctr2, hpre, by show st.ctr2 < st.ctr2 + 1; omega, hname⟩
    · intro o ho hoty e he
      rcases List.mem_append.mp he with he | he
      · exact inv.opsMapDisj o ho hoty e he
      · rw [List.mem_singleton] at he
        subst he
        exact namesDisj_dead_live (inv.opsDead o ho) hMlive
    · intro o ho hoty n hn e he hne
      rcases List.mem_append.mp he with he | he
      · obtain ⟨p, k, hp, hk, he1⟩ := inv.mapKeys e he
        refine hdeadpres e.1 ?_ (inv.fourBit o ho hoty n hn e he hne)
        exact Or.inr ⟨p, k, hp, Or.inl ⟨he1, hk⟩⟩
      · rw [List.mem_singleton] at he
        subst he
        obtain ⟨x, hx, rfl⟩ := List.mem_map.mp hne
        have hd := inv.opsDead o ho x.name hn
        have hl := hlive x hx
        rw [hd] at hl
        exact Option.noConfusion hl
    · intro i hi
      have h2 := mem_of_upsert (mem_of_eraseSources hi)
      rcases h2 with h2 | h2
      · exact inv.live i h2
      · subst h2
        exact Or.inr hSopt
    · intro g2 hg2
      rcases mem_rebuildGroup hg2 with hg | ⟨g, hg, rfl⟩
      · obtain ⟨hnd, hcls⟩ := inv.groupsOK g2 hg
        refine ⟨hnd, ?_⟩
        intro n hn
        rcases hcls n hn with hc | hc
        · exact Or.inl hc
        · exact Or.inr (genBound_mono hc
              (by show st.ctr2 ≤ st.ctr2 + 1; omega) (le_refl st.ctr4) (le_refl st.ctrL))
      · obtain ⟨hnd, hcls⟩ := inv.groupsOK g hg
        have hsubf : List.Sublist
            (g.2.filter (fun n => ¬ M.any (fun i => i.name == n))) g.2 :=
          List.filter_sublist _
        constructor
        · rw [List.nodup_append]
          refine ⟨hsubf.nodup hnd, List.nodup_singleton _, ?_⟩
          intro n hnf hnm
          rw [List.mem_singleton] at hnm
          subst hnm
          exact hfresh newI.name (hcls newI.name (hsubf.subset hnf)) rfl
        · intro n hn
          rcases List.mem_append.mp hn with hn | hn
          · rcases hcls n (hsubf.subset hn) with hc | hc
            · exact Or.inl hc
            · exact Or.inr (genBound_mono hc
              (by show st.ctr2 ≤ st.ctr2 + 1; omega) (le_refl st.ctr4) (le_refl st.ctrL))
          · rw [List.mem_singleton] at hn
            subst hn
            exact Or.inr ⟨pre, st.ctr2, hpre,
              Or.inl ⟨hname, by show st.ctr2 < st.ctr2 + 1; omega⟩⟩
  · intro o ho
    exact hnt o ho

theorem phase1_step (db0 : Db) (st : BankSt) (inv : BankInv db0 st) (hnt : NoTwoBit st)
    (hdb0 : ∀ i ∈ db0.instances, Clean i.name = true)
    (hshape : ∀ pr ∈ db0.optimalFF, ShapeOK pr.2 = true)
    (key : String) (cl : List Inst)
    (hlive : ∀ x ∈ cl, findInst st.db.instances x.name = some x)
    (hinit : ∀ x ∈ cl, x ∈ db0.instances) :
    BankInv db0 (fsdnPhase1Cluster key st cl) ∧
    NoTwoBit (fsdnPhase1Cluster key st cl) ∧
    st.ctr2 ≤ (fsdnPhase1Cluster key st cl).ctr2 ∧
    (fsdnPhase1Cluster key st cl).ctr4 = st.ctr4 ∧
    (fsdnPhase1Cluster key st cl).ctrL = st.ctrL ∧
    ∀ n, (∀ x ∈ cl, x.name ≠ n) →
      (Clean n = true ∨ GenBound st.ctr2 st.ctr4 st.ctrL n) →
      findInst (fsdnPhase1Cluster key st cl).db.instances n =
        findInst st.db.instances n := by
  have skip : BankInv db0 st ∧ NoTwoBit st ∧ st.ctr2 ≤ st.ctr2 ∧
      st.ctr4 = st.ctr4 ∧ st.ctrL = st.ctrL ∧
      ∀ n, (∀ x ∈ cl, x.name ≠ n) →
        (Clean n = true ∨ GenBound st.ctr2 st.ctr4 st.ctrL n) →
        findInst st.db.instances n = findInst st.db.instances n :=
    ⟨inv, hnt, le_refl _, rfl, rfl, fun n _ _ => rfl⟩
  cases cl with
  | nil =>
    simp only [fsdnPhase1Cluster]
    exact skip
  | cons a rest =>
    cases rest with
    | nil =>
      simp only [fsdnPhase1Cluster]
      exact skip
    | cons b rest2 =>
      simp only [fsdnPhase1Cluster]
      split
      · exact skip
      · split
        · exact skip
        · split
          · exact skip
          · rename_i base hbase
            split
            · exact skip
            · rename_i opt hopt
              have hSopt : ShapeOK opt = true := by
                obtain ⟨pr, hpr, he⟩ := findOptimal_mem hopt
                exact he ▸ hshape pr (inv.constOpt ▸ hpr)
              have hprecln : Clean (extract_hierarchy_head a.name) = true :=
                head_clean (hdb0 a (hinit a (List.mem_cons_self _ _)))
              obtain ⟨hI, hN⟩ := phase1_act db0 st inv hnt hdb0 key
                (a :: b :: rest2)
                { name := (if extract_hierarchy_head a.name = "" then "ff_fsdn2_"
                    else extract_hierarchy_head a.name ++ "/ff_fsdn2_") ++
                      toString st.ctr2,
                  cellName := opt, posX := (a.posX + b.posX) / 2,
                  posY := (a.posY + b.posY) / 2,
                  bankingType := BankTy.fsdn, moduleName := a.moduleName,
                  connections := map_singlebit_to_multibit_connections st.db opt
                    (a :: b :: rest2) 2 }
                (extract_hierarchy_head a.name) hlive hinit
                hSopt (nm2_eq (extract_hierarchy_head a.name) st.ctr2) hprecln
              refine ⟨hI, hN, ?_, rfl, rfl, ?_⟩
              · show st.ctr2 ≤ st.ctr2 + 1
                omega
              · intro n hne hcl
                refine table_unchanged hne ?_
                intro he
                exact fresh2 hcl
                  (he.trans (nm2_eq (extract_hierarchy_head a.name) st.ctr2))

theorem phase1_fold (db0 : Db) (hdb0 : ∀ i ∈ db0.instances, Clean i.name = true)
    (hshape : ∀ pr ∈ db0.optimalFF, ShapeOK pr.2 = true) (key : String) :
    ∀ (CS : List (List Inst)) (st : BankSt),
      BankInv db0 st → NoTwoBit st →
      (∀ C ∈ CS, ∀ x ∈ C,
        findInst st.db.instances x.name = some x ∧ x ∈ db0.instances) →
      CS.Pairwise (fun C D => NamesDisj (instNames C) (instNames D)) →
      BankInv db0 (CS.foldl (fsdnPhase1Cluster key) st) ∧
        NoTwoBit (CS.foldl (fsdnPhase1Cluster key) st) := by
  intro CS
  induction CS with
  | nil => intro st inv hnt _ _; exact ⟨inv, hnt⟩
  | cons c cs ih =>
    intro st inv hnt hpend hpw
    rw [List.foldl_cons]
    obtain ⟨hCD, hpw2⟩ := List.pairwise_cons.mp hpw
    obtain ⟨inv1, hnt1, hc2, hc4, hcL, hook⟩ :=
      phase1_step db0 st inv hnt hdb0 hshape key c
        (fun x hx => (hpend c (List.mem_cons_self _ _) x hx).1)
        (fun x hx => (hpend c (List.mem_cons_self _ _) x hx).2)
    have hpend2 : ∀ p ∈ cs, ∀ x ∈ p,
        findInst (fsdnPhase1Cluster key st c).db.instances x.name = some x ∧
          x ∈ db0.instances := by
      intro p hp x hx
      have h1 := hpend p (List.mem_cons_of_mem _ hp) x hx
      refine ⟨?_, h1.2⟩
      rw [hook x.name ?_ (Or.inl (hdb0 x h1.2))]
      · exact h1.1
      · intro y hy hyx
        exact hCD p hp x.name (hyx ▸ List.mem_map.mpr ⟨y, hy, rfl⟩)
          (List.mem_map.mpr ⟨x, hx, rfl⟩)
    exact ih (fsdnPhase1Cluster key st c) inv1 hnt1 hpend2 hpw2

theorem phase1_pass (db0 : Db)
    (hdb0 : ∀ i ∈ db0.instances, Clean i.name = true)
    (hshape : ∀ pr ∈ db0.optimalFF, ShapeOK pr.2 = true)
    (st : BankSt) (key : String) (inv : BankInv db0 st) (hnt : NoTwoBit st) :
    BankInv db0 (execute_1bit_to_2bit_banking st key).1 ∧
      NoTwoBit (execute_1bit_to_2bit_banking st key).1 := by
  have hgnd : ∀ g ∈ st.db.groups, g.2.Nodup := fun g hg => (inv.groupsOK g hg).1
  have hnd := collect_fsdn_nodup st.db key hgnd
  have hfacts := collect_fsdn_facts st.db key
  have hinitf : ∀ x ∈ collect_fsdn_instances_for_group st.db key,
      x ∈ db0.instances := by
    intro x hx
    obtain ⟨hlv, hflt, -⟩ := hfacts x hx
    have hmem : x ∈ st.db.instances := (findInst_name hlv).2
    rcases inv.live x hmem with h | h
    · exact h
    · rw [Bool.and_eq_true] at hflt
      obtain ⟨-, h2⟩ := hflt
      rw [shape_not_fsdn1 h] at h2
      exact Bool.noConfusion h2
  obtain ⟨hcl, hpw⟩ := sdc_facts (collect_fsdn_instances_for_group st.db key) 2
    FSDN_2BIT_BANKING_distance hnd
  simp only [execute_1bit_to_2bit_banking]
  split
  · exact ⟨inv, hnt⟩
  · exact phase1_fold db0 hdb0 hshape key _ st inv hnt
      (fun C hC x hx =>
        ⟨(hfacts x ((hcl C hC).2 x hx)).1, hinitf x ((hcl C hC).2 x hx)⟩)
      hpw

theorem mem_allOrig {O : List (String × List Inst)} :
    ∀ (M : List Inst) (acc : List Inst) (i : Inst),
      i ∈ M.foldl (fun acc tb =>
        acc ++ (((O.find? (fun m => m.1 == tb.name)).map Prod.snd).getD [])) acc →
      i ∈ acc ∨ ∃ tb ∈ M, ∃ e, O.find? (fun m => m.1 == tb.name) = some e ∧
        i ∈ e.2 := by
  intro M
  induction M with
  | nil => intro acc i h; exact Or.inl h
  | cons tb tbs ih =>
    intro acc i h
    rw [List.foldl_cons] at h
    rcases ih _ i h with h2 | h2
    · rcases List.mem_append.mp h2 with h3 | h3
      · exact Or.inl h3
      · cases hf : O.find? (fun m => m.1 == tb.name) with
        | none =>
          rw [hf] at h3
          exact absurd h3 (by simp)
        | some e =>
          rw [hf] at h3
          exact Or.inr ⟨tb, List.mem_cons_self _ _, e, hf, h3⟩
    · obtain ⟨tb2, htb2, e, hf, hi⟩ := h2
      exact Or.inr ⟨tb2, List.mem_cons_of_mem _ htb2, e, hf, hi⟩

theorem find?_entry_key {O : List (String × List Inst)} {nm : String}
    {e : String × List Inst} (h : O.find? (fun m => m.1 == nm) = some e) :
    e ∈ O ∧ e.1 = nm := by
  induction O with
  | nil => exact Option.noConfusion h
  | cons a t ih =>
    rw [List.find?_cons] at h
    cases ha : (a.1 == nm) with
    | true =>
      rw [ha] at h
      have hae : a = e := Option.some.inj h
      subst hae
      exact ⟨List.mem_cons_self _ _, beq_iff_eq.mp ha⟩
    | false =>
      rw [ha] at h
      have h2 := ih h
      exact ⟨List.mem_cons_of_mem _ h2.1, h2.2⟩

theorem phase2_act (db0 : Db) (st : BankSt) (inv : BankInv db0 st) (hnt : NoTwoBit st)
    (hdb0 : ∀ i ∈ db0.instances, Clean i.name = true)
    (key : String) (M : List Inst) (newI : Inst) (op : BankOp) (pre : String)
    (hlive : ∀ x ∈ M, findInst st.db.instances x.name = some x)
    (hops : op.sources = M.foldl (fun acc tb =>
      acc ++ (((st.origMap.find? (fun m => m.1 == tb.name)).map Prod.snd).getD []))
      [])
    (hty : op.opType = "FSDN_4BIT_BANKING")
    (hSopt : ShapeOK newI.cellName = true)
    (hname : newI.name = genName pre "ff_fsdn4_" st.ctr4)
    (hpre : Clean pre = true) :
    BankInv db0 { st with
      db := { st.db with
        instances := eraseSources (upsertInst st.db.instances newI) M,
        groups := rebuildGroup st.db.groups key M newI.name },
      ctr4 := st.ctr4 + 1,
      ops := st.ops ++ [op] } ∧
    NoTwoBit { st with
      db := { st.db with
        instances := eraseSources (upsertInst st.db.instances newI) M,
        groups := rebuildGroup st.db.groups key M newI.name },
      ctr4 := st.ctr4 + 1,
      ops := st.ops ++ [op] } := by
  have hsrc : ∀ i ∈ op.sources, ∃ tb ∈ M, ∃ e,
      st.origMap.find? (fun m => m.1 == tb.name) = some e ∧ i ∈ e.2 := by
    intro i hi
    rw [hops] at hi
    rcases mem_allOrig M [] i hi with h | h
    · simp at h
    · exact h
  have hsrcInit : ∀ i ∈ op.sources, i ∈ db0.instances := by
    intro i hi
    obtain ⟨tb, htb, e, hf, hie⟩ := hsrc i hi
    exact inv.mapInit e (find?_entry_key hf).1 i hie
  have hsrcDead : ∀ n ∈ opSrcNames op, findInst st.db.instances n = none := by
    intro n hn
    obtain ⟨i, hi, rfl⟩ := List.mem_map.mp hn
    obtain ⟨tb, htb, e, hf, hie⟩ := hsrc i hi
    exact inv.mapDead e (find?_entry_key hf).1 i.name (List.mem_map.mpr ⟨i, hie, rfl⟩)
  have hsrcClean : ∀ o ∈ st.ops, ∀ n ∈ opSrcNames o, Clean n = true := by
    intro o ho n hn
    obtain ⟨x, hx, rfl⟩ := List.mem_map.mp hn
    exact hdb0 x (inv.opsInit o ho x hx)
  have hentClean : ∀ e ∈ st.origMap, ∀ n ∈ entryNames e, Clean n = true := by
    intro e he n hn
    obtain ⟨x, hx, rfl⟩ := List.mem_map.mp hn
    exact hdb0 x (inv.mapInit e he x hx)
  have hfresh : ∀ n : String,
      Clean n = true ∨ GenBound st.ctr2 st.ctr4 st.ctrL n → n ≠ newI.name := by
    intro n hcl
    rw [hname]
    exact fresh4 hcl
  have hdeadpres : ∀ n : String,
      (Clean n = true ∨ GenBound st.ctr2 st.ctr4 st.ctrL n) →
      findInst st.db.instances n = none →
      findInst (eraseSources (upsertInst st.db.instances newI) M) n = none := by
    intro n hcl hdn
    exact dead_preserved hdn (hfresh n hcl)
  have hkeycls : ∀ e ∈ st.origMap,
      Clean e.1 = true ∨ GenBound st.ctr2 st.ctr4 st.ctrL e.1 := by
    intro e he
    obtain ⟨p, k, hp, hk, he1⟩ := inv.mapKeys e he
    exact Or.inr ⟨p, k, hp, Or.inl ⟨he1, hk⟩⟩
  refine ⟨?_, ?_⟩
  · refine
      { constOpt := inv.constOpt
        constHist := inv.constHist
        opsDisj := ?_
        opsDead := ?_
        opsInit := ?_
        opsTy := ?_
        mapDisj := inv.mapDisj
        mapDead := ?_
        mapInit := inv.mapInit
        mapKeys := inv.mapKeys
        opsMapDisj := ?_
        fourBit := ?_
        live := ?_
        groupsOK := ?_ }
    · show (st.ops ++ [op]).Pairwise (fun o1 o2 => NamesDisj (opSrcNames o1) (opSrcNames o2))
      rw [List.pairwise_append]
      refine ⟨inv.opsDisj, List.pairwise_singleton _ _, ?_⟩
      intro o1 ho1 o2 ho2
      rw [List.mem_singleton] at ho2
      subst ho2
      intro n hno hnnew
      obtain ⟨i, hi, rfl⟩ := List.mem_map.mp hnnew
      obtain ⟨tb, htb, e, hf, hie⟩ := hsrc i hi
      have hne : i.name ∈ entryNames e := List.mem_map.mpr ⟨i, hie, rfl⟩
      rcases inv.opsTy o1 ho1 with hT | hT | hT | hT
      · exact inv.opsMapDisj o1 ho1 (Or.inl hT) e (find?_entry_key hf).1 i.name hno hne
      · exact hnt o1 ho1 hT
      · have hdead := inv.fourBit o1 ho1 hT i.name hno e (find?_entry_key hf).1 hne
        rw [(find?_entry_key hf).2] at hdead
        have hl := hlive tb htb
        rw [hdead] at hl
        exact Option.noConfusion hl
      · exact inv.opsMapDisj o1 ho1 (Or.inr hT) e (find?_entry_key hf).1 i.name hno hne
    · intro o ho n hn
      rcases List.mem_append.mp ho with ho | ho
      · exact hdeadpres n (Or.inl (hsrcClean o ho n hn)) (inv.opsDead o ho n hn)
      · rw [List.mem_singleton] at ho
        subst ho
        refine hdeadpres n ?_ (hsrcDead n hn)
        obtain ⟨i, hi, rfl⟩ := List.mem_map.mp hn
        exact Or.inl (hdb0 i (hsrcInit i hi))
    · intro o ho i hi
      rcases List.mem_append.mp ho with ho | ho
      · exact inv.opsInit o ho i hi
      · rw [List.mem_singleton] at ho
        subst ho
        exact hsrcInit i hi
    · intro o ho
      rcases List.mem_append.mp ho with ho | ho
      · exact inv.opsTy o ho
      · rw [List.mem_singleton] at ho
        subst ho
        exact Or.inr (Or.inr (Or.inl hty))
    · intro e he n hn
      exact hdeadpres n (Or.inl (hentClean e he n hn)) (inv.mapDead e he n hn)
    · intro o ho hoty e he
      rcases List.mem_append.mp ho with ho | ho
      · exact inv.opsMapDisj o ho hoty e he
      · rw [List.mem_singleton] at ho
        subst ho
        rw [hty] at hoty
        rcases hoty with h | h <;> exact absurd h (by decide)
    · intro o ho hoty n hn e' he' hne'
      rcases List.mem_append.mp ho with ho | ho
      · refine hdeadpres e'.1 (hkeycls e' he') (inv.fourBit o ho hoty n hn e' he' hne')
      · rw [List.mem_singleton] at ho
        subst ho
        obtain ⟨i, hi, rfl⟩ := List.mem_map.mp hn
        obtain ⟨tb, htb, e, hf, hie⟩ := hsrc i hi
        have hne : i.name ∈ entryNames e := List.mem_map.mpr ⟨i, hie, rfl⟩
        by_cases heq : e = e'
        · subst heq
          rw [(find?_entry_key hf).2]
          have : tb.name ∈ instNames M := List.mem_map.mpr ⟨tb, htb, rfl⟩
          exact cluster_dead tb.name this
        · have hdisj := List.Pairwise.forall
            (fun a b hab => namesDisj_symm hab) inv.mapDisj
            (find?_entry_key hf).1 he' heq
          exact absurd hne' (hdisj i.name hne)
    · intro i hi
      have h2 := mem_of_upsert (mem_of_eraseSources hi)
      rcases h2 with h2 | h2
      · exact inv.live i h2
      · subst h2
        exact Or.inr hSopt
    · intro g2 hg2
      rcases mem_rebuildGroup hg2 with hg | ⟨g, hg, rfl⟩
      · obtain ⟨hnd, hcls2⟩ := inv.groupsOK g2 hg
        refine ⟨hnd, ?_⟩
        intro n hn
        rcases hcls2 n hn with hc | hc
        · exact Or.inl hc
        · exact Or.inr (genBound_mono hc (le_refl st.ctr2)
            (by show st.ctr4 ≤ st.ctr4 + 1; omega) (le_refl st.ctrL))
      · obtain ⟨hnd, hcls2⟩ := inv.groupsOK g hg
        have hsubf : List.Sublist
            (g.2.filter (fun n => ¬ M.any (fun i => i.name == n))) g.2 :=
          List.filter_sublist _
        constructor
        · rw [List.nodup_append]
          refine ⟨hsubf.nodup hnd, List.nodup_singleton _, ?_⟩
          intro n hnf hnm
          rw [List.mem_singleton] at hnm
          subst hnm
          exact hfresh newI.name (hcls2 newI.name (hsubf.subset hnf)) rfl
        · intro n hn
          rcases List.mem_append.mp hn with hn | hn
          · rcases hcls2 n (hsubf.subset hn) with hc | hc
            · exact Or.inl hc
            · exact Or.inr (genBound_mono hc (le_refl st.ctr2)
                (by show st.ctr4 ≤ st.ctr4 + 1; omega) (le_refl st.ctrL))
          · rw [List.mem_singleton] at hn
            subst hn
            exact Or.inr ⟨pre, st.ctr4, hpre,
              Or.inr (Or.inl ⟨hname, by show st.ctr4 < st.ctr4 + 1; omega⟩)⟩
  · intro o ho
    rcases List.mem_append.mp ho with ho | ho
    · exact hnt o ho
    · rw [List.mem_singleton] at ho
      subst ho
      rw [hty]
      decide

theorem head_classified {n : String} {c2 c4 cL : ℕ}
    (h : Clean n = true ∨ GenBound c2 c4 cL n) :
    Clean (extract_hierarchy_head n) = true := by
  rcases h with h | ⟨p, k, hp, hf⟩
  · exact head_clean h
  · rcases hf with ⟨he, -⟩ | ⟨he, -⟩ | ⟨he, -⟩ <;> rw [he]
    · rw [head_genName p "ff_fsdn2_" stemT2_slash k]
      exact hp
    · rw [head_genName p "ff_fsdn4_" stemT4_slash k]
      exact hp
    · rw [head_genName p "ff_lsrdpq4_" stemTL_slash k]
      exact hp

theorem phase2_step (db0 : Db) (st : BankSt) (inv : BankInv db0 st) (hnt : NoTwoBit st)
    (hdb0 : ∀ i ∈ db0.instances, Clean i.name = true)
    (hshape : ∀ pr ∈ db0.optimalFF, ShapeOK pr.2 = true)
    (key : String) (cl : List Inst)
    (hlive : ∀ x ∈ cl, findInst st.db.instances x.name = some x)
    (hcls : ∀ x ∈ cl, Clean x.name = true ∨ GenBound st.ctr2 st.ctr4 st.ctrL x.name) :
    BankInv db0 (fsdnPhase2Cluster key st cl) ∧
    NoTwoBit (fsdnPhase2Cluster key st cl) ∧
    st.ctr2 ≤ (fsdnPhase2Cluster key st cl).ctr2 ∧
    st.ctr4 ≤ (fsdnPhase2Cluster key st cl).ctr4 ∧
    st.ctrL ≤ (fsdnPhase2Cluster key st cl).ctrL ∧
    ∀ n, (∀ x ∈ cl, x.name ≠ n) →
      (Clean n = true ∨ GenBound st.ctr2 st.ctr4 st.ctrL n) →
      findInst (fsdnPhase2Cluster key st cl).db.instances n =
        findInst st.db.instances n := by
  have skip : BankInv db0 st ∧ NoTwoBit st ∧ st.ctr2 ≤ st.ctr2 ∧
      st.ctr4 ≤ st.ctr4 ∧ st.ctrL ≤ st.ctrL ∧
      ∀ n, (∀ x ∈ cl, x.name ≠ n) →
        (Clean n = true ∨ GenBound st.ctr2 st.ctr4 st.ctrL n) →
        findInst st.db.instances n = findInst st.db.instances n :=
    ⟨inv, hnt, le_refl _, le_refl _, le_refl _, fun n _ _ => rfl⟩
  cases cl with
  | nil =>
    simp only [fsdnPhase2Cluster]
    exact skip
  | cons a rest =>
    cases rest with
    | nil =>
      simp only [fsdnPhase2Cluster]
      exact skip
    | cons b rest2 =>
      simp only [fsdnPhase2Cluster]
      split
      · exact skip
      · split
        · exact skip
        · split
          · exact skip
          · rename_i base hbase
            split
            · exact skip
            · rename_i opt hopt
              have hSopt : ShapeOK opt = true := by
                obtain ⟨pr, hpr, he⟩ := findOptimal_mem hopt
                exact he ▸ hshape pr (inv.constOpt ▸ hpr)
              have hprecln : Clean (extract_hierarchy_head a.name) = true :=
                head_classified (hcls a (List.mem_cons_self _ _))
              obtain ⟨hI, hN⟩ := phase2_act db0 st inv hnt hdb0 key
                (a :: b :: rest2)
                { name := (if extract_hierarchy_head a.name = "" then "ff_fsdn4_"
                    else extract_hierarchy_head a.name ++ "/ff_fsdn4_") ++
                      toString st.ctr4,
                  cellName := opt, posX := (a.posX + b.posX) / 2,
                  posY := (a.posY + b.posY) / 2,
                  bankingType := BankTy.fsdn, moduleName := a.moduleName,
                  connections := map_2bit_to_4bit_connections (a :: b :: rest2) }
                { sources := (a :: b :: rest2).foldl (fun acc tb =>
                    acc ++ (((st.origMap.find? (fun m => m.1 == tb.name)).map
                      Prod.snd).getD [])) [],
                  resultName := (if extract_hierarchy_head a.name = "" then "ff_fsdn4_"
                    else extract_hierarchy_head a.name ++ "/ff_fsdn4_") ++
                      toString st.ctr4,
                  targetCell := opt,
                  pinMapping := generate_complete_banking_pin_mapping
                    ((a :: b :: rest2).foldl (fun acc tb =>
                      acc ++ (((st.origMap.find? (fun m => m.1 == tb.name)).map
                        Prod.snd).getD [])) [])
                    ((if extract_hierarchy_head a.name = "" then "ff_fsdn4_"
                      else extract_hierarchy_head a.name ++ "/ff_fsdn4_") ++
                        toString st.ctr4),
                  opType := "FSDN_4BIT_BANKING" }
                (extract_hierarchy_head a.name) hlive rfl rfl
                hSopt (nm4_eq (extract_hierarchy_head a.name) st.ctr4) hprecln
              refine ⟨hI, hN, le_refl _, ?_, le_refl _, ?_⟩
              · show st.ctr4 ≤ st.ctr4 + 1
                omega
              · intro n hne hcl
                refine table_unchanged hne ?_
                intro he
                exact fresh4 hcl
                  (he.trans (nm4_eq (extract_hierarchy_head a.name) st.ctr4))

theorem phase2_fold (db0 : Db) (hdb0 : ∀ i ∈ db0.instances, Clean i.name = true)
    (hshape : ∀ pr ∈ db0.optimalFF, ShapeOK pr.2 = true) (key : String) :
    ∀ (CS : List (List Inst)) (st : BankSt),
      BankInv db0 st → NoTwoBit st →
      (∀ C ∈ CS, ∀ x ∈ C, findInst st.db.instances x.name = some x ∧
        (Clean x.name = true ∨ GenBound st.ctr2 st.ctr4 st.ctrL x.name)) →
      CS.Pairwise (fun C D => NamesDisj (instNames C) (instNames D)) →
      BankInv db0 (CS.foldl (fsdnPhase2Cluster key) st) ∧
        NoTwoBit (CS.foldl (fsdnPhase2Cluster key) st) := by
  intro CS
  induction CS with
  | nil => intro st inv hnt _ _; exact ⟨inv, hnt⟩
  | cons c cs ih =>
    intro st inv hnt hpend hpw
    rw [List.foldl_cons]
    obtain ⟨hCD, hpw2⟩ := List.pairwise_cons.mp hpw
    obtain ⟨inv1, hnt1, hc2, hc4, hcL, hook⟩ :=
      phase2_step db0 st inv hnt hdb0 hshape key c
        (fun x hx => (hpend c (List.mem_cons_self _ _) x hx).1)
        (fun x hx => (hpend c (List.mem_cons_self _ _) x hx).2)
    have hpend2 : ∀ p ∈ cs, ∀ x ∈ p,
        findInst (fsdnPhase2Cluster key st c).db.instances x.name = some x ∧
          (Clean x.name = true ∨
            GenBound (fsdnPhase2Cluster key st c).ctr2
              (fsdnPhase2Cluster key st c).ctr4
              (fsdnPhase2Cluster key st c).ctrL x.name) := by
      intro p hp x hx
      have h1 := hpend p (List.mem_cons_of_mem _ hp) x hx
      constructor
      · rw [hook x.name ?_ h1.2]
        · exact h1.1
        · intro y hy hyx
          exact hCD p hp x.name (hyx ▸ List.mem_map.mpr ⟨y, hy, rfl⟩)
            (List.mem_map.mpr ⟨x, hx, rfl⟩)
      · rcases h1.2 with hc | hc
        · exact Or.inl hc
        · exact Or.inr (genBound_mono hc hc2 hc4 hcL)
    exact ih (fsdnPhase2Cluster key st c) inv1 hnt1 hpend2 hpw2

theorem phase2_pass (db0 : Db)
    (hdb0 : ∀ i ∈ db0.instances, Clean i.name = true)
    (hshape : ∀ pr ∈ db0.optimalFF, ShapeOK pr.2 = true)
    (st : BankSt) (key : String) (inv : BankInv db0 st) (hnt : NoTwoBit st) :
    BankInv db0 (execute_2bit_to_4bit_banking st key) ∧
      NoTwoBit (execute_2bit_to_4bit_banking st key) := by
  have hgnd : ∀ g ∈ st.db.groups, g.2.Nodup := fun g hg => (inv.groupsOK g hg).1
  have hnd := collect_2bit_nodup st.db key hgnd
  have hfacts := collect_2bit_facts st.db key
  have hclsf : ∀ x ∈ collect2bitFsdn st.db key,
      Clean x.name = true ∨ GenBound st.ctr2 st.ctr4 st.ctrL x.name := by
    intro x hx
    obtain ⟨-, -, g, hg, hng⟩ := hfacts x hx
    exact (inv.groupsOK g hg).2 x.name hng
  obtain ⟨hcl, hpw⟩ := sdc_facts (collect2bitFsdn st.db key) 2
    FSDN_4BIT_BANKING_distance hnd
  simp only [execute_2bit_to_4bit_banking]
  split
  · exact ⟨inv, hnt⟩
  · exact phase2_fold db0 hdb0 hshape key _ st inv hnt
      (fun C hC x hx =>
        ⟨(hfacts x ((hcl C hC).2 x hx)).1, hclsf x ((hcl C hC).2 x hx)⟩)
      hpw

theorem finalizeStep_total (s : BankSt) (m : String × List Inst) :
    finalizeStep s m = s ∨
      (finalizeStep s m = { s with ops := s.ops ++
          [{ sources := m.2, resultName := m.1, targetCell := "",
             pinMapping := [], opType := "FSDN_2BIT_BANKING" }] } ∧
        ∀ op ∈ s.ops,
          (op.opType = "FSDN_4BIT_BANKING" ∨ op.opType = "LSRDPQ_4BIT_BANKING") →
          ∀ src ∈ m.2, ∀ os ∈ op.sources, os.name ≠ src.name) := by
  simp only [finalizeStep]
  by_cases h : (s.ops.any fun op =>
      (op.opType == "FSDN_4BIT_BANKING" || op.opType == "LSRDPQ_4BIT_BANKING") &&
        m.2.any (fun src => op.sources.any (fun os => os.name == src.name))) = true
  · rw [if_pos h]
    exact Or.inl rfl
  · rw [if_neg h]
    refine Or.inr ⟨rfl, ?_⟩
    intro op hop hty src hsrc os hos heq
    apply h
    rw [List.any_eq_true]
    refine ⟨op, hop, ?_⟩
    rw [Bool.and_eq_true, Bool.or_eq_true]
    refine ⟨?_, ?_⟩
    · rcases hty with h4 | h4 <;> simp [h4]
    · rw [List.any_eq_true]
      exact ⟨src, hsrc, by rw [List.any_eq_true]; exact ⟨os, hos, by simp [heq]⟩⟩

theorem finalize_fold (db0 : Db) :
    ∀ (E : List (String × List Inst)) (s : BankSt),
      BankInv db0 s →
      (∀ e ∈ E, e ∈ s.origMap) →
      E.Pairwise (fun e1 e2 => NamesDisj (entryNames e1) (entryNames e2)) →
      (∀ o ∈ s.ops, o.opType = "FSDN_2BIT_BANKING" →
        ∀ e ∈ E, NamesDisj (opSrcNames o) (entryNames e)) →
      BankInv db0 (E.foldl finalizeStep s) := by
  intro E
  induction E with
  | nil => intro s inv _ _ _; exact inv
  | cons m ms ih =>
    intro s inv hmem hpw h2b
    rw [List.foldl_cons]
    obtain ⟨hmd, hpw2⟩ := List.pairwise_cons.mp hpw
    have hm : m ∈ s.origMap := hmem m (List.mem_cons_self _ _)
    rcases finalizeStep_total s m with hcase | ⟨hcase, hguard⟩
    · rw [hcase]
      exact ih s inv (fun e he => hmem e (List.mem_cons_of_mem _ he)) hpw2
        (fun o ho hty e he => h2b o ho hty e (List.mem_cons_of_mem _ he))
    · rw [hcase]
      have hinv2 : BankInv db0 { s with ops := s.ops ++
          [{ sources := m.2, resultName := m.1, targetCell := "",
             pinMapping := [], opType := "FSDN_2BIT_BANKING" }] } := by
        refine
          { constOpt := inv.constOpt
            constHist := inv.constHist
            opsDisj := ?_
            opsDead := ?_
            opsInit := ?_
            opsTy := ?_
            mapDisj := inv.mapDisj
            mapDead := inv.mapDead
            mapInit := inv.mapInit
            mapKeys := inv.mapKeys
            opsMapDisj := ?_
            fourBit := ?_
            live := inv.live
            groupsOK := inv.groupsOK }
        · show (s.ops ++ [_]).Pairwise
            (fun o1 o2 => NamesDisj (opSrcNames o1) (opSrcNames o2))
          rw [List.pairwise_append]
          refine ⟨inv.opsDisj, List.pairwise_singleton _ _, ?_⟩
          intro o1 ho1 o2 ho2
          rw [List.mem_singleton] at ho2
          subst ho2
          rcases inv.opsTy o1 ho1 with hT | hT | hT | hT
          · exact inv.opsMapDisj o1 ho1 (Or.inl hT) m hm
          · exact h2b o1 ho1 hT m (List.mem_cons_self _ _)
          · intro n hno hnm
            obtain ⟨os, hos, rfl⟩ := List.mem_map.mp hno
            obtain ⟨src, hsrc, hsn⟩ := List.mem_map.mp hnm
            exact hguard o1 ho1 (Or.inl hT) src hsrc os hos hsn.symm
          · intro n hno hnm
            obtain ⟨os, hos, rfl⟩ := List.mem_map.mp hno
            obtain ⟨src, hsrc, hsn⟩ := List.mem_map.mp hnm
            exact hguard o1 ho1 (Or.inr hT) src hsrc os hos hsn.symm
        · intro o ho n hn
          rcases List.mem_append.mp ho with ho | ho
          · exact inv.opsDead o ho n hn
          · rw [List.mem_singleton] at ho
            subst ho
            exact inv.mapDead m hm n hn
        · intro o ho i hi
          rcases List.mem_append.mp ho with ho | ho
          · exact inv.opsInit o ho i hi
          · rw [List.mem_singleton] at ho
            subst ho
            exact inv.mapInit m hm i hi
        · intro o ho
          rcases List.mem_append.mp ho with ho | ho
          · exact inv.opsTy o ho
          · rw [List.mem_singleton] at ho
            subst ho
            exact Or.inr (Or.inl rfl)
        · intro o ho hoty e he
          rcases List.mem_append.mp ho with ho | ho
          · exact inv.opsMapDisj o ho hoty e he
          · rw [List.mem_singleton] at ho
            subst ho
            rcases hoty with h | h
            · exact absurd
                (show "FSDN_2BIT_BANKING" = "DEBANK_CLUSTER_REBANK" from h) (by decide)
            · exact absurd
                (show "FSDN_2BIT_BANKING" = "LSRDPQ_4BIT_BANKING" from h) (by decide)
        · intro o ho hoty n hn e he hne
          rcases List.mem_append.mp ho with ho | ho
          · exact inv.fourBit o ho hoty n hn e he hne
          · rw [List.mem_singleton] at ho
            subst ho
            exact absurd
              (show "FSDN_2BIT_BANKING" = "FSDN_4BIT_BANKING" from hoty) (by decide)
      refine ih _ hinv2 (fun e he => hmem e (List.mem_cons_of_mem _ he)) hpw2 ?_
      intro o ho hty e he
      rcases List.mem_append.mp ho with ho | ho
      · exact h2b o ho hty e (List.mem_cons_of_mem _ he)
      · rw [List.mem_singleton] at ho
        subst ho
        exact hmd e he

theorem finalize_pass (db0 : Db) (s : BankSt) (inv : BankInv db0 s)
    (hnt : NoTwoBit s) : BankInv db0 (finalize_2bit_banking_records s) := by
  rw [finalize_2bit_banking_records]
  exact finalize_fold db0 s.origMap s inv (fun e he => he) inv.mapDisj
    (fun o ho hty => absurd hty (hnt o ho))

theorem lsrdpq_act (db0 : Db) (st : BankSt) (inv : BankInv db0 st)
    (hdb0 : ∀ i ∈ db0.instances, Clean i.name = true)
    (key : String) (M : List Inst) (newI : Inst) (op : BankOp) (pre : String)
    (hlive : ∀ x ∈ M, findInst st.db.instances x.name = some x)
    (hinit : ∀ x ∈ M, x ∈ db0.instances)
    (hops : op.sources = M)
    (hty : op.opType = "LSRDPQ_4BIT_BANKING")
    (hSopt : ShapeOK newI.cellName = true)
    (hname : newI.name = genName pre "ff_lsrdpq4_" st.ctrL)
    (hpre : Clean pre = true) :
    BankInv db0 { st with
      db := { st.db with
        instances := eraseSources (upsertInst st.db.instances newI) M,
        groups := rebuildGroup st.db.groups key M newI.name },
      ctrL := st.ctrL + 1,
      ops := st.ops ++ [op] } := by
  have hMlive : ∀ n ∈ instNames M, ∃ i, findInst st.db.instances n = some i := by
    intro n hn
    obtain ⟨x, hx, rfl⟩ := List.mem_map.mp hn
    exact ⟨x, hlive x hx⟩
  have hfresh : ∀ n : String,
      Clean n = true ∨ GenBound st.ctr2 st.ctr4 st.ctrL n → n ≠ newI.name := by
    intro n hcl
    rw [hname]
    exact freshL hcl
  have hdeadpres : ∀ n : String,
      (Clean n = true ∨ GenBound st.ctr2 st.ctr4 st.ctrL n) →
      findInst st.db.instances n = none →
      findInst (eraseSources (upsertInst st.db.instances newI) M) n = none := by
    intro n hcl hdn
    exact dead_preserved hdn (hfresh n hcl)
  have hsrcClean : ∀ o ∈ st.ops, ∀ n ∈ opSrcNames o, Clean n = true := by
    intro o ho n hn
    obtain ⟨x, hx, rfl⟩ := List.mem_map.mp hn
    exact hdb0 x (inv.opsInit o ho x hx)
  have hentClean : ∀ e ∈ st.origMap, ∀ n ∈ entryNames e, Clean n = true := by
    intro e he n hn
    obtain ⟨x, hx, rfl⟩ := List.mem_map.mp hn
    exact hdb0 x (inv.mapInit e he x hx)
  refine
    { constOpt := inv.constOpt
      constHist := inv.constHist
      opsDisj := ?_
      opsDead := ?_
      opsInit := ?_
      opsTy := ?_
      mapDisj := inv.mapDisj
      mapDead := ?_
      mapInit := inv.mapInit
      mapKeys := ?_
      opsMapDisj := ?_
      fourBit := ?_
      live := ?_
      groupsOK := ?_ }
  · show (st.ops ++ [op]).Pairwise
      (fun o1 o2 => NamesDisj (opSrcNames o1) (opSrcNames o2))
    rw [List.pairwise_append]
    refine ⟨inv.opsDisj, List.pairwise_singleton _ _, ?_⟩
    intro o1 ho1 o2 ho2
    rw [List.mem_singleton] at ho2
    subst ho2
    simp only [opSrcNames, hops]
    exact namesDisj_dead_live (inv.opsDead o1 ho1) hMlive
  · intro o ho n hn
    rcases List.mem_append.mp ho with ho | ho
    · exact hdeadpres n (Or.inl (hsrcClean o ho n hn)) (inv.opsDead o ho n hn)
    · rw [List.mem_singleton] at ho
      subst ho
      rw [opSrcNames, hops] at hn
      exact cluster_dead n hn
  · intro o ho i hi
    rcases List.mem_append.mp ho with ho | ho
    · exact inv.opsInit o ho i hi
    · rw [List.mem_singleton] at ho
      subst ho
      rw [hops] at hi
      exact hinit i hi
  · intro o ho
    rcases List.mem_append.mp ho with ho | ho
    · exact inv.opsTy o ho
    · rw [List.mem_singleton] at ho
      subst ho
      exact Or.inr (Or.inr (Or.inr hty))
  · intro e he n hn
    exact hdeadpres n (Or.inl (hentClean e he n hn)) (inv.mapDead e he n hn)
  · intro e he
    obtain ⟨p, k, hp, hk, he1⟩ := inv.mapKeys e he
    exact ⟨p, k, hp, hk, he1⟩
  · intro o ho hoty e he
    rcases List.mem_append.mp ho with ho | ho
    · exact inv.opsMapDisj o ho hoty e he
    · rw [List.mem_singleton] at ho
      subst ho
      simp only [opSrcNames, hops]
      exact namesDisj_symm (namesDisj_dead_live (inv.mapDead e he) hMlive)
  · intro o ho hoty n hn e he hne
    rcases List.mem_append.mp ho with ho | ho
    · obtain ⟨p, k, hp, hk, he1⟩ := inv.mapKeys e he
      refine hdeadpres e.1 (Or.inr ⟨p, k, hp, Or.inl ⟨he1, hk⟩⟩)
        (inv.fourBit o ho hoty n hn e he hne)
    · rw [List.mem_singleton] at ho
      subst ho
      rw [hty] at hoty
      exact absurd hoty (by decide)
  · intro i hi
    have h2 := mem_of_upsert (mem_of_eraseSources hi)
    rcases h2 with h2 | h2
    · exact inv.live i h2
    · subst h2
      exact Or.inr hSopt
  · intro g2 hg2
    rcases mem_rebuildGroup hg2 with hg | ⟨g, hg, rfl⟩
    · obtain ⟨hnd, hcls2⟩ := inv.groupsOK g2 hg
      refine ⟨hnd, ?_⟩
      intro n hn
      rcases hcls2 n hn with hc | hc
      · exact Or.inl hc
      · exact Or.inr (genBound_mono hc (le_refl st.ctr2) (le_refl st.ctr4)
          (by show st.ctrL ≤ st.ctrL + 1; omega))
    · obtain ⟨hnd, hcls2⟩ := inv.groupsOK g hg
      have hsubf : List.Sublist
          (g.2.filter (fun n => ¬ M.any (fun i => i.name == n))) g.2 :=
        List.filter_sublist _
      constructor
      · rw [List.nodup_append]
        refine ⟨hsubf.nodup hnd, List.nodup_singleton _, ?_⟩
        intro n hnf hnm
        rw [List.mem_singleton] at hnm
        subst hnm
        exact hfresh newI.name (hcls2 newI.name (hsubf.subset hnf)) rfl
      · intro n hn
        rcases List.mem_append.mp hn with hn | hn
        · rcases hcls2 n (hsubf.subset hn) with hc | hc
          · exact Or.inl hc
          · exact Or.inr (genBound_mono hc (le_refl st.ctr2) (le_refl st.ctr4)
              (by show st.ctrL ≤ st.ctrL + 1; omega))
        · rw [List.mem_singleton] at hn
          subst hn
          exact Or.inr ⟨pre, st.ctrL, hpre,
            Or.inr (Or.inr ⟨hname, by show st.ctrL < st.ctrL + 1; omega⟩)⟩

theorem lsrdpq_step (db0 : Db) (st : BankSt) (inv : BankInv db0 st)
    (hdb0 : ∀ i ∈ db0.instances, Clean i.name = true)
    (hshape : ∀ pr ∈ db0.optimalFF, ShapeOK pr.2 = true)
    (key : String) (cl : List Inst)
    (hlive : ∀ x ∈ cl, findInst st.db.instances x.name = some x)
    (hinit : ∀ x ∈ cl, x ∈ db0.instances) :
    BankInv db0 (lsrdpqCluster key st cl) ∧
    st.ctr2 ≤ (lsrdpqCluster key st cl).ctr2 ∧
    st.ctr4 ≤ (lsrdpqCluster key st cl).ctr4 ∧
    st.ctrL ≤ (lsrdpqCluster key st cl).ctrL ∧
    ∀ n, (∀ x ∈ cl, x.name ≠ n) →
      (Clean n = true ∨ GenBound st.ctr2 st.ctr4 st.ctrL n) →
      findInst (lsrdpqCluster key st cl).db.instances n =
        findInst st.db.instances n := by
  have skip : BankInv db0 st ∧ st.ctr2 ≤ st.ctr2 ∧
      st.ctr4 ≤ st.ctr4 ∧ st.ctrL ≤ st.ctrL ∧
      ∀ n, (∀ x ∈ cl, x.name ≠ n) →
        (Clean n = true ∨ GenBound st.ctr2 st.ctr4 st.ctrL n) →
        findInst st.db.instances n = findInst st.db.instances n :=
    ⟨inv, le_refl _, le_refl _, le_refl _, fun n _ _ => rfl⟩
  cases cl with
  | nil =>
    simp only [lsrdpqCluster]
    exact skip
  | cons f rest =>
    simp only [lsrdpqCluster]
    split
    · exact skip
    · split
      · exact skip
      · rename_i opt hopt
        have hSopt : ShapeOK opt = true := by
          obtain ⟨pr, hpr, he⟩ := findOptimal_mem hopt
          exact he ▸ hshape pr (inv.constOpt ▸ hpr)
        have hprecln : Clean (extract_hierarchy_head f.name) = true :=
          head_clean (hdb0 f (hinit f (List.mem_cons_self _ _)))
        have hI := lsrdpq_act db0 st inv hdb0 key (f :: rest)
          { name := (if extract_hierarchy_head f.name = "" then "ff_lsrdpq4_"
              else extract_hierarchy_head f.name ++ "/ff_lsrdpq4_") ++
                toString st.ctrL,
            cellName := opt,
            posX := ((f :: rest).map (fun i => i.posX)).sum / ((f :: rest).length : ℚ),
            posY := ((f :: rest).map (fun i => i.posY)).sum / ((f :: rest).length : ℚ),
            bankingType := BankTy.risingLsrdpq, moduleName := f.moduleName,
            connections := map_singlebit_to_multibit_connections st.db opt
              (f :: rest) 4 }
          { sources := f :: rest,
            resultName := (if extract_hierarchy_head f.name = "" then "ff_lsrdpq4_"
              else extract_hierarchy_head f.name ++ "/ff_lsrdpq4_") ++
                toString st.ctrL,
            targetCell := opt,
            pinMapping := generate_complete_banking_pin_mapping (f :: rest)
              ((if extract_hierarchy_head f.name = "" then "ff_lsrdpq4_"
                else extract_hierarchy_head f.name ++ "/ff_lsrdpq4_") ++
                  toString st.ctrL),
            opType := "LSRDPQ_4BIT_BANKING" }
          (extract_hierarchy_head f.name) hlive hinit rfl rfl
          hSopt (nmL_eq (extract_hierarchy_head f.name) st.ctrL) hprecln
        refine ⟨hI, le_refl _, le_refl _, ?_, ?_⟩
        · show st.ctrL ≤ st.ctrL + 1
          omega
        · intro n hne hcl
          refine table_unchanged hne ?_
          intro he
          exact freshL hcl
            (he.trans (nmL_eq (extract_hierarchy_head f.name) st.ctrL))

theorem lsrdpq_fold (db0 : Db) (hdb0 : ∀ i ∈ db0.instances, Clean i.name = true)
    (hshape : ∀ pr ∈ db0.optimalFF, ShapeOK pr.2 = true) (key : String) :
    ∀ (CS : List (List Inst)) (st : BankSt),
      BankInv db0 st →
      (∀ C ∈ CS, ∀ x ∈ C,
        findInst st.db.instances x.name = some x ∧ x ∈ db0.instances) →
      CS.Pairwise (fun C D => NamesDisj (instNames C) (instNames D)) →
      BankInv db0 (CS.foldl (lsrdpqCluster key) st) := by
  intro CS
  induction CS with
  | nil => intro st inv _ _; exact inv
  | cons c cs ih =>
    intro st inv hpend hpw
    rw [List.foldl_cons]
    obtain ⟨hCD, hpw2⟩ := List.pairwise_cons.mp hpw
    obtain ⟨inv1, hc2, hc4, hcL, hook⟩ :=
      lsrdpq_step db0 st inv hdb0 hshape key c
        (fun x hx => (hpend c (List.mem_cons_self _ _) x hx).1)
        (fun x hx => (hpend c (List.mem_cons_self _ _) x hx).2)
    have hpend2 : ∀ p ∈ cs, ∀ x ∈ p,
        findInst (lsrdpqCluster key st c).db.instances x.name = some x ∧
          x ∈ db0.instances := by
      intro p hp x hx
      have h1 := hpend p (List.mem_cons_of_mem _ hp) x hx
      refine ⟨?_, h1.2⟩
      rw [hook x.name ?_ (Or.inl (hdb0 x h1.2))]
      · exact h1.1
      · intro y hy hyx
        exact hCD p hp x.name (hyx ▸ List.mem_map.mpr ⟨y, hy, rfl⟩)
          (List.mem_map.mpr ⟨x, hx, rfl⟩)
    exact ih (lsrdpqCluster key st c) inv1 hpend2 hpw2

theorem lsrdpq_pass (db0 : Db)
    (hdb0 : ∀ i ∈ db0.instances, Clean i.name = true)
    (hshape : ∀ pr ∈ db0.optimalFF, ShapeOK pr.2 = true)
    (st : BankSt) (key : String) (inv : BankInv db0 st) :
    BankInv db0 (execute_lsrdpq_4bit_banking st key) := by
  have hgnd : ∀ g ∈ st.db.groups, g.2.Nodup := fun g hg => (inv.groupsOK g hg).1
  have hnd := collect_lsr_nodup st.db key hgnd
  have hfacts := collect_lsr_facts st.db key
  have hinitf : ∀ x ∈ collect_lsrdpq_instances_for_group st.db key,
      x ∈ db0.instances := by
    intro x hx
    obtain ⟨hlv, hflt, -⟩ := hfacts x hx
    have hmem : x ∈ st.db.instances := (findInst_name hlv).2
    rcases inv.live x hmem with h | h
    · exact h
    · rw [Bool.and_eq_true] at hflt
      obtain ⟨-, h2⟩ := hflt
      rw [shape_not_lsr h] at h2
      exact Bool.noConfusion h2
  obtain ⟨hcl, hpw⟩ := sdc_facts (collect_lsrdpq_instances_for_group st.db key) 4
    LSRDPQ_4BIT_BANKING_distance hnd
  simp only [execute_lsrdpq_4bit_banking]
  split
  · exact inv
  · exact lsrdpq_fold db0 hdb0 hshape key _ st inv
      (fun C hC x hx =>
        ⟨(hfacts x ((hcl C hC).2 x hx)).1, hinitf x ((hcl C hC).2 x hx)⟩)
      hpw

theorem fsdn_two_phase (db0 : Db)
    (hdb0 : ∀ i ∈ db0.instances, Clean i.name = true)
    (hshape : ∀ pr ∈ db0.optimalFF, ShapeOK pr.2 = true)
    (st : BankSt) (inv : BankInv db0 st) (hnt : NoTwoBit st) :
    BankInv db0 (execute_fsdn_two_phase_banking st) := by
  rw [execute_fsdn_two_phase_banking]
  have hkeys : ∀ (keys : List String) (s : BankSt), BankInv db0 s → NoTwoBit s →
      BankInv db0 (keys.foldl
        (fun s key =>
          let initial := collect_fsdn_instances_for_group s.db key
          if initial.length < 2 then s
          else
            let r := execute_1bit_to_2bit_banking s key
            if 0 < r.2 then execute_2bit_to_4bit_banking r.1 key else r.1)
        s) ∧
      NoTwoBit (keys.foldl
        (fun s key =>
          let initial := collect_fsdn_instances_for_group s.db key
          if initial.length < 2 then s
          else
            let r := execute_1bit_to_2bit_banking s key
            if 0 < r.2 then execute_2bit_to_4bit_banking r.1 key else r.1)
        s) := by
    intro keys
    induction keys with
    | nil => intro s inv2 hnt2; exact ⟨inv2, hnt2⟩
    | cons key ks ih =>
      intro s inv2 hnt2
      rw [List.foldl_cons]
      refine ih _ ?_ ?_
      all_goals
        simp only []
        split
        · first | exact inv2 | exact hnt2
        · obtain ⟨invA, hntA⟩ := phase1_pass db0 hdb0 hshape s key inv2 hnt2
          split
          · obtain ⟨invB, hntB⟩ :=
              phase2_pass db0 hdb0 hshape (execute_1bit_to_2bit_banking s key).1
                key invA hntA
            first | exact invB | exact hntB
          · first | exact invA | exact hntA
  obtain ⟨invM, hntM⟩ := hkeys (st.db.groups.map Prod.fst) st inv hnt
  exact finalize_pass db0 _ invM hntM

theorem lsrdpq_single_phase (db0 : Db)
    (hdb0 : ∀ i ∈ db0.instances, Clean i.name = true)
    (hshape : ∀ pr ∈ db0.optimalFF, ShapeOK pr.2 = true)
    (st : BankSt) (inv : BankInv db0 st) :
    BankInv db0 (execute_lsrdpq_single_phase_banking st) := by
  rw [execute_lsrdpq_single_phase_banking]
  have hkeys : ∀ (keys : List String) (s : BankSt), BankInv db0 s →
      BankInv db0 (keys.foldl
        (fun s key =>
          let initial := collect_lsrdpq_instances_for_group s.db key
          if initial.length < 4 then s else execute_lsrdpq_4bit_banking s key)
        s) := by
    intro keys
    induction keys with
    | nil => intro s inv2; exact inv2
    | cons key ks ih =>
      intro s inv2
      rw [List.foldl_cons]
      refine ih _ ?_
      simp only []
      split
      · exact inv2
      · exact lsrdpq_pass db0 hdb0 hshape s key inv2
  exact hkeys (st.db.groups.map Prod.fst) st inv

theorem record_bank_facts (d : Db) (s0 : Inst) (rest : List Inst) (nm c : String)
    (pm : List (String × String)) :
    (record_bank_transformation d (s0 :: rest) nm c pm).instances = d.instances ∧
    ∃ r0 : TRec, (record_bank_transformation d (s0 :: rest) nm c pm).history
        = d.history ++ [r0] ∧ r0.op = TOp.bankOp ∧
        recSrcNames r0 = s0.name :: rest.map (fun i => i.name) := by
  exact ⟨rfl, _, rfl, rfl, rfl⟩

theorem record_fold_generic (f : Db → BankOp → Db)
    (hf : ∀ d op, (f d op).instances = d.instances ∧
      ((f d op).history.filter (fun r => r.op == TOp.bankOp)).map recSrcNames =
        ((d.history.filter (fun r => r.op == TOp.bankOp)).map recSrcNames) ++
        (if op.sources.isEmpty then [] else [opSrcNames op])) :
    ∀ (ops : List BankOp) (d : Db),
      (ops.foldl f d).instances = d.instances ∧
      ((ops.foldl f d).history.filter (fun r => r.op == TOp.bankOp)).map recSrcNames =
        ((d.history.filter (fun r => r.op == TOp.bankOp)).map recSrcNames) ++
        (ops.filter (fun op => !op.sources.isEmpty)).map opSrcNames := by
  intro ops
  induction ops with
  | nil => intro d; exact ⟨rfl, by simp⟩
  | cons op ops ih =>
    intro d
    rw [List.foldl_cons]
    obtain ⟨hi1, hh1⟩ := hf d op
    obtain ⟨hi2, hh2⟩ := ih (f d op)
    refine ⟨hi2.trans hi1, ?_⟩
    rw [hh2, hh1, List.filter_cons]
    cases he : op.sources.isEmpty with
    | true => simp [he]
    | false => simp [he, List.append_assoc]

theorem record_all_facts (st : BankSt) :
    (record_all_banking_transformations st).db.instances = st.db.instances ∧
    ((record_all_banking_transformations st).db.history.filter
        (fun r => r.op == TOp.bankOp)).map recSrcNames
      = ((st.db.history.filter (fun r => r.op == TOp.bankOp)).map recSrcNames) ++
        (st.ops.filter (fun op => !op.sources.isEmpty)).map opSrcNames := by
  have hf : ∀ (d : Db) (op : BankOp),
      ((fun d op =>
        let filled :=
          if op.targetCell = "" ∨ op.pinMapping = [] then
            match findInst d.instances op.resultName with
            | some ri =>
              ((if op.targetCell = "" then ri.cellName else op.targetCell),
                (if op.pinMapping = [] then
                    generate_complete_banking_pin_mapping op.sources op.resultName
                  else op.pinMapping))
            | none => (op.targetCell, op.pinMapping)
          else (op.targetCell, op.pinMapping)
        record_bank_transformation d op.sources op.resultName filled.1 filled.2 :
          Db → BankOp → Db) d op).instances = d.instances ∧
      (((fun d op =>
        let filled :=
          if op.targetCell = "" ∨ op.pinMapping = [] then
            match findInst d.instances op.resultName with
            | some ri =>
              ((if op.targetCell = "" then ri.cellName else op.targetCell),
                (if op.pinMapping = [] then
                    generate_complete_banking_pin_mapping op.sources op.resultName
                  else op.pinMapping))
            | none => (op.targetCell, op.pinMapping)
          else (op.targetCell, op.pinMapping)
        record_bank_transformation d op.sources op.resultName filled.1 filled.2 :
          Db → BankOp → Db) d op).history.filter
            (fun r => r.op == TOp.bankOp)).map recSrcNames =
        ((d.history.filter (fun r => r.op == TOp.bankOp)).map recSrcNames) ++
        (if op.sources.isEmpty then [] else [opSrcNames op]) := by
    intro d op
    cases hs : op.sources with
    | nil =>
      constructor
      · show (record_bank_transformation d op.sources op.resultName _ _).instances
          = d.instances
        rw [hs, record_bank_transformation]
      · show ((record_bank_transformation d op.sources op.resultName _ _).history.filter
            (fun r => r.op == TOp.bankOp)).map recSrcNames = _
        rw [hs, record_bank_transformation]
        simp
    | cons s0 rest =>
      obtain ⟨hi1, r0, hh, hop, hsrc⟩ := record_bank_facts d s0 rest op.resultName
        (if op.targetCell = "" ∨ op.pinMapping = [] then
            match findInst d.instances op.resultName with
            | some ri =>
              ((if op.targetCell = "" then ri.cellName else op.targetCell),
                (if op.pinMapping = [] then
                    generate_complete_banking_pin_mapping (s0 :: rest) op.resultName
                  else op.pinMapping))
            | none => (op.targetCell, op.pinMapping)
          else (op.targetCell, op.pinMapping)).1
        (if op.targetCell = "" ∨ op.pinMapping = [] then
            match findInst d.instances op.resultName with
            | some ri =>
              ((if op.targetCell = "" then ri.cellName else op.targetCell),
                (if op.pinMapping = [] then
                    generate_complete_banking_pin_mapping (s0 :: rest) op.resultName
                  else op.pinMapping))
            | none => (op.targetCell, op.pinMapping)
          else (op.targetCell, op.pinMapping)).2
      constructor
      · show (record_bank_transformation d op.sources op.resultName _ _).instances
          = d.instances
        rw [hs]
        exact hi1
      · show ((record_bank_transformation d op.sources op.resultName _ _).history.filter
            (fun r => r.op == TOp.bankOp)).map recSrcNames = _
        rw [hs, hh, List.filter_append]
        have hf0 : List.filter (fun r => r.op == TOp.bankOp) [r0] = [r0] := by
          simp [hop]
        rw [hf0, List.map_append]
        have hif : (if (s0 :: rest).isEmpty = true then ([] : List (List String))
            else [opSrcNames op]) = [opSrcNames op] := by simp
        rw [hif]
        have hop2 : opSrcNames op = s0.name :: rest.map (fun i => i.name) := by
          rw [opSrcNames, instNames, hs]
          rfl
        rw [List.map_singleton, hsrc, hop2]
  exact record_fold_generic _ hf st.ops st.db

/-- C10 (confirmed): each flip-flop instance is consumed by at most one
banking synthesis across pass A (debank-cluster rebanking), the FSDN
two-phase pass (with its finalisation of leftover 2-bit pairs) and the
LSRDPQ pass.  Stated over the BANK records `banking_pipeline` leaves in the
history, for a well-formed initial database (unique instance names; no
design name containing one of the generator substrings `ff_fsdn2_`,
`ff_fsdn4_`, `ff_lsrdpq4_`, `_REBANKED`; duplicate-free, clean group member
lists; every cached optimum cell shaped like its family; no pre-existing
BANK record): the source-name lists of the recorded banking operations are
pairwise disjoint, every recorded source is absent from the final instance
table, and every recorded source named an instance of the initial table.
The proof threads `BankInv` through all passes: collectors only pick up
live instances, each synthesis erases its cluster and inserts one freshly
generated name (freshness by decimal re-parsing of `Nat.repr` and stem
analysis), and the finalizer guard skips pairs feeding a recorded 4-bit
operation. -/
theorem banking_sources_disjoint (db0 : Db)
    (hNames : (instNames db0.instances).Nodup)
    (hClean : ∀ i ∈ db0.instances, Clean i.name = true)
    (hGroups : ∀ g ∈ db0.groups, g.2.Nodup ∧ ∀ n ∈ g.2, Clean n = true)
    (hShape : ∀ pr ∈ db0.optimalFF, ShapeOK pr.2 = true)
    (hHist : ∀ r ∈ db0.history, r.op ≠ TOp.bankOp) :
    (((banking_pipeline db0).db.history.filter
        (fun r => r.op == TOp.bankOp)).map recSrcNames).Pairwise NamesDisj ∧
    ∀ r ∈ (banking_pipeline db0).db.history.filter (fun r => r.op == TOp.bankOp),
      ∀ n ∈ recSrcNames r,
        findInst (banking_pipeline db0).db.instances n = none ∧
        ∃ i ∈ db0.instances, i.name = n := by
  have inv0 : BankInv db0 { db := db0 } :=
    { constOpt := rfl
      constHist := rfl
      opsDisj := List.Pairwise.nil
      opsDead := fun o ho => absurd ho (List.not_mem_nil o)
      opsInit := fun o ho => absurd ho (List.not_mem_nil o)
      opsTy := fun o ho => absurd ho (List.not_mem_nil o)
      mapDisj := List.Pairwise.nil
      mapDead := fun e he => absurd he (List.not_mem_nil e)
      mapInit := fun e he => absurd he (List.not_mem_nil e)
      mapKeys := fun e he => absurd he (List.not_mem_nil e)
      opsMapDisj := fun o ho => absurd ho (List.not_mem_nil o)
      fourBit := fun o ho => absurd ho (List.not_mem_nil o)
      live := fun i hi => Or.inl hi
      groupsOK := fun g hg =>
        ⟨(hGroups g hg).1, fun n hn => Or.inl ((hGroups g hg).2 n hn)⟩ }
  have hnt0 : NoTwoBit { db := db0 } := fun o ho => absurd ho (List.not_mem_nil o)
  obtain ⟨invA, hntA⟩ := passA_pass db0 hClean hShape hNames _ inv0 hnt0 rfl
  have invB := fsdn_two_phase db0 hClean hShape _ invA hntA
  have invC := lsrdpq_single_phase db0 hClean hShape _ invB
  obtain ⟨hinst, hhist⟩ := record_all_facts
    (execute_lsrdpq_single_phase_banking
      (execute_fsdn_two_phase_banking
        (execute_debank_cluster_rebanking { db := db0 })))
  have hsf : (execute_lsrdpq_single_phase_banking
      (execute_fsdn_two_phase_banking
        (execute_debank_cluster_rebanking
          ({ db := db0 } : BankSt)))).db.history.filter
        (fun r => r.op == TOp.bankOp) = [] := by
    rw [invC.constHist]
    rw [List.filter_eq_nil_iff]
    intro r hr
    simpa using hHist r hr
  have hbp : banking_pipeline db0 = record_all_banking_transformations
      (execute_lsrdpq_single_phase_banking
        (execute_fsdn_two_phase_banking
          (execute_debank_cluster_rebanking { db := db0 }))) := rfl
  rw [hbp]
  constructor
  · rw [hhist, hsf]
    simp only [List.map_nil, List.nil_append]
    rw [List.pairwise_map]
    exact List.Pairwise.sublist (List.filter_sublist _) invC.opsDisj
  · intro r hr n hn
    have hmem : recSrcNames r ∈ ((record_all_banking_transformations
        (execute_lsrdpq_single_phase_banking
          (execute_fsdn_two_phase_banking
            (execute_debank_cluster_rebanking
              { db := db0 })))).db.history.filter
          (fun rr => rr.op == TOp.bankOp)).map recSrcNames :=
      List.mem_map.mpr ⟨r, hr, rfl⟩
    rw [hhist, hsf] at hmem
    simp only [List.map_nil, List.nil_append] at hmem
    obtain ⟨op, hop, hsrceq⟩ := List.mem_map.mp hmem
    have hopmem : op ∈ (execute_lsrdpq_single_phase_banking
        (execute_fsdn_two_phase_banking
          (execute_debank_cluster_rebanking
            ({ db := db0 } : BankSt)))).ops := List.mem_of_mem_filter hop
    rw [← hsrceq] at hn
    constructor
    · rw [hinst]
      exact invC.opsDead op hopmem n hn
    · obtain ⟨i, hi, rfl⟩ := List.mem_map.mp hn
      exact ⟨i, invC.opsInit op hopmem i hi, rfl⟩

/-- Witness: the hypotheses hold for the concrete pass-A database `bDb`,
whose single banking operation consumes `b0`, `b1`, `b2` exactly once. -/
theorem banking_sources_disjoint_witness :
    (((banking_pipeline bDb).db.history.filter
        (fun r => r.op == TOp.bankOp)).map recSrcNames).Pairwise NamesDisj ∧
    ∀ r ∈ (banking_pipeline bDb).db.history.filter (fun r => r.op == TOp.bankOp),
      ∀ n ∈ recSrcNames r,
        findInst (banking_pipeline bDb).db.instances n = none ∧
        ∃ i ∈ bDb.instances, i.name = n :=
  banking_sources_disjoint bDb (by decide) (by decide) (by decide) (by decide)
    (by decide)
